import Mathlib

/-!
# FUSE core: a shallow embedding of `packages/core/index.js`

The development models the two classes of the core package:

* `InMemoryDriver`, the default driver, whose state is the private `_data` object;
* `FUSE`, the engine, which wraps the four primitive operations of a driver in the
  `before`/`after` hooks of a middleware list and routes every failure through
  `_handleError`.

Of the other packages it models what the engine meets of them: the `JSONDriver` of
`packages/json/index.js` as a driver, and an instance of the `CryptoMiddleware` of
`packages/crypto/index.js` as an entry of the middleware list.

Foreign code (hooks, driver methods, event listeners) is a state transformer that may throw.
An engine operation returns its outcome, the final state and the list of foreign calls it made,
in the order in which it made them.
-/

set_option autoImplicit false

namespace FuseDB

/-! ## Values -/

/-- A JavaScript value, as far as the engine can tell values apart. -/
inductive Value where
  /-- The value `undefined`. -/
  | undefined : Value
  /-- The value `null`. -/
  | null : Value
  /-- A boolean. -/
  | bool (b : Bool) : Value
  /-- A finite number; integers suffice for everything stated here. -/
  | num (n : Int) : Value
  /-- The number `NaN`. -/
  | nan : Value
  /-- A string. -/
  | str (s : String) : Value
  /-- A plain data object: its own enumerable properties in creation order.
  Its prototype is `Object.prototype`. -/
  | obj (props : List (String × Value)) : Value
  /-- An array of values. -/
  | arr (items : List Value) : Value
  /-- An object created by the runtime rather than by the caller (a built-in function,
  `Object.prototype`, an error instance), identified by name. -/
  | native (name : String) : Value

/-- Own string-keyed data properties of an object, in creation order. -/
abbrev Props := List (String × Value)

/-- Test `v !== undefined`. -/
def Value.isDefined : Value → Bool
  | .undefined => false
  | _ => true

/-- Test `typeof v === 'boolean'`. -/
def Value.isBoolean : Value → Bool
  | .bool _ => true
  | _ => false

/-- Test that `v` is an object in the sense of the language specification
(`null` is not an object, functions and arrays are). -/
def Value.isObject : Value → Bool
  | .obj _ => true
  | .arr _ => true
  | .native _ => true
  | _ => false

/-- The `TypeError` the runtime throws when a property of `null` is touched. -/
def typeError : Value := .native "TypeError"

/-- Test `v instanceof Error`: the error instances of this development are the native values
named after an error class or after an error code of the runtime. -/
def Value.isError : Value → Bool
  | .native name =>
    decide (name ∈ ["Error", "TypeError", "SyntaxError", "RangeError", "ERR_UNHANDLED_ERROR"])
  | _ => false

/-! ## Own properties of an ordinary object -/

/-- Value of the own property `key`, if there is one. -/
def lookupOwn : Props → String → Option Value
  | [], _ => none
  | (k, v) :: rest, key => if k = key then some v else lookupOwn rest key

/-- Test whether `key` is an own property. -/
def hasOwn : Props → String → Bool
  | [], _ => false
  | (k, _) :: rest, key => if k = key then true else hasOwn rest key

/-- Give own property `key` the value `v`: an existing property keeps its place, a new
property is created after all existing ones. -/
def assignOwn : Props → String → Value → Props
  | [], key, v => [(key, v)]
  | (k, w) :: rest, key, v => if k = key then (k, v) :: rest else (k, w) :: assignOwn rest key v

/-- Delete own property `key`. -/
def deleteOwn : Props → String → Props
  | [], _ => []
  | (k, w) :: rest, key => if k = key then deleteOwn rest key else (k, w) :: deleteOwn rest key

/-- Numeric value of a list of decimal digits. -/
def digitsValue (cs : List Char) : Nat :=
  cs.foldl (fun n c => 10 * n + (c.toNat - 48)) 0

/-- Array index denoted by a property key: the key is the canonical decimal form of an
integer between `0` and `2^32 - 2`. -/
def arrayIndex? (key : String) : Option Nat :=
  let cs := key.toList
  if cs ≠ [] ∧ cs.all Char.isDigit = true ∧ (cs.head? ≠ some '0' ∨ cs.length = 1)
      ∧ digitsValue cs < 2 ^ 32 - 1 then
    some (digitsValue cs)
  else none

/-- Result of `Object.keys` on an ordinary object with the given own properties: array-index keys
in ascending numeric order, then every other key in creation order. -/
def ownKeys (ps : Props) : List String :=
  ((ps.filterMap (fun p => (arrayIndex? p.1).map (fun n => (n, p.1)))).insertionSort
      (fun a b => a.1 ≤ b.1)).map (fun a => a.2)
    ++ (ps.filter (fun p => (arrayIndex? p.1).isNone)).map (fun p => p.1)

/-- Own enumerable properties of a value, as `Object.keys` and indexing see them. -/
def Value.enumerableOwn : Value → Props
  | .obj ps => ps
  | .arr items => items.enum.map (fun p => (toString p.1, p.2))
  | .str s => s.toList.enum.map (fun p => (toString p.1, Value.str (String.singleton p.2)))
  | _ => []

/-- Own data properties of an object, readable when the object serves as a prototype. -/
def Value.ownProps : Value → Props
  | .arr items => (Value.arr items).enumerableOwn ++ [("length", .num items.length)]
  | v => v.enumerableOwn

/-- String keys of the data properties of `Object.prototype` (all of them built-in functions). -/
def objectPrototypeKeys : List String :=
  ["constructor", "__defineGetter__", "__defineSetter__", "hasOwnProperty", "__lookupGetter__",
   "__lookupSetter__", "isPrototypeOf", "propertyIsEnumerable", "toString", "valueOf",
   "toLocaleString"]

/-- Read `key` on `Object.prototype` for a receiver whose prototype is `proto`: the accessor
`__proto__` yields the receiver's prototype, a data property yields its built-in function. -/
def objectPrototypeGet (proto : Value) (key : String) : Value :=
  if key = "__proto__" then proto
  else if key ∈ objectPrototypeKeys then .native ("Object.prototype." ++ key)
  else .undefined

/-- An ordinary extensible object: its prototype and its own properties. -/
structure PlainObject where
  /-- The prototype: `Object.prototype` for an object literal. -/
  proto : Value
  /-- The own properties, in creation order. -/
  props : Props

/-- The object literal written as a pair of braces. -/
def PlainObject.empty : PlainObject := ⟨.native "Object.prototype", []⟩

/-- Assignment `obj[key] = value` on an ordinary object. It reaches the `__proto__` setter of
`Object.prototype` when the object has a prototype and no data property of that name lies in
between; the setter ignores values that are neither an object nor `null`. -/
def PlainObject.assign (o : PlainObject) (key : String) (value : Value) : PlainObject :=
  if hasOwn o.props key then ⟨o.proto, assignOwn o.props key value⟩
  else
    match o.proto with
    | .null => ⟨.null, assignOwn o.props key value⟩
    | p =>
      if key = "__proto__" ∧ hasOwn p.ownProps key = false then
        match value with
        | .null => ⟨.null, o.props⟩
        | v => if v.isObject then ⟨v, o.props⟩ else o
      else ⟨o.proto, assignOwn o.props key value⟩

/-! ## Serialization -/

/-- The native value is a built-in function: those are the values of the data properties of
`Object.prototype`, named after the property. Every other native value is an object without
own enumerable properties. -/
def nativeIsFunction (name : String) : Bool :=
  objectPrototypeKeys.any (fun key => name = "Object.prototype." ++ key)

/-- Own properties listed as `JSON.stringify` visits them and `JSON.parse` creates them again:
in the order of `Object.keys`. -/
def orderProps (ps : Props) : Props :=
  (ownKeys ps).filterMap (fun k => (lookupOwn ps k).map (fun v => (k, v)))

mutual

/-- What `JSON.parse(JSON.stringify(v))` yields; `none` when `JSON.stringify(v)` is `undefined`
rather than a text. Values with a callable `toJSON` property are not modelled. -/
def Value.jsonClone : Value → Option Value
  | .undefined => none
  | .null => some .null
  | .bool b => some (.bool b)
  | .num n => some (.num n)
  | .nan => some .null
  | .str s => some (.str s)
  | .obj ps => some (.obj (orderProps (jsonCloneProps ps)))
  | .arr items => some (.arr (jsonCloneItems items))
  | .native name => if nativeIsFunction name then none else some (.obj [])

/-- Properties that survive serialization, in creation order: a property whose value has no
JSON text is left out. -/
def jsonCloneProps : List (String × Value) → List (String × Value)
  | [] => []
  | (k, v) :: rest =>
    match v.jsonClone with
    | some w => (k, w) :: jsonCloneProps rest
    | none => jsonCloneProps rest

/-- Array elements after serialization: an element whose value has no JSON text becomes
`null`. -/
def jsonCloneItems : List Value → List Value
  | [] => []
  | v :: rest => (v.jsonClone.getD .null) :: jsonCloneItems rest

end

/-- The quotation mark, as a string. -/
def quotationMark : String := String.singleton (Char.ofNat 34)

/-- The backslash, as a string. -/
def backslash : String := String.singleton (Char.ofNat 92)

/-- JSON text of one character of a string: the quotation mark, the backslash and the control
characters are escaped. -/
def jsonEscape (c : Char) : String :=
  if c.toNat = 34 then backslash ++ quotationMark
  else if c.toNat = 92 then backslash ++ backslash
  else if c.toNat = 8 then backslash ++ "b"
  else if c.toNat = 9 then backslash ++ "t"
  else if c.toNat = 10 then backslash ++ "n"
  else if c.toNat = 12 then backslash ++ "f"
  else if c.toNat = 13 then backslash ++ "r"
  else if c.toNat < 32 then
    backslash ++ "u00" ++ String.singleton (Nat.digitChar (c.toNat / 16))
      ++ String.singleton (Nat.digitChar (c.toNat % 16))
  else String.singleton c

/-- JSON text of a string. -/
def jsonQuote (s : String) : String :=
  quotationMark ++ String.join (s.toList.map jsonEscape) ++ quotationMark

mutual

/-- JSON text of a value that serialization has cloned (numbers print in decimal, which is what
the runtime prints below `10^21`). -/
def Value.jsonText : Value → String
  | .null => "null"
  | .bool b => if b then "true" else "false"
  | .num n => toString n
  | .str s => jsonQuote s
  | .obj ps => "\x7b" ++ String.intercalate "," (jsonTextProps ps) ++ "\x7d"
  | .arr items => "[" ++ String.intercalate "," (jsonTextItems items) ++ "]"
  | _ => "null"

/-- JSON texts of the members of an object. -/
def jsonTextProps : List (String × Value) → List String
  | [] => []
  | (k, v) :: rest => (jsonQuote k ++ ":" ++ v.jsonText) :: jsonTextProps rest

/-- JSON texts of the elements of an array. -/
def jsonTextItems : List Value → List String
  | [] => []
  | v :: rest => v.jsonText :: jsonTextItems rest

end

/-! ## The in-memory driver -/

/-- The object held in `_data`. -/
inductive Data where
  /-- An ordinary object with prototype `proto` and the given own properties.
  `proto` is `Value.null` for `Object.create(null)` and `Value.native "Object.prototype"` for
  an object built by `JSON.parse`; the `__proto__` setter can install any other object.
  Of a prototype that is an array or a built-in function only its own data properties and
  those of `Object.prototype` are modelled. -/
  | object (proto : Value) (props : Props) : Data
  /-- The value `null`, which `JSON.parse` returns for the text `null`. -/
  | null : Data

/-- Outcome of the runtime's `JSON.parse` on a snapshot text. Texts that denote a number, a
string, a boolean or an array are not modelled. -/
inductive Parsed where
  /-- The text is not JSON: `JSON.parse` throws `err`. -/
  | syntaxError (err : Value) : Parsed
  /-- The text `null`. -/
  | null : Parsed
  /-- A JSON object, given by the own properties of the object that `JSON.parse` builds. -/
  | object (props : Props) : Parsed

/-- A snapshot: its text together with what `JSON.parse` makes of it. -/
structure Snapshot where
  /-- The serialized text. -/
  text : String
  /-- The outcome of `JSON.parse text`. -/
  parsed : Parsed

/-- The snapshot `JSON.stringify` makes of an object with the given own properties. -/
def Snapshot.ofProps (ps : Props) : Snapshot :=
  ⟨(Value.obj (orderProps (jsonCloneProps ps))).jsonText,
    .object (orderProps (jsonCloneProps ps))⟩

/-- A call into foreign code: it reads and updates the state of the world and either returns
a value or throws one. State changes made before a throw persist. -/
abbrev Eff (σ α : Type) := σ → Except Value α × σ

/-- State of the default in-memory driver. -/
structure InMemoryDriver where
  /-- The private store. -/
  _data : Data

namespace InMemoryDriver

/-- The driver as its constructor leaves it: `_data = Object.create(null)`. -/
def new : InMemoryDriver := ⟨.object .null []⟩

/-- Method `get(key)`: `return this._data[key]`. -/
def get (key : String) : Eff InMemoryDriver Value := fun d =>
  match d._data with
  | .null => (.error typeError, d)
  | .object proto props =>
    match lookupOwn props key with
    | some v => (.ok v, d)
    | none =>
      match proto with
      | .null => (.ok .undefined, d)
      | p =>
        match lookupOwn p.ownProps key with
        | some v => (.ok v, d)
        | none => (.ok (objectPrototypeGet p key), d)

/-- Method `set(key, value)`: `this._data[key] = value` in strict mode. The assignment reaches
the `__proto__` setter of `Object.prototype` when the object has a prototype and no data
property of that name lies in between; the setter ignores values that are neither an object
nor `null`. -/
def set (key : String) (value : Value) : Eff InMemoryDriver Value := fun d =>
  match d._data with
  | .null => (.error typeError, d)
  | .object proto props =>
    if hasOwn props key then (.ok .undefined, ⟨.object proto (assignOwn props key value)⟩)
    else
      match proto with
      | .null => (.ok .undefined, ⟨.object proto (assignOwn props key value)⟩)
      | p =>
        if key = "__proto__" ∧ hasOwn p.ownProps key = false then
          match value with
          | .null => (.ok .undefined, ⟨.object .null props⟩)
          | v => if v.isObject then (.ok .undefined, ⟨.object v props⟩) else (.ok .undefined, d)
        else (.ok .undefined, ⟨.object proto (assignOwn props key value)⟩)

/-- Method `remove(key)`: `delete this._data[key]`. -/
def remove (key : String) : Eff InMemoryDriver Value := fun d =>
  match d._data with
  | .null => (.error typeError, d)
  | .object proto props => (.ok .undefined, ⟨.object proto (deleteOwn props key)⟩)

/-- Method `has(key)`: `Object.prototype.hasOwnProperty.call(this._data, key)`. -/
def has (key : String) : Eff InMemoryDriver Value := fun d =>
  match d._data with
  | .null => (.error typeError, d)
  | .object _ props => (.ok (.bool (hasOwn props key)), d)

/-- Method `keys()`: `Object.keys(this._data)`. -/
def keys : Eff InMemoryDriver (List String) := fun d =>
  match d._data with
  | .null => (.error typeError, d)
  | .object _ props => (.ok (ownKeys props), d)

/-- Method `size()`: `Object.keys(this._data).length`. -/
def size : Eff InMemoryDriver Value := fun d =>
  match d._data with
  | .null => (.error typeError, d)
  | .object _ props => (.ok (.num (ownKeys props).length), d)

/-- Method `values()`: `Object.keys(this._data).map(k => this._data[k])`. -/
def values : Eff InMemoryDriver (List Value) := fun d =>
  match d._data with
  | .null => (.error typeError, d)
  | .object _ props =>
    (.ok ((ownKeys props).map (fun k => (lookupOwn props k).getD .undefined)), d)

/-- Method `clear()`: `this._data = Object.create(null)`. -/
def clear : Eff InMemoryDriver Value := fun _ =>
  (.ok .undefined, ⟨.object .null []⟩)

/-- Method `importSnapshot(snapshot)`: `this._data = JSON.parse(snapshot)`. -/
def importSnapshot (snapshot : Snapshot) : Eff InMemoryDriver Value := fun d =>
  match snapshot.parsed with
  | .syntaxError err => (.error err, d)
  | .null => (.ok .undefined, ⟨.null⟩)
  | .object props => (.ok .undefined, ⟨.object (.native "Object.prototype") props⟩)

/-- Method `exportSnapshot()`: `return JSON.stringify(this._data)`. -/
def exportSnapshot : Eff InMemoryDriver Snapshot := fun d =>
  match d._data with
  | .null => (.ok ⟨"null", .null⟩, d)
  | .object _ props => (.ok (Snapshot.ofProps props), d)

end InMemoryDriver

/-! ## Foreign calls and traces -/

/-- The operations of the driver contract and of the engine. -/
inductive Op where
  | get | set | remove | has | size | keys | values | clear
  | bulkSet | bulkRemove | importSnapshot | exportSnapshot
  deriving DecidableEq

/-- A place from which the engine calls foreign code. Middleware are numbered by their position
in the middleware list, from `0`. -/
inductive Site where
  /-- Hook `before.<op>` of middleware `i`. -/
  | before (i : Nat) (op : Op) : Site
  /-- Hook `after.<op>` of middleware `i`. -/
  | after (i : Nat) (op : Op) : Site
  /-- Method `<op>` of the bound driver. -/
  | driver (op : Op) : Site
  /-- Hook `onError` of middleware `i`. -/
  | onError (i : Nat) : Site
  /-- The inherited `emit` of the event emitter, for the named event. -/
  | emit (event : String) : Site
  /-- The callback that the caller passed to the operation: a call that its body makes. -/
  | callback : Site
  deriving DecidableEq

/-- One foreign call: where it was made, with which arguments, and how it ended. -/
structure Event where
  /-- The call site. -/
  site : Site
  /-- The arguments passed. -/
  args : List Value
  /-- The value returned, or the value thrown. -/
  result : Except Value Value

/-- An engine computation: from a state it yields an outcome, the state it leaves and the
foreign calls it made, oldest first. -/
def Js (σ α : Type) : Type := σ → Except Value α × σ × List Event

namespace Js

variable {σ α β : Type}

/-- Run a computation from a state. -/
def run (x : Js σ α) (s : σ) : Except Value α × σ × List Event := x s

/-- Return a value without calling anything. -/
def pure (a : α) : Js σ α := fun s => (.ok a, s, [])

/-- Statement `throw e`. -/
def throw (e : Value) : Js σ α := fun s => (.error e, s, [])

/-- Sequencing: the second computation runs only if the first one returns. -/
def bind (x : Js σ α) (f : α → Js σ β) : Js σ β := fun s =>
  match x s with
  | (.ok a, s1, t1) =>
    match f a s1 with
    | (r, s2, t2) => (r, s2, t1 ++ t2)
  | (.error e, s1, t1) => (.error e, s1, t1)

/-- Statement `try { x } catch (err) { handler err }`. -/
def tryCatch (x : Js σ α) (handler : Value → Js σ α) : Js σ α := fun s =>
  match x s with
  | (.ok a, s1, t1) => (.ok a, s1, t1)
  | (.error e, s1, t1) =>
    match handler e s1 with
    | (r, s2, t2) => (r, s2, t1 ++ t2)

/-- A foreign call whose result is rendered as a value in the trace. -/
def callWith (render : α → Value) (site : Site) (args : List Value) (f : Eff σ α) : Js σ α :=
  fun s =>
    match f s with
    | (.ok a, s1) => (.ok a, s1, [⟨site, args, .ok (render a)⟩])
    | (.error e, s1) => (.error e, s1, [⟨site, args, .error e⟩])

/-- A foreign call that returns a value. -/
def call (site : Site) (args : List Value) (f : Eff σ Value) : Js σ Value :=
  callWith id site args f

end Js

/-! ## Collaborators of the engine -/

/-- A middleware: each hook is present (a function) or absent. -/
structure Middleware (σ : Type) where
  /-- Hook `before.get(key)`. -/
  beforeGet : Option (String → Eff σ Value) := none
  /-- Hook `before.set(key, value)`. -/
  beforeSet : Option (String → Value → Eff σ Value) := none
  /-- Hook `before.remove(key)`. -/
  beforeRemove : Option (String → Eff σ Value) := none
  /-- Hook `before.has(key)`. -/
  beforeHas : Option (String → Eff σ Value) := none
  /-- Hook `after.get(key, value)`. -/
  afterGet : Option (String → Value → Eff σ Value) := none
  /-- Hook `after.set(key, value)`. -/
  afterSet : Option (String → Value → Eff σ Value) := none
  /-- Hook `after.remove(key)`. -/
  afterRemove : Option (String → Eff σ Value) := none
  /-- Hook `after.has(key, exists)`. -/
  afterHas : Option (String → Value → Eff σ Value) := none
  /-- Hook `onError(err)`. -/
  onError : Option (Value → Eff σ Value) := none

/-- A driver: the methods the engine calls on `this.driver`. -/
structure Driver (σ : Type) where
  /-- Method `get(key)`. -/
  get : String → Eff σ Value
  /-- Method `set(key, value)`. -/
  set : String → Value → Eff σ Value
  /-- Method `remove(key)`. -/
  remove : String → Eff σ Value
  /-- Method `has(key)`. -/
  has : String → Eff σ Value
  /-- Method `size()`. -/
  size : Eff σ Value
  /-- Method `keys()`. -/
  keys : Eff σ (List String)
  /-- Method `values()`. -/
  values : Eff σ (List Value)
  /-- Method `clear()`. -/
  clear : Eff σ Value
  /-- Optional method `bulkSet(entries)`. -/
  bulkSet : Option (Value → Eff σ Value) := none
  /-- Optional method `bulkRemove(keys)`. -/
  bulkRemove : Option (List String → Eff σ Value) := none
  /-- Optional method `importSnapshot(snapshot)`. -/
  importSnapshot : Option (Snapshot → Eff σ Value) := none
  /-- Optional method `exportSnapshot()`. -/
  exportSnapshot : Option (Eff σ Snapshot) := none

/-- The default driver as a driver over its own state. -/
def InMemoryDriver.driver : Driver InMemoryDriver where
  get := InMemoryDriver.get
  set := InMemoryDriver.set
  remove := InMemoryDriver.remove
  has := InMemoryDriver.has
  size := InMemoryDriver.size
  keys := InMemoryDriver.keys
  values := InMemoryDriver.values
  clear := InMemoryDriver.clear
  importSnapshot := some InMemoryDriver.importSnapshot
  exportSnapshot := some InMemoryDriver.exportSnapshot

/-- The engine: a driver, a middleware list, and the `emit` it inherits from the runtime's
event emitter together with whatever listeners are registered on it. Emitting can throw: a
listener's exception propagates, and so does the emitter's own complaint about an `error`
event nobody listens to. -/
structure FUSE (σ : Type) where
  /-- The bound driver. -/
  driver : Driver σ
  /-- The middleware list. -/
  middleware : List (Middleware σ)
  /-- The inherited `emit(event, payload)`. -/
  emit : String → Value → Eff σ Value

/-! ## The engine -/

namespace FUSE

variable {σ : Type}

/-- Loop of `_handleError`: every middleware with an `onError` function gets the error; what
the hook throws is swallowed. -/
def handleErrorLoop (err : Value) : Nat → List (Middleware σ) → Js σ Unit
  | _, [] => Js.pure ()
  | i, m :: rest =>
    match m.onError with
    | some h =>
      Js.bind (Js.tryCatch (Js.call (.onError i) [err] (h err)) (fun _ => Js.pure .undefined))
        (fun _ => handleErrorLoop err (i + 1) rest)
    | none => handleErrorLoop err (i + 1) rest

/-- Method `_handleError(err)`: notify the middleware, then `this.emit('error', err)`. -/
def _handleError (eng : FUSE σ) (err : Value) : Js σ Unit :=
  Js.bind (handleErrorLoop err 0 eng.middleware) (fun _ =>
    Js.bind (Js.call (.emit "error") [err] (eng.emit "error" err)) (fun _ => Js.pure ()))

/-- Clause `catch (err) { this._handleError(err); throw err; }` shared by the operations. -/
def rethrow {α : Type} (eng : FUSE σ) (err : Value) : Js σ α :=
  Js.bind (eng._handleError err) (fun _ => Js.throw err)

/-- The `after.get` loop, entered with the value to propagate. -/
def getAfter (key : String) : Nat → List (Middleware σ) → Value → Js σ Value
  | _, [], val => Js.pure val
  | i, mm :: rest, val =>
    match mm.afterGet with
    | some h =>
      Js.bind (Js.call (.after i .get) [.str key, val] (h key val))
        (fun v => getAfter key (i + 1) rest v)
    | none => getAfter key (i + 1) rest val

/-- The `before.get` loop. It yields `some val` when the operation returns `val` from inside
the loop (an override, passed through the whole `after.get` loop), `none` when the loop ends. -/
def getBefore (eng : FUSE σ) (key : String) : Nat → List (Middleware σ) → Js σ (Option Value)
  | _, [] => Js.pure none
  | i, m :: rest =>
    match m.beforeGet with
    | some h =>
      Js.bind (Js.call (.before i .get) [.str key] (h key)) (fun override =>
        if override.isDefined then
          Js.bind (getAfter key 0 eng.middleware override) (fun val => Js.pure (some val))
        else getBefore eng key (i + 1) rest)
    | none => getBefore eng key (i + 1) rest

/-- The `try` block of `get`. -/
def getBody (eng : FUSE σ) (key : String) : Js σ Value :=
  Js.bind (getBefore eng key 0 eng.middleware) (fun r =>
    match r with
    | some val => Js.pure val
    | none =>
      Js.bind (Js.call (.driver .get) [.str key] (eng.driver.get key)) (fun result =>
        getAfter key 0 eng.middleware result))

/-- Method `get(key)`. -/
def get (eng : FUSE σ) (key : String) : Js σ Value :=
  Js.tryCatch (getBody eng key) (rethrow eng)

/-- The `before.set` loop, entered with the value to persist. -/
def setBefore (key : String) : Nat → List (Middleware σ) → Value → Js σ Value
  | _, [], val => Js.pure val
  | i, m :: rest, val =>
    match m.beforeSet with
    | some h =>
      Js.bind (Js.call (.before i .set) [.str key, val] (h key val)) (fun newVal =>
        if newVal.isDefined then setBefore key (i + 1) rest newVal
        else setBefore key (i + 1) rest val)
    | none => setBefore key (i + 1) rest val

/-- The `after.set` loop. -/
def setAfter (key : String) (val : Value) : Nat → List (Middleware σ) → Js σ Unit
  | _, [] => Js.pure ()
  | i, m :: rest =>
    match m.afterSet with
    | some h =>
      Js.bind (Js.call (.after i .set) [.str key, val] (h key val))
        (fun _ => setAfter key val (i + 1) rest)
    | none => setAfter key val (i + 1) rest

/-- The `try` block of `set`. -/
def setBody (eng : FUSE σ) (key : String) (value : Value) : Js σ Value :=
  Js.bind (setBefore key 0 eng.middleware value) (fun val =>
    Js.bind (Js.call (.driver .set) [.str key, val] (eng.driver.set key val)) (fun _ =>
      Js.bind (setAfter key val 0 eng.middleware) (fun _ => Js.pure .undefined)))

/-- Method `set(key, value)`. -/
def set (eng : FUSE σ) (key : String) (value : Value) : Js σ Value :=
  Js.tryCatch (setBody eng key value) (rethrow eng)

/-- The `before.remove` loop. -/
def removeBefore (key : String) : Nat → List (Middleware σ) → Js σ Unit
  | _, [] => Js.pure ()
  | i, m :: rest =>
    match m.beforeRemove with
    | some h =>
      Js.bind (Js.call (.before i .remove) [.str key] (h key))
        (fun _ => removeBefore key (i + 1) rest)
    | none => removeBefore key (i + 1) rest

/-- The `after.remove` loop. -/
def removeAfter (key : String) : Nat → List (Middleware σ) → Js σ Unit
  | _, [] => Js.pure ()
  | i, m :: rest =>
    match m.afterRemove with
    | some h =>
      Js.bind (Js.call (.after i .remove) [.str key] (h key))
        (fun _ => removeAfter key (i + 1) rest)
    | none => removeAfter key (i + 1) rest

/-- The `try` block of `remove`. -/
def removeBody (eng : FUSE σ) (key : String) : Js σ Value :=
  Js.bind (removeBefore key 0 eng.middleware) (fun _ =>
    Js.bind (Js.call (.driver .remove) [.str key] (eng.driver.remove key)) (fun _ =>
      Js.bind (removeAfter key 0 eng.middleware) (fun _ => Js.pure .undefined)))

/-- Method `remove(key)`. -/
def remove (eng : FUSE σ) (key : String) : Js σ Value :=
  Js.tryCatch (removeBody eng key) (rethrow eng)

/-- The `before.has` loop. It yields `some override` when the operation returns the boolean
`override` from inside the loop, `none` when the loop ends. -/
def hasBefore (key : String) : Nat → List (Middleware σ) → Js σ (Option Value)
  | _, [] => Js.pure none
  | i, m :: rest =>
    match m.beforeHas with
    | some h =>
      Js.bind (Js.call (.before i .has) [.str key] (h key)) (fun override =>
        if override.isBoolean then Js.pure (some override)
        else hasBefore key (i + 1) rest)
    | none => hasBefore key (i + 1) rest

/-- The `after.has` loop, entered with the existence flag. -/
def hasAfter (key : String) : Nat → List (Middleware σ) → Value → Js σ Value
  | _, [], ex => Js.pure ex
  | i, m :: rest, ex =>
    match m.afterHas with
    | some h =>
      Js.bind (Js.call (.after i .has) [.str key, ex] (h key ex))
        (fun v => hasAfter key (i + 1) rest v)
    | none => hasAfter key (i + 1) rest ex

/-- The `try` block of `has`. -/
def hasBody (eng : FUSE σ) (key : String) : Js σ Value :=
  Js.bind (hasBefore key 0 eng.middleware) (fun r =>
    match r with
    | some override => Js.pure override
    | none =>
      Js.bind (Js.call (.driver .has) [.str key] (eng.driver.has key)) (fun ex =>
        hasAfter key 0 eng.middleware ex))

/-- Method `has(key)`. -/
def has (eng : FUSE σ) (key : String) : Js σ Value :=
  Js.tryCatch (hasBody eng key) (rethrow eng)

/-- Method `size()`. -/
def size (eng : FUSE σ) : Js σ Value :=
  Js.tryCatch (Js.call (.driver .size) [] eng.driver.size) (rethrow eng)

/-- Method `keys()`. -/
def keys (eng : FUSE σ) : Js σ (List String) :=
  Js.tryCatch
    (Js.callWith (fun ks => Value.arr (ks.map Value.str)) (.driver .keys) [] eng.driver.keys)
    (rethrow eng)

/-- Method `values()`. -/
def values (eng : FUSE σ) : Js σ (List Value) :=
  Js.tryCatch (Js.callWith Value.arr (.driver .values) [] eng.driver.values) (rethrow eng)

/-- Method `clear()`. -/
def clear (eng : FUSE σ) : Js σ Value :=
  Js.tryCatch (Js.call (.driver .clear) [] eng.driver.clear) (rethrow eng)

/-- Result of `Object.keys(v)`: it throws on `undefined` and `null`. -/
def objectKeys (v : Value) : Js σ (List String) :=
  match v with
  | .undefined => Js.throw typeError
  | .null => Js.throw typeError
  | w => Js.pure (ownKeys w.enumerableOwn)

/-- Fallback loop of `bulkSet`: `await this.set(k, entries[k])` for each key. -/
def bulkSetLoop (eng : FUSE σ) (entries : Value) : List String → Js σ Value
  | [] => Js.pure .undefined
  | k :: rest =>
    Js.bind (eng.set k ((lookupOwn entries.enumerableOwn k).getD .undefined))
      (fun _ => bulkSetLoop eng entries rest)

/-- Method `bulkSet(entries)`. -/
def bulkSet (eng : FUSE σ) (entries : Value) : Js σ Value :=
  match eng.driver.bulkSet with
  | some f => Js.tryCatch (Js.call (.driver .bulkSet) [entries] (f entries)) (rethrow eng)
  | none => Js.bind (objectKeys entries) (fun ks => bulkSetLoop eng entries ks)

/-- Fallback loop of `bulkRemove`: `await this.remove(k)` for each key. -/
def bulkRemoveLoop (eng : FUSE σ) : List String → Js σ Value
  | [] => Js.pure .undefined
  | k :: rest => Js.bind (eng.remove k) (fun _ => bulkRemoveLoop eng rest)

/-- Method `bulkRemove(keys)`. -/
def bulkRemove (eng : FUSE σ) (ks : List String) : Js σ Value :=
  match eng.driver.bulkRemove with
  | some f =>
    Js.tryCatch (Js.call (.driver .bulkRemove) [.arr (ks.map Value.str)] (f ks)) (rethrow eng)
  | none => bulkRemoveLoop eng ks

/-- Method `importSnapshot(snapshot)`. -/
def importSnapshot (eng : FUSE σ) (snapshot : Snapshot) : Js σ Value :=
  match eng.driver.importSnapshot with
  | some f => Js.call (.driver .importSnapshot) [.str snapshot.text] (f snapshot)
  | none =>
    match snapshot.parsed with
    | .syntaxError err => Js.throw err
    | .null => Js.bind (eng.clear) (fun _ => eng.bulkSet .null)
    | .object props => Js.bind (eng.clear) (fun _ => eng.bulkSet (.obj props))

/-- Fallback loop of `exportSnapshot`: `obj[k] = await this.get(k)` for each key. -/
def exportLoop (eng : FUSE σ) : List String → PlainObject → Js σ PlainObject
  | [], obj => Js.pure obj
  | k :: rest, obj => Js.bind (eng.get k) (fun v => exportLoop eng rest (obj.assign k v))

/-- Method `exportSnapshot()`. -/
def exportSnapshot (eng : FUSE σ) : Js σ Snapshot :=
  match eng.driver.exportSnapshot with
  | some f => Js.callWith (fun snap => Value.str snap.text) (.driver .exportSnapshot) [] f
  | none =>
    Js.bind eng.keys (fun ks =>
      Js.bind (exportLoop eng ks PlainObject.empty) (fun obj =>
        Js.pure (Snapshot.ofProps obj.props)))

end FUSE

/-- An `emit` with a listener for every event, none of which throws: it returns `true`. -/
def quietEmit {σ : Type} : String → Value → Eff σ Value :=
  fun _ _ s => (.ok (.bool true), s)

/-- The engine `new FUSE({ middleware })`: the default in-memory driver under the given
middleware list. -/
def FUSE.inMemory (middleware : List (Middleware InMemoryDriver))
    (emit : String → Value → Eff InMemoryDriver Value) : FUSE InMemoryDriver :=
  ⟨InMemoryDriver.driver, middleware, emit⟩

/-! ## Glob patterns and the regular expression of `find` -/

/-- The UTF-16 code units of a character: one, or a surrogate pair. -/
def utf16 (c : Char) : List Nat :=
  if c.toNat < 65536 then [c.toNat]
  else [55296 + (c.toNat - 65536) / 1024, 56320 + (c.toNat - 65536) % 1024]

/-- The code units of a string, on which the runtime's string and regular expression functions
work. -/
def codeUnits (s : String) : List Nat :=
  s.toList.flatMap utf16

/-- The code unit is a line terminator: line feed, carriage return, line separator or
paragraph separator. -/
def isLineTerminator (u : Nat) : Bool :=
  u = 10 || u = 13 || u = 8232 || u = 8233

/-- The code unit belongs to the class `\s` of a regular expression: white space and line
terminators. -/
def isWhiteSpace (u : Nat) : Bool :=
  u = 9 || u = 10 || u = 11 || u = 12 || u = 13 || u = 32 || u = 160 || u = 5760 ||
    (8192 ≤ u && u ≤ 8202) || u = 8232 || u = 8233 || u = 8239 || u = 8287 || u = 12288 ||
    u = 65279

/-- The code unit belongs to the class `[-[\]{}()+.,\\^$|#\s]` that `find` escapes: the
characters `- [ ] { } ( ) + . , \ ^ $ | #` and white space. -/
def isEscaped (u : Nat) : Bool :=
  u = 45 || u = 91 || u = 93 || u = 123 || u = 125 || u = 40 || u = 41 || u = 43 || u = 46 ||
    u = 44 || u = 92 || u = 94 || u = 36 || u = 124 || u = 35 || isWhiteSpace u

/-- First replacement of `find`: a backslash goes before every escaped character. -/
def escapeSpecials (us : List Nat) : List Nat :=
  us.flatMap (fun u => if isEscaped u then [92, u] else [u])

/-- Second replacement of `find`: every `*` becomes `.*`. -/
def replaceStars (us : List Nat) : List Nat :=
  us.flatMap (fun u => if u = 42 then [46, 42] else [u])

/-- Third replacement of `find`: every `?` becomes `.`. -/
def replaceQuestions (us : List Nat) : List Nat :=
  us.flatMap (fun u => if u = 63 then [46] else [u])

/-- Source of the regular expression `find` builds for a pattern: `^`, the pattern after the
three replacements, `$`. -/
def regexSource (pattern : List Nat) : List Nat :=
  94 :: (replaceQuestions (replaceStars (escapeSpecials pattern)) ++ [36])

/-- An atom of the regular expressions `find` builds. -/
inductive Atom where
  /-- One given code unit. -/
  | lit (u : Nat) : Atom
  /-- The dot: one code unit that is not a line terminator. -/
  | any : Atom
  /-- The dot under a star: any run of code units that are not line terminators. -/
  | anyStar : Atom

/-- The code unit is a syntax character of regular expressions: `^ $ \ . * + ? ( ) [ ] { } |`. -/
def isSyntaxChar (u : Nat) : Bool :=
  u = 94 || u = 36 || u = 92 || u = 46 || u = 42 || u = 43 || u = 63 || u = 40 || u = 41 ||
    u = 91 || u = 93 || u = 123 || u = 125 || u = 124

/-- The code unit is an ASCII letter, a digit or the underscore: after a backslash these form
class escapes, control escapes and back-references instead of standing for themselves. -/
def isWordUnit (u : Nat) : Bool :=
  (48 ≤ u && u ≤ 57) || (65 ≤ u && u ≤ 90) || (97 ≤ u && u ≤ 122) || u = 95

/-- Parse the part of a pattern source after `^`, with the atoms read so far in reverse order.
A backslash makes the next code unit a literal, a dot is the wildcard, a star applies to a
wildcard just read, `$` must end the source, any other syntax character is outside the
fragment. -/
def parseAtoms : List Nat → List Atom → Option (List Atom)
  | [], _ => none
  | u :: rest, acc =>
    if u = 36 then (if rest.isEmpty then some acc.reverse else none)
    else if u = 92 then
      match rest with
      | [] => none
      | v :: rest' => if isWordUnit v then none else parseAtoms rest' (.lit v :: acc)
    else if u = 46 then parseAtoms rest (.any :: acc)
    else if u = 42 then
      match acc with
      | .any :: acc' => parseAtoms rest (.anyStar :: acc')
      | _ => none
    else if isSyntaxChar u then none
    else parseAtoms rest (.lit u :: acc)

/-- The constructor `new RegExp(source)` without flags, on the fragment of the pattern
language that `find` produces: an anchored sequence of literals, wildcards and starred
wildcards. It yields `none` for any other source. -/
def parseRegex (source : List Nat) : Option (List Atom) :=
  match source with
  | [] => none
  | u :: rest => if u = 94 then parseAtoms rest [] else none

/-- A starred wildcard followed by the rest `k` of the expression: `k` matches here, or the
wildcard takes one more code unit. -/
def matchStar (k : List Nat → Bool) : List Nat → Bool
  | [] => k []
  | u :: rest => k (u :: rest) || (!isLineTerminator u && matchStar k rest)

/-- The anchored expression made of the atoms matches the whole input: `re.test(key)`. -/
def matchAtoms : List Atom → List Nat → Bool
  | [], us => us.isEmpty
  | .lit c :: atoms, us =>
    match us with
    | [] => false
    | u :: rest => decide (u = c) && matchAtoms atoms rest
  | .any :: atoms, us =>
    match us with
    | [] => false
    | u :: rest => !isLineTerminator u && matchAtoms atoms rest
  | .anyStar :: atoms, us => matchStar (matchAtoms atoms) us

/-- The pattern after a `*`, as the contract words it: the rest `k` of the pattern matches
what is left after some possibly empty run of characters. -/
def globSuffix (k : List Char → Bool) : List Char → Bool
  | [] => k []
  | d :: rest => k (d :: rest) || globSuffix k rest

/-- Glob matching as the contract words it: the pattern matches the whole string, where `*`
matches any possibly empty run of characters, `?` exactly one character and every other
character itself. -/
def globMatches : List Char → List Char → Bool
  | [], s => s.isEmpty
  | c :: pattern, s =>
    if c.toNat = 42 then globSuffix (globMatches pattern) s
    else
      match s with
      | [] => false
      | d :: rest => (c.toNat = 63 || decide (c = d)) && globMatches pattern rest

namespace FUSE

variable {σ : Type}

/-- Loop of `find`: `if (re.test(key)) result[key] = await this.get(key)` for each key. -/
def findLoop (eng : FUSE σ) (atoms : List Atom) : List String → PlainObject → Js σ PlainObject
  | [], result => Js.pure result
  | key :: rest, result =>
    if matchAtoms atoms (codeUnits key) then
      Js.bind (eng.get key) (fun v => findLoop eng atoms rest (result.assign key v))
    else findLoop eng atoms rest result

/-- Method `find(pattern)`. The result is the object literal the method fills. A pattern
source outside the modelled fragment would make the constructor of the regular expression
throw; no pattern produces one. -/
def find (eng : FUSE σ) (pattern : String) : Js σ PlainObject :=
  match parseRegex (regexSource (codeUnits pattern)) with
  | none => Js.throw (.native "SyntaxError")
  | some atoms => Js.bind eng.keys (fun ks => findLoop eng atoms ks PlainObject.empty)

end FUSE

/-- The atom that `find` makes of a code unit of the pattern. -/
def atomOf (u : Nat) : Atom :=
  if u = 42 then .anyStar else if u = 63 then .any else .lit u

/-! ## Asynchronous functions as resumable computations -/

/-- The rest of the body of an asynchronous function. A foreign call is modelled as atomic: it
takes effect when it is made and its promise settles at once. -/
inductive Prog (σ α : Type) where
  /-- The function has settled: it returned a value or threw one. -/
  | done (r : Except Value α) : Prog σ α
  /-- Expression `await f(args)`: the call is made, the function is suspended, and it resumes
  with the outcome of the call in a later turn of the microtask queue. -/
  | await (site : Site) (args : List Value) (f : Eff σ Value)
      (k : Except Value Value → Prog σ α) : Prog σ α
  /-- A call that is not awaited: the function goes on in the same turn. -/
  | sync (site : Site) (args : List Value) (f : Eff σ Value)
      (k : Except Value Value → Prog σ α) : Prog σ α

namespace Prog

variable {σ α : Type}

/-- Run the function alone, from its first statement to its settlement. -/
def run : Prog σ α → Js σ α
  | .done r => fun s => (r, s, [])
  | .await site args f k => fun s =>
    match f s with
    | (r, s1) =>
      match (k r).run s1 with
      | (r2, s2, t) => (r2, s2, ⟨site, args, r⟩ :: t)
  | .sync site args f k => fun s =>
    match f s with
    | (r, s1) =>
      match (k r).run s1 with
      | (r2, s2, t) => (r2, s2, ⟨site, args, r⟩ :: t)

end Prog

/-- An asynchronous function that has been called: it has settled, or it is suspended on a
call whose outcome it will resume with. -/
inductive Task (σ α : Type) where
  | settled (r : Except Value α) : Task σ α
  | waiting (r : Except Value Value) (k : Except Value Value → Prog σ α) : Task σ α

namespace Prog

variable {σ α : Type}

/-- Run the function up to its next `await`, the call of that `await` included. -/
def advance : Prog σ α → σ → Task σ α × σ × List Event
  | .done r, s => (.settled r, s, [])
  | .await site args f k, s =>
    match f s with
    | (r, s1) => (.waiting r k, s1, [⟨site, args, r⟩])
  | .sync site args f k, s =>
    match f s with
    | (r, s1) =>
      match (k r).advance s1 with
      | (task, s2, t) => (task, s2, ⟨site, args, r⟩ :: t)

end Prog

namespace Task

variable {σ α : Type}

/-- One turn of a task: a suspended function resumes and runs up to its next `await`. -/
def resume : Task σ α → σ → Task σ α × σ × List Event
  | .settled r, s => (.settled r, s, [])
  | .waiting r k, s => (k r).advance s

/-- Calling the functions one after the other, as `keys.map(k => this.get(k))` does: each runs
up to its first `await`. -/
def start : List (Prog σ α) → σ → List (Task σ α) × σ × List Event
  | [], s => ([], s, [])
  | p :: rest, s =>
    match p.advance s with
    | (task, s1, t1) =>
      match start rest s1 with
      | (tasks, s2, t2) => (task :: tasks, s2, t1 ++ t2)

/-- One turn of the microtask queue: the suspended functions resume in the order in which they
were suspended, which is the order of the list. -/
def turn : List (Task σ α) → σ → List (Task σ α) × σ × List Event
  | [], s => ([], s, [])
  | task :: rest, s =>
    match task.resume s with
    | (task1, s1, t1) =>
      match turn rest s1 with
      | (tasks, s2, t2) => (task1 :: tasks, s2, t1 ++ t2)

/-- The error of the first task of the list that has thrown. -/
def firstRejected : List (Task σ α) → Option Value
  | [] => none
  | .settled (.error e) :: _ => some e
  | _ :: rest => firstRejected rest

/-- The values of the tasks, if all of them have returned. -/
def fulfilled : List (Task σ α) → Option (List α)
  | [] => some []
  | .settled (.ok a) :: rest => (fulfilled rest).map (fun as => a :: as)
  | _ :: _ => none

/-- Up to `n` turns of the microtask queue. The first component is the error that rejected
`Promise.all`: that of the task that threw first. -/
def turns : Nat → Option Value → List (Task σ α) → σ →
    (Option Value × List (Task σ α)) × σ × List Event
  | 0, rejected, tasks, s => ((rejected, tasks), s, [])
  | n + 1, rejected, tasks, s =>
    match turn tasks s with
    | (tasks1, s1, t1) =>
      match turns n (rejected.orElse (fun _ => firstRejected tasks1)) tasks1 s1 with
      | (res, s2, t2) => (res, s2, t1 ++ t2)

end Task

/-- Expression `await Promise.all(ps)` for asynchronous functions called one after the other
and then run to their settlement in at most `n` turns of the microtask queue: the array of
their values, or the error of the one that threw first. The calls the other functions make
after that rejection are part of the run. Should a function still be suspended after `n`
turns, the promise counts as pending; the operations below provide enough turns. -/
def Prog.all {σ α : Type} (n : Nat) (ps : List (Prog σ α)) : Js σ (List α) := fun s =>
  match Task.start ps s with
  | (tasks, s1, t1) =>
    match Task.turns n (Task.firstRejected tasks) tasks s1 with
    | ((rejected, tasks2), s2, t2) =>
      match rejected with
      | some e => (.error e, s2, t1 ++ t2)
      | none =>
        match Task.fulfilled tasks2 with
        | some as => (.ok as, s2, t1 ++ t2)
        | none => (.error (.native "pending"), s2, t1 ++ t2)

namespace FUSE

variable {σ : Type}

/-- Method `_handleError(err)` followed by `throw err`, as the rest of an asynchronous
function: the `onError` hooks are called without `await`, inside `try` blocks of their own. -/
def handleErrorP {α : Type} (eng : FUSE σ) (err : Value) : Nat → List (Middleware σ) → Prog σ α
  | _, [] =>
    .sync (.emit "error") [err] (eng.emit "error" err) (fun r =>
      match r with
      | .ok _ => .done (.error err)
      | .error y => .done (.error y))
  | i, m :: rest =>
    match m.onError with
    | some h => .sync (.onError i) [err] (h err) (fun _ => handleErrorP eng err (i + 1) rest)
    | none => handleErrorP eng err (i + 1) rest

/-- The `catch` clause of an operation, as the rest of an asynchronous function. -/
def rethrowP {α : Type} (eng : FUSE σ) (err : Value) : Prog σ α :=
  handleErrorP eng err 0 eng.middleware

/-- The `after.get` loop of `get`, as the rest of an asynchronous function: each hook is
awaited. -/
def getAfterP (eng : FUSE σ) (key : String) : Nat → List (Middleware σ) → Value → Prog σ Value
  | _, [], val => .done (.ok val)
  | i, m :: rest, val =>
    match m.afterGet with
    | some h =>
      .await (.after i .get) [.str key, val] (h key val) (fun r =>
        match r with
        | .ok v => getAfterP eng key (i + 1) rest v
        | .error e => rethrowP eng e)
    | none => getAfterP eng key (i + 1) rest val

/-- The `before.get` loop of `get` and what follows it, as the rest of an asynchronous
function. -/
def getBeforeP (eng : FUSE σ) (key : String) : Nat → List (Middleware σ) → Prog σ Value
  | _, [] =>
    .await (.driver .get) [.str key] (eng.driver.get key) (fun r =>
      match r with
      | .ok v => getAfterP eng key 0 eng.middleware v
      | .error e => rethrowP eng e)
  | i, m :: rest =>
    match m.beforeGet with
    | some h =>
      .await (.before i .get) [.str key] (h key) (fun r =>
        match r with
        | .ok override =>
          if override.isDefined then getAfterP eng key 0 eng.middleware override
          else getBeforeP eng key (i + 1) rest
        | .error e => rethrowP eng e)
    | none => getBeforeP eng key (i + 1) rest

/-- Method `get(key)` as an asynchronous function that other functions can run beside. -/
def getP (eng : FUSE σ) (key : String) : Prog σ Value :=
  getBeforeP eng key 0 eng.middleware

/-- Method `bulkGet(keys)`: `Promise.all(keys.map(k => this.get(k)))`. A `get` is suspended at
most once for each hook and once for the driver. -/
def bulkGet (eng : FUSE σ) (ks : List String) : Js σ (List Value) :=
  Prog.all (2 * eng.middleware.length + 1) (ks.map (getP eng))

end FUSE

/-- From state `s`, the function settles with value `v` after at most `n` suspensions, and
none of the calls it makes on the way changes the state. -/
inductive Prog.Quiet {σ α : Type} (s : σ) (v : α) : Nat → Prog σ α → Prop
  | done (n : Nat) : Prog.Quiet s v n (.done (.ok v))
  | await {n : Nat} {site : Site} {args : List Value} {f : Eff σ Value}
      {k : Except Value Value → Prog σ α} {r : Except Value Value}
      (hf : f s = (r, s)) (hk : Prog.Quiet s v n (k r)) :
      Prog.Quiet s v (n + 1) (.await site args f k)
  | sync {n : Nat} {site : Site} {args : List Value} {f : Eff σ Value}
      {k : Except Value Value → Prog σ α} {r : Except Value Value}
      (hf : f s = (r, s)) (hk : Prog.Quiet s v n (k r)) :
      Prog.Quiet s v n (.sync site args f k)

/-- From state `s`, the task settles with value `v` within `n` turns, and none of the calls it
makes on the way changes the state. -/
inductive Task.Quiet {σ α : Type} (s : σ) (v : α) : Nat → Task σ α → Prop
  | settled (n : Nat) : Task.Quiet s v n (.settled (.ok v))
  | waiting {n : Nat} {r : Except Value Value} {k : Except Value Value → Prog σ α}
      (hk : Prog.Quiet s v n (k r)) : Task.Quiet s v (n + 1) (.waiting r k)

/-- In state `s`, the `before.get` and `after.get` hooks of the engine and the `get` of its
driver leave the state as it is. -/
structure FUSE.ReadsQuietly {σ : Type} (eng : FUSE σ) (s : σ) : Prop where
  /-- Hook `before.get` leaves the state as it is. -/
  before : ∀ m ∈ eng.middleware, ∀ h, m.beforeGet = some h → ∀ key, (h key s).2 = s
  /-- Hook `after.get` leaves the state as it is. -/
  after : ∀ m ∈ eng.middleware, ∀ h, m.afterGet = some h → ∀ key val, (h key val s).2 = s
  /-- The driver's `get` leaves the state as it is. -/
  driver : ∀ key, (eng.driver.get key s).2 = s

/-! ## Random entries -/

/-- A value returned by `Math.random()`: the fraction `num / den`, which lies in `[0, 1)`. -/
structure Draw where
  /-- The numerator. -/
  num : Nat
  /-- The denominator. -/
  den : Nat
  /-- The value is below one. -/
  below_one : num < den

/-- Index `Math.floor(r * len)` into an array of `len` elements, the product taken exactly. -/
def Draw.index (r : Draw) (len : Nat) (h : 0 < len) : Fin len :=
  ⟨r.num * len / r.den, Nat.div_lt_of_lt_mul (Nat.mul_lt_mul_of_pos_right r.below_one h)⟩

/-- The `while` loop of `pick(n)` in `random`, entered before draw number `i` with the keys
`chosen` in the set, in the order in which they were added; `draws` lists the values that
`Math.random()` returns. The result is `none` when the loop is still running after `fuel`
draws. -/
def pickLoop (allKeys : List String) (n : Int) (draws : Nat → Draw) :
    Nat → Nat → List String → Option (List String)
  | 0, _, chosen =>
    if (chosen.length : Int) < n ∧ chosen.length < allKeys.length then none else some chosen
  | fuel + 1, i, chosen =>
    if h : (chosen.length : Int) < n ∧ chosen.length < allKeys.length then
      let key := allKeys.get ((draws i).index allKeys.length (Nat.zero_lt_of_lt h.2))
      pickLoop allKeys n draws fuel (i + 1) (if key ∈ chosen then chosen else chosen ++ [key])
    else some chosen

/-- Function `pick(n)` of `random`: the loop starts from the empty set, and the set is returned
as an array. -/
def pick (allKeys : List String) (n : Int) (draws : Nat → Draw) (fuel : Nat) :
    Option (List String) :=
  pickLoop allKeys n draws fuel 0 []

/-- Array `keys.map((k, i) => ({ [k]: vals[i] }))`: a computed key makes an own property,
whatever its name. -/
def singleEntries : List String → List Value → List Value
  | [], _ => []
  | k :: ks, vals => .obj [(k, vals.headD .undefined)] :: singleEntries ks vals.tail

namespace FUSE

variable {σ : Type}

/-- The `else` branch of `random`: one draw, one `get`, one single-entry object. -/
def randomOne (eng : FUSE σ) (allKeys : List String) (h : 0 < allKeys.length)
    (draws : Nat → Draw) : Js σ (Option Value) :=
  let k := allKeys.get ((draws 0).index allKeys.length h)
  Js.bind (eng.get k) (fun val => Js.pure (some (.obj [(k, val)])))

/-- Method `random(count)`, for `count` omitted (`none`) or an integer; `draws` lists the
values that `Math.random()` returns. The result is `none` when the selection loop is still
running after `fuel` draws. -/
def random (eng : FUSE σ) (count : Option Int) (draws : Nat → Draw) (fuel : Nat) :
    Js σ (Option Value) :=
  Js.bind eng.keys (fun allKeys =>
    if h : 0 < allKeys.length then
      match count with
      | some n =>
        if 1 < n then
          match pick allKeys n draws fuel with
          | some keys =>
            Js.bind (Prog.all (2 * eng.middleware.length + 1) (keys.map (getP eng)))
              (fun vals => Js.pure (some (.arr (singleEntries keys vals))))
          | none => Js.pure none
        else randomOne eng allKeys h draws
      | none => randomOne eng allKeys h draws
    else
      match count with
      | some n => Js.pure (some (if 1 < n then .arr [] else .undefined))
      | none => Js.pure (some .undefined))

end FUSE

/-! ## Strict equality and `includes` -/

/-- A primitive value. -/
inductive Primitive where
  | undefined : Primitive
  | null : Primitive
  | bool (b : Bool) : Primitive
  | num (n : Int) : Primitive
  | nan : Primitive
  | str (s : String) : Primitive

/-- The primitive as a value. -/
def Primitive.toValue : Primitive → Value
  | .undefined => .undefined
  | .null => .null
  | .bool b => .bool b
  | .num n => .num n
  | .nan => .nan
  | .str s => .str s

/-- Test `val === value` for a primitive `value`: the two are of the same type and the same
value, except that `NaN` differs from every value, itself included. An object is never
identical to a primitive. -/
def Value.strictEquals (val : Value) : Primitive → Bool
  | .undefined => match val with
    | .undefined => true
    | _ => false
  | .null => match val with
    | .null => true
    | _ => false
  | .bool b => match val with
    | .bool c => c == b
    | _ => false
  | .num n => match val with
    | .num m => m == n
    | _ => false
  | .nan => false
  | .str s => match val with
    | .str u => u == s
    | _ => false

/-- The loop of `includes`: `true` at the first value identical to `value`. -/
def includesLoop (value : Primitive) : List Value → Bool
  | [] => false
  | val :: rest => if val.strictEquals value then true else includesLoop value rest

/-- Method `includes(value)`, for a primitive `value`. -/
def FUSE.includes {σ : Type} (eng : FUSE σ) (value : Primitive) : Js σ Value :=
  Js.bind eng.values (fun vals => Js.pure (.bool (includesLoop value vals)))

/-! ## Asynchronous functions that call each other -/

/-- The body of an asynchronous function, from some point on. A call of foreign code is atomic,
as everywhere in this development; a call of an asynchronous function that is given by its body
is not: the body may be suspended any number of times before it settles. -/
inductive Code (σ : Type) where
  /-- Statement `return v` or `throw e`: the function settles. -/
  | ret (r : Except Value Value) : Code σ
  /-- A call of foreign code that is not awaited: the function goes on in the same turn. -/
  | act (site : Site) (args : List Value) (f : Eff σ Value)
      (k : Except Value Value → Code σ) : Code σ
  /-- Expression `await f(args)` for foreign code: the call is made, the function is suspended,
  and it resumes with the outcome of the call in the next turn. -/
  | awaitAct (site : Site) (args : List Value) (f : Eff σ Value)
      (k : Except Value Value → Code σ) : Code σ
  /-- Expression `await g(...)` for an asynchronous function `g` with body `callee`: the body
  starts at once, and the caller is suspended until `g` has settled; it resumes with the
  outcome of `g` in the turn after that. -/
  | awaitCall (callee : Code σ) (k : Except Value Value → Code σ) : Code σ
  /-- A call `g(...)` that is not awaited, for an asynchronous function `g` with body `callee`:
  the body starts at once and runs up to its first suspension, then the caller goes on in the
  same turn; the rest of `g` runs in later turns, beside the caller, and its outcome is
  dropped. -/
  | detach (callee : Code σ) (k : Code σ) : Code σ

/-- The rest of a function that is suspended on an `await`, waiting for an outcome. -/
abbrev Frame (σ : Type) := Except Value Value → Code σ

/-- A started asynchronous function between two turns of the microtask queue: it has settled,
or it is suspended: `frame` resumes with `r` in the next turn, and the functions that await
this one, innermost first, are suspended in `callers`. -/
inductive Thread (σ : Type) where
  | settled (r : Except Value Value) : Thread σ
  | suspended (r : Except Value Value) (frame : Frame σ) (callers : List (Frame σ)) : Thread σ

/-- A function settles with `r`: if a caller awaits it, the caller resumes with `r` in the next
turn. -/
def Thread.settle {σ : Type} (r : Except Value Value) : List (Frame σ) → Thread σ
  | [] => .settled r
  | frame :: callers => .suspended r frame callers

namespace Code

variable {σ : Type}

/-- Run a body within the current turn, up to its next suspension. The result is the thread
as the turn leaves it, the functions detached on the way, in the order in which they were
suspended, the state, and the calls made. -/
def enter : Code σ → List (Frame σ) → σ → Thread σ × List (Thread σ) × σ × List Event
  | .ret r, callers, s => (Thread.settle r callers, [], s, [])
  | .act site args f k, callers, s =>
    match f s with
    | (r, s1) =>
      match (k r).enter callers s1 with
      | (th, ds, s2, t) => (th, ds, s2, ⟨site, args, r⟩ :: t)
  | .awaitAct site args f k, callers, s =>
    match f s with
    | (r, s1) => (.suspended r k callers, [], s1, [⟨site, args, r⟩])
  | .awaitCall callee k, callers, s => callee.enter (k :: callers) s
  | .detach callee k, callers, s =>
    match callee.enter [] s with
    | (th, ds1, s1, t1) =>
      match k.enter callers s1 with
      | (th2, ds2, s2, t2) => (th2, ds1 ++ th :: ds2, s2, t1 ++ t2)

/-- The body makes no call that it does not await. -/
def Attached : Code σ → Prop
  | .ret _ => True
  | .act _ _ _ k => ∀ r, (k r).Attached
  | .awaitAct _ _ _ k => ∀ r, (k r).Attached
  | .awaitCall callee k => callee.Attached ∧ ∀ r, (k r).Attached
  | .detach _ _ => False

end Code

/-- One turn of a thread: a suspended function resumes and runs up to its next suspension. -/
def Thread.resume {σ : Type} : Thread σ → σ → Thread σ × List (Thread σ) × σ × List Event
  | .settled r, s => (.settled r, [], s, [])
  | .suspended r frame callers, s => (frame r).enter callers s

namespace Machine

variable {σ : Type}

/-- One turn of the microtask queue: the threads resume one after the other. The result lists
the threads as the turn leaves them and, apart, the functions they detached. -/
def turn : List (Thread σ) → σ → List (Thread σ) × List (Thread σ) × σ × List Event
  | [], s => ([], [], s, [])
  | th :: rest, s =>
    match th.resume s with
    | (th1, ds1, s1, t1) =>
      match turn rest s1 with
      | (ths, ds2, s2, t2) => (th1 :: ths, ds1 ++ ds2, s2, t1 ++ t2)

/-- Up to `n` turns of the microtask queue, until the first thread of the list has settled;
the functions detached in a turn join the end of the list. The outcome is `none` when that
thread is still suspended after `n` turns. -/
def turns : Nat → List (Thread σ) → σ → Option (Except Value Value) × σ × List Event
  | _, .settled r :: _, s => (some r, s, [])
  | 0, _, s => (none, s, [])
  | n + 1, pool, s =>
    match turn pool s with
    | (pool1, ds, s1, t1) =>
      match turns n (pool1 ++ ds) s1 with
      | (res, s2, t2) => (res, s2, t1 ++ t2)

end Machine

/-- Expression `await g(...)` at the top level, for an asynchronous function with body `code`,
watched for at most `n` turns: the result is `none` when the function is still suspended
then. -/
def Code.awaited {σ : Type} (code : Code σ) (n : Nat) : Js σ (Option Value) := fun s =>
  match code.enter [] s with
  | (th, ds, s1, t1) =>
    match Machine.turns n (th :: ds) s1 with
    | (some (.ok v), s2, t2) => (.ok (some v), s2, t1 ++ t2)
    | (some (.error e), s2, t2) => (.error e, s2, t1 ++ t2)
    | (none, s2, t2) => (.ok none, s2, t1 ++ t2)

/-- A resumable computation over foreign calls as a body: an `await` of foreign code suspends,
a call that is not awaited does not. -/
def Prog.toCode {σ : Type} : Prog σ Value → Code σ
  | .done r => .ret r
  | .await site args f k => .awaitAct site args f (fun r => (k r).toCode)
  | .sync site args f k => .act site args f (fun r => (k r).toCode)

/-! ## Traversal with `forEach` -/

namespace FUSE

variable {σ : Type}

/-- Method `get(key)` as the body of an asynchronous function. -/
def getCode (eng : FUSE σ) (key : String) : Code σ :=
  (getP eng key).toCode

/-- The loop of `forEach`: for each key, `await this.get(key)` and then `await fn(key, val)`.
The callback is given by its body, which may suspend. -/
def forEachCode (eng : FUSE σ) (fn : String → Value → Code σ) : List String → Code σ
  | [] => .ret (.ok .undefined)
  | key :: rest =>
    .awaitCall (getCode eng key) (fun r =>
      match r with
      | .ok val =>
        .awaitCall (fn key val) (fun r2 =>
          match r2 with
          | .ok _ => forEachCode eng fn rest
          | .error e => .ret (.error e))
      | .error e => .ret (.error e))

/-- Method `forEach(fn)`, watched for at most `n` turns of the microtask queue after `keys()`
has returned: the result is `none` when the traversal is still under way then. -/
def forEach (eng : FUSE σ) (fn : String → Value → Code σ) (n : Nat) : Js σ (Option Value) :=
  Js.bind eng.keys (fun ks => (forEachCode eng fn ks).awaited n)

end FUSE

/-- A function runs from its call to its settlement, alone and without detaching anything, as
the contract words a call that is awaited: from state `s` the body settles with `r` in state
`s'` after the calls `t`, having been suspended `n` times. -/
inductive Code.Runs {σ : Type} : Code σ → σ → Except Value Value → σ → List Event → Nat → Prop
  | ret (r : Except Value Value) (s : σ) : Code.Runs (.ret r) s r s [] 0
  | act {site : Site} {args : List Value} {f : Eff σ Value} {k : Except Value Value → Code σ}
      {s s1 s2 : σ} {r1 r : Except Value Value} {t : List Event} {n : Nat}
      (hf : f s = (r1, s1)) (hk : Code.Runs (k r1) s1 r s2 t n) :
      Code.Runs (.act site args f k) s r s2 (⟨site, args, r1⟩ :: t) n
  | awaitAct {site : Site} {args : List Value} {f : Eff σ Value}
      {k : Except Value Value → Code σ} {s s1 s2 : σ} {r1 r : Except Value Value}
      {t : List Event} {n : Nat}
      (hf : f s = (r1, s1)) (hk : Code.Runs (k r1) s1 r s2 t n) :
      Code.Runs (.awaitAct site args f k) s r s2 (⟨site, args, r1⟩ :: t) (n + 1)
  | awaitCall {callee : Code σ} {k : Except Value Value → Code σ} {s s1 s2 : σ}
      {r1 r : Except Value Value} {t1 t2 : List Event} {n1 n2 : Nat}
      (hc : Code.Runs callee s r1 s1 t1 n1) (hk : Code.Runs (k r1) s1 r s2 t2 n2) :
      Code.Runs (.awaitCall callee k) s r s2 (t1 ++ t2) (n1 + 1 + n2)

/-- A sequential traversal of the keys `ks`, as the contract words it: from state `s`, for
each key in order, `get` runs to its end, then the callback is called with the key and the
value `get` returned and runs to its end, suspensions included, and only then comes the next
key; the traversal stops at the first `get` or callback that throws. It ends with outcome `r`
in state `s'` after the calls `t`, the callback having been called with `calls`. -/
inductive Traversal {σ : Type} (eng : FUSE σ) (fn : String → Value → Code σ) :
    List String → σ → Except Value Value → σ → List Event → List (String × Value) → Prop
  | done (s : σ) : Traversal eng fn [] s (.ok .undefined) s [] []
  | step {k : String} {rest : List String} {s s1 s2 s3 : σ} {val u : Value}
      {r : Except Value Value} {t1 t2 t3 : List Event} {n : Nat}
      {calls : List (String × Value)}
      (hget : (eng.get k).run s = (.ok val, s1, t1))
      (hfn : Code.Runs (fn k val) s1 (.ok u) s2 t2 n)
      (hrest : Traversal eng fn rest s2 r s3 t3 calls) :
      Traversal eng fn (k :: rest) s r s3 (t1 ++ (t2 ++ t3)) ((k, val) :: calls)
  | getThrows {k : String} {rest : List String} {s s1 : σ} {e : Value} {t1 : List Event}
      (hget : (eng.get k).run s = (.error e, s1, t1)) :
      Traversal eng fn (k :: rest) s (.error e) s1 t1 []
  | callbackThrows {k : String} {rest : List String} {s s1 s2 : σ} {val e : Value}
      {t1 t2 : List Event} {n : Nat}
      (hget : (eng.get k).run s = (.ok val, s1, t1))
      (hfn : Code.Runs (fn k val) s1 (.error e) s2 t2 n) :
      Traversal eng fn (k :: rest) s (.error e) s2 (t1 ++ t2) [(k, val)]

/-- After `n` turns, the thread `th`, alone in state `s`, has become `th'` in state `s'`,
having made the calls `t`: whatever the number of turns left, the run goes on from there. -/
def Machine.Reaches {σ : Type} (n : Nat) (th : Thread σ) (s : σ) (th' : Thread σ) (s' : σ)
    (t : List Event) : Prop :=
  ∀ fuel, Machine.turns (n + fuel) [th] s
    = ((Machine.turns fuel [th'] s').1, (Machine.turns fuel [th'] s').2.1,
        t ++ (Machine.turns fuel [th'] s').2.2)

/-- The site is the callback of the caller. -/
def Site.isCallback : Site → Bool
  | .callback => true
  | _ => false

/-- Operation `values()` lists the values the mapping holds, in the reading of `Faithful`. -/
def ListsValues {σ : Type} (eng : FUSE σ) (Inv : σ → Prop)
    (view : σ → String → Option Value) : Prop :=
  ∀ s, Inv s → ∃ vals s' t, eng.values.run s = (.ok vals, s', t) ∧
    ∀ v, v ∈ vals ↔ ∃ k, view s k = some v

/-! ## Middleware objects -/

/-- A function found on a middleware object, called with its arguments. -/
abbrev Method (σ : Type) := List Value → Eff σ Value

/-- The value of a property of a middleware object, as far as the engine looks into it. -/
inductive Member (σ : Type) where
  /-- A function. -/
  | function (f : Method σ) : Member σ
  /-- An object, given by those of its properties that are functions. -/
  | object (members : List (String × Method σ)) : Member σ
  /-- Any other value. -/
  | data (v : Value) : Member σ

/-- A middleware object: its properties, own or inherited from its class. -/
abbrev MiddlewareObject (σ : Type) := List (String × Member σ)

namespace MiddlewareObject

variable {σ : Type}

/-- Test `m.<group> && typeof m.<group>.<name> === 'function'`, with the function found. -/
def hook (m : MiddlewareObject σ) (group name : String) : Option (Method σ) :=
  match m.lookup group with
  | some (.object members) => members.lookup name
  | _ => none

/-- Test `typeof m.onError === 'function'`, with the function found. -/
def onError (m : MiddlewareObject σ) : Option (Method σ) :=
  match m.lookup "onError" with
  | some (.function f) => some f
  | _ => none

end MiddlewareObject

/-- The hooks that the engine finds on a middleware object: it looks under `before` and `after`
for functions named `get`, `set`, `remove` and `has`, and for a function named `onError`. -/
def Middleware.ofObject {σ : Type} (m : MiddlewareObject σ) : Middleware σ where
  beforeGet := (m.hook "before" "get").map (fun f key => f [.str key])
  beforeSet := (m.hook "before" "set").map (fun f key val => f [.str key, val])
  beforeRemove := (m.hook "before" "remove").map (fun f key => f [.str key])
  beforeHas := (m.hook "before" "has").map (fun f key => f [.str key])
  afterGet := (m.hook "after" "get").map (fun f key val => f [.str key, val])
  afterSet := (m.hook "after" "set").map (fun f key val => f [.str key, val])
  afterRemove := (m.hook "after" "remove").map (fun f key => f [.str key])
  afterHas := (m.hook "after" "has").map (fun f key ex => f [.str key, ex])
  onError := m.onError.map (fun f err => f [err])

/-! ## The crypto middleware -/

/-- The cipher of `CryptoMiddleware`, AES-256-GCM under the key of the instance, kept
abstract. -/
structure Cipher where
  /-- Method `encrypt(value)`: the payload `{ iv, tag, value }` for the serialized value. -/
  encrypt : Value → Value
  /-- Method `decrypt(payload)`: the value that was encrypted, or the error thrown. -/
  decrypt : Value → Except Value Value

/-- Truthiness of a value. -/
def Value.truthy : Value → Bool
  | .undefined => false
  | .null => false
  | .bool b => b
  | .num n => n != 0
  | .nan => false
  | .str s => s != ""
  | _ => true

/-- Expression `v?.<name>` for one of the names `iv`, `tag`, `value` of a payload: the own
property of that name, `undefined` if there is none; no prototype has these names. -/
def Value.payloadField (v : Value) (name : String) : Value :=
  (lookupOwn v.enumerableOwn name).getD .undefined

namespace CryptoMiddleware

/-- Method `beforeWrite(context)`, which updates `context` in place and returns nothing: the
result is the context after the call. -/
def beforeWrite (c : Cipher) (context : Props) : Props :=
  if ((lookupOwn context "value").getD .undefined).isDefined then
    assignOwn context "value" (c.encrypt ((lookupOwn context "value").getD .undefined))
  else context

/-- Method `afterRead(context)`, which updates `context` in place and returns nothing: the
result is the context after the call. A failed decryption leaves `undefined`. -/
def afterRead (c : Cipher) (context : Props) : Props :=
  if ((lookupOwn context "value").getD .undefined).isDefined
      && (((lookupOwn context "value").getD .undefined).payloadField "iv").truthy
      && (((lookupOwn context "value").getD .undefined).payloadField "tag").truthy
      && (((lookupOwn context "value").getD .undefined).payloadField "value").truthy then
    match c.decrypt ((lookupOwn context "value").getD .undefined) with
    | .ok v => assignOwn context "value" v
    | .error _ => assignOwn context "value" .undefined
  else context

/-- An instance of `CryptoMiddleware` as the engine finds it in its middleware list: the
property `key` and the methods of the class, under the names the class gives them. A call of
`beforeWrite`, `afterRead`, `beforeRead` or `afterWrite` returns nothing; what the first two do
to their argument is `beforeWrite` and `afterRead` above. -/
def object {σ : Type} (c : Cipher) : MiddlewareObject σ :=
  [("key", .data (.native "Buffer")),
   ("encrypt", .function (fun args s => (.ok (c.encrypt (args.headD .undefined)), s))),
   ("decrypt", .function (fun args s => (c.decrypt (args.headD .undefined), s))),
   ("beforeWrite", .function (fun _ s => (.ok .undefined, s))),
   ("afterRead", .function (fun _ s => (.ok .undefined, s))),
   ("beforeRead", .function (fun _ s => (.ok .undefined, s))),
   ("afterWrite", .function (fun _ s => (.ok .undefined, s)))]

end CryptoMiddleware

/-! ## The JSON file driver -/

/-- Expression `obj[key]` on an ordinary object: the own property, else what the prototype
gives. -/
def PlainObject.get (o : PlainObject) (key : String) : Value :=
  match lookupOwn o.props key with
  | some v => v
  | none =>
    match o.proto with
    | .null => .undefined
    | p =>
      match lookupOwn p.ownProps key with
      | some v => v
      | none => objectPrototypeGet p key

/-- Expression `key in obj` on an ordinary object: an own property or one of the prototype. -/
def PlainObject.hasProperty (o : PlainObject) (key : String) : Bool :=
  hasOwn o.props key ||
    match o.proto with
    | .null => false
    | p => hasOwn p.ownProps key || decide (key = "__proto__")
        || decide (key ∈ objectPrototypeKeys)

/-- State of a `JSONDriver`. Only a file that is absent or holds a JSON object is modelled, and
the file system is taken to accept every write. -/
structure JSONDriver where
  /-- Field `data`. -/
  data : PlainObject
  /-- Field `autosave`. -/
  autosave : Bool
  /-- The object denoted by the text of the file at `filePath`, if the file exists. -/
  file : Option Props

namespace JSONDriver

/-- Method `_save()`: the file receives `JSON.stringify(this.data, null, 2)`. -/
def _save (d : JSONDriver) : JSONDriver :=
  { d with file := some (orderProps (jsonCloneProps d.data.props)) }

/-- Method `_auto()`. -/
def _auto (d : JSONDriver) : JSONDriver :=
  if d.autosave then d._save else d

/-- The driver as its constructor leaves it when there is no file at `path`: `data = {}`, and
the empty file is created. -/
def new (autosave : Bool) : JSONDriver :=
  _save ⟨PlainObject.empty, autosave, none⟩

/-- The driver as its constructor leaves it when the file at `path` holds a JSON object. -/
def load (props : Props) (autosave : Bool) : JSONDriver :=
  ⟨⟨.native "Object.prototype", props⟩, autosave, some props⟩

/-- Method `get(key)`: `return this.data[key]`. -/
def get (key : String) : Eff JSONDriver Value := fun d =>
  (.ok (d.data.get key), d)

/-- Method `set(key, value)`: `this.data[key] = value; this._auto()`. -/
def set (key : String) (value : Value) : Eff JSONDriver Value := fun d =>
  (.ok .undefined, _auto { d with data := d.data.assign key value })

/-- Method `delete(key)`. The engine calls no method of this name. -/
def delete (key : String) : Eff JSONDriver Value := fun d =>
  (.ok (.bool (d.data.hasProperty key)),
    _auto { d with data := ⟨d.data.proto, deleteOwn d.data.props key⟩ })

/-- Method `has(key)`: `return key in this.data`. -/
def has (key : String) : Eff JSONDriver Value := fun d =>
  (.ok (.bool (d.data.hasProperty key)), d)

/-- Method `clear()`: `this.data = {}; this._auto()`. -/
def clear : Eff JSONDriver Value := fun d =>
  (.ok .undefined, _auto { d with data := PlainObject.empty })

/-- Method `keys()`: `return Object.keys(this.data)`. -/
def keys : Eff JSONDriver (List String) := fun d =>
  (.ok (ownKeys d.data.props), d)

/-- Method `values()`: `return Object.values(this.data)`. -/
def values : Eff JSONDriver (List Value) := fun d =>
  (.ok ((ownKeys d.data.props).map (fun k => (lookupOwn d.data.props k).getD .undefined)), d)

/-- Loop `for (const [key, value] of entries)` of `bulkSet` over the elements of an array.
Only elements that are arrays with a string in the first place are modelled; at any other
element the loop is taken to throw. -/
def bulkSetLoop : List Value → PlainObject → Except Value Value × PlainObject
  | [], o => (.ok .undefined, o)
  | .arr (.str key :: value :: _) :: rest, o => bulkSetLoop rest (o.assign key value)
  | .arr [.str key] :: rest, o => bulkSetLoop rest (o.assign key .undefined)
  | _ :: _, o => (.error typeError, o)

/-- Method `bulkSet(entries)`: it iterates over `entries`, so an argument that is not iterable,
such as the plain object that the engine documents, makes it throw a `TypeError`; of the
iterable arguments only arrays are modelled. -/
def bulkSet (entries : Value) : Eff JSONDriver Value := fun d =>
  match entries with
  | .arr items =>
    match bulkSetLoop items d.data with
    | (.ok v, o) => (.ok v, _auto { d with data := o })
    | (.error e, o) => (.error e, { d with data := o })
  | _ => (.error typeError, d)

end JSONDriver

/-- A call of a method that the driver object does not have: the call expression throws a
`TypeError` and nothing else happens. -/
def Driver.missing {σ α : Type} : Eff σ α := fun s => (.error typeError, s)

/-- A `JSONDriver` as a driver of the engine. The class has no method named `remove` or `size`
(it has `delete`, `entries`, `all`, `bulkGet` and `bulkDelete`, which the engine never calls),
and none for snapshots. -/
def JSONDriver.driver : Driver JSONDriver where
  get := JSONDriver.get
  set := JSONDriver.set
  remove := fun _ => Driver.missing
  has := JSONDriver.has
  size := Driver.missing
  keys := JSONDriver.keys
  values := JSONDriver.values
  clear := JSONDriver.clear
  bulkSet := some JSONDriver.bulkSet

/-! ## Call sequences on the store -/

/-- A call that changes the store: `set(k, v)`, `remove(k)` or `clear()`. -/
inductive Call where
  | set (k : String) (v : Value) : Call
  | remove (k : String) : Call
  | clear : Call

/-- Issue one call on an engine. -/
def Call.issue {σ : Type} (eng : FUSE σ) : Call → Js σ Value
  | .set k v => eng.set k v
  | .remove k => eng.remove k
  | .clear => eng.clear

/-- Issue the calls one after the other, each awaited before the next. -/
def issueAll {σ : Type} (eng : FUSE σ) : List Call → Js σ Value
  | [] => Js.pure .undefined
  | c :: rest => Js.bind (c.issue eng) (fun _ => issueAll eng rest)

/-- Key `k` has been set by some call of the sequence and neither removed nor cleared by a
later one. -/
def Call.Live (calls : List Call) (k : String) : Prop :=
  ∃ pre v post, calls = pre ++ Call.set k v :: post ∧
    ∀ c ∈ post, c ≠ Call.remove k ∧ c ≠ Call.clear

/-- Own properties a call leaves behind in a store that had the own properties `ps`. -/
def Call.apply (ps : Props) : Call → Props
  | .set k v => assignOwn ps k v
  | .remove k => deleteOwn ps k
  | .clear => []

/-- Own keys a call leaves behind, in creation order, in a store that had the own keys `ks`. -/
def Call.applyKeys (ks : List String) : Call → List String
  | .set k _ => if k ∈ ks then ks else ks ++ [k]
  | .remove k => ks.filter (fun x => decide (x ≠ k))
  | .clear => []

/-- The hooks that `set` and `remove` run leave the state as they found it. -/
def Middleware.Inert {σ : Type} (m : Middleware σ) : Prop :=
  (∀ h, m.beforeSet = some h → ∀ k v s, (h k v s).2 = s) ∧
  (∀ h, m.afterSet = some h → ∀ k v s, (h k v s).2 = s) ∧
  (∀ h, m.beforeRemove = some h → ∀ k s, (h k s).2 = s) ∧
  (∀ h, m.afterRemove = some h → ∀ k s, (h k s).2 = s)

/-- The snapshot text `{}`, which `JSON.parse` turns into an empty object. -/
def emptyObjectSnapshot : Snapshot := ⟨"{}", .object []⟩

/-- The default engine `new FUSE()` with a quiet listener on every event. -/
def defaultEngine : FUSE InMemoryDriver := FUSE.inMemory [] quietEmit

/-- State of the default engine after `importSnapshot('{}')`. -/
def importedEmpty : InMemoryDriver :=
  ((defaultEngine.importSnapshot emptyObjectSnapshot).run InMemoryDriver.new).2.1

/-! ## Hook chains, as the contract words them -/

section Chains

variable {σ : Type}

/-- Relation `FirstOverride key ms s o s'`: walking the `before.get` hooks of `ms` in list order from
state `s`, each hook returns `undefined` until one returns the defined value `o`, which leaves
the state `s'`. -/
inductive FirstOverride (key : String) : List (Middleware σ) → σ → Value → σ → Prop
  | here {m : Middleware σ} {rest : List (Middleware σ)} {h : String → Eff σ Value}
      {s s' : σ} {o : Value} :
      m.beforeGet = some h → h key s = (.ok o, s') → o ≠ Value.undefined →
      FirstOverride key (m :: rest) s o s'
  | absent {m : Middleware σ} {rest : List (Middleware σ)} {s s' : σ} {o : Value} :
      m.beforeGet = none → FirstOverride key rest s o s' →
      FirstOverride key (m :: rest) s o s'
  | declined {m : Middleware σ} {rest : List (Middleware σ)} {h : String → Eff σ Value}
      {s s1 s' : σ} {o : Value} :
      m.beforeGet = some h → h key s = (.ok Value.undefined, s1) →
      FirstOverride key rest s1 o s' →
      FirstOverride key (m :: rest) s o s'

/-- Relation `NoOverride key ms s s'`: every `before.get` hook of `ms`, called in list order from state
`s`, returns `undefined`; the last one leaves the state `s'`. -/
inductive NoOverride (key : String) : List (Middleware σ) → σ → σ → Prop
  | nil {s : σ} : NoOverride key [] s s
  | absent {m : Middleware σ} {rest : List (Middleware σ)} {s s' : σ} :
      m.beforeGet = none → NoOverride key rest s s' → NoOverride key (m :: rest) s s'
  | declined {m : Middleware σ} {rest : List (Middleware σ)} {h : String → Eff σ Value}
      {s s1 s' : σ} :
      m.beforeGet = some h → h key s = (.ok Value.undefined, s1) →
      NoOverride key rest s1 s' → NoOverride key (m :: rest) s s'

/-- Relation `AfterGetChain key ms v s v' s'`: the value `v` passed through the `after.get` hooks of
`ms` in list order from state `s` comes out as `v'` in state `s'`. The first hook of the list
is applied first, each hook receives what the previous one returned, and a middleware without
the hook passes the value on unchanged. -/
inductive AfterGetChain (key : String) : List (Middleware σ) → Value → σ → Value → σ → Prop
  | nil {v : Value} {s : σ} : AfterGetChain key [] v s v s
  | absent {m : Middleware σ} {rest : List (Middleware σ)} {v v' : Value} {s s' : σ} :
      m.afterGet = none → AfterGetChain key rest v s v' s' →
      AfterGetChain key (m :: rest) v s v' s'
  | applied {m : Middleware σ} {rest : List (Middleware σ)} {h : String → Value → Eff σ Value}
      {v w v' : Value} {s s1 s' : σ} :
      m.afterGet = some h → h key v s = (.ok w, s1) → AfterGetChain key rest w s1 v' s' →
      AfterGetChain key (m :: rest) v s v' s'

/-- Relation `BeforeSetChain key ms v s v' s'`: the value `v` folded through the `before.set` hooks of
`ms` in list order from state `s` comes out as `v'` in state `s'`. Each hook receives the
current value; a defined return replaces it, `undefined` leaves it as it is. -/
inductive BeforeSetChain (key : String) : List (Middleware σ) → Value → σ → Value → σ → Prop
  | nil {v : Value} {s : σ} : BeforeSetChain key [] v s v s
  | absent {m : Middleware σ} {rest : List (Middleware σ)} {v v' : Value} {s s' : σ} :
      m.beforeSet = none → BeforeSetChain key rest v s v' s' →
      BeforeSetChain key (m :: rest) v s v' s'
  | replaced {m : Middleware σ} {rest : List (Middleware σ)}
      {h : String → Value → Eff σ Value} {v w v' : Value} {s s1 s' : σ} :
      m.beforeSet = some h → h key v s = (.ok w, s1) → w ≠ Value.undefined →
      BeforeSetChain key rest w s1 v' s' →
      BeforeSetChain key (m :: rest) v s v' s'
  | kept {m : Middleware σ} {rest : List (Middleware σ)}
      {h : String → Value → Eff σ Value} {v v' : Value} {s s1 s' : σ} :
      m.beforeSet = some h → h key v s = (.ok Value.undefined, s1) →
      BeforeSetChain key rest v s1 v' s' →
      BeforeSetChain key (m :: rest) v s v' s'

end Chains

/-! ## Reading traces -/

/-- The site is a `before` hook, an `after` hook or a driver method: the calls an operation
makes inside its `try` block. -/
def Site.isBody : Site → Bool
  | .before _ _ => true
  | .after _ _ => true
  | .driver _ => true
  | _ => false

/-- The site is an `onError` hook. -/
def Site.isOnError : Site → Bool
  | .onError _ => true
  | _ => false

/-- The site is the `after.<op>` hook of some middleware. -/
def Site.isAfter (op : Op) : Site → Bool
  | .after _ o => decide (o = op)
  | _ => false

/-- The site is the `before.<op>` hook of some middleware. -/
def Site.isBefore (op : Op) : Site → Bool
  | .before _ o => decide (o = op)
  | _ => false

/-- The site is a driver method. -/
def Site.isDriver : Site → Bool
  | .driver _ => true
  | _ => false

/-- Positions, counted from `i`, of the middleware that satisfy `p`. -/
def positionsFrom {σ : Type} (p : Middleware σ → Bool) : Nat → List (Middleware σ) → List Nat
  | _, [] => []
  | i, m :: rest => if p m then i :: positionsFrom p (i + 1) rest else positionsFrom p (i + 1) rest

/-- Positions in the list of the middleware that define an `onError` hook. -/
def onErrorPositions {σ : Type} (ms : List (Middleware σ)) : List Nat :=
  positionsFrom (fun m => m.onError.isSome) 0 ms

/-- Positions in the list of the middleware that define an `after.set` hook. -/
def afterSetPositions {σ : Type} (ms : List (Middleware σ)) : List Nat :=
  positionsFrom (fun m => m.afterSet.isSome) 0 ms

/-- Where a call was made and with which arguments. -/
def Event.call (e : Event) : Site × List Value := (e.site, e.args)

/-- A primitive operation together with its arguments. -/
inductive Prim where
  | get (key : String) : Prim
  | set (key : String) (value : Value) : Prim
  | remove (key : String) : Prim
  | has (key : String) : Prim

/-- Issue a primitive operation on an engine. -/
def Prim.issue {σ : Type} (eng : FUSE σ) : Prim → Js σ Value
  | .get key => eng.get key
  | .set key value => eng.set key value
  | .remove key => eng.remove key
  | .has key => eng.has key

/-- The `try` block of a primitive operation. -/
def Prim.body {σ : Type} (eng : FUSE σ) : Prim → Js σ Value
  | .get key => eng.getBody key
  | .set key value => eng.setBody key value
  | .remove key => eng.removeBody key
  | .has key => eng.hasBody key

/-- The call returned (it did not throw). -/
def Event.returned (e : Event) : Prop := ∃ v, e.result = .ok v

/-- Shape of the trace of a `try` block with outcome `r`: the block calls hooks and driver
methods only; every call returned, except that a block that fails ends with the call that
threw the error the block fails with. -/
def FailLast {α : Type} (r : Except Value α) (t : List Event) : Prop :=
  (∀ e ∈ t, e.site.isBody = true) ∧
  match r with
  | .ok _ => ∀ e ∈ t, e.returned
  | .error x => ∃ t0 ev, t = t0 ++ [ev] ∧ ev.result = .error x ∧ ∀ e ∈ t0, e.returned

/-- A computation all of whose runs have a trace of the shape `FailLast`. -/
def Js.Tidy {σ α : Type} (x : Js σ α) : Prop :=
  ∀ s, FailLast (x s).1 (x s).2.2

/-- Shape of the trace of a loop over the `after.<op>` hooks, entered with the value `v` and
ending with outcome `r`: each hook is called with the value the previous one returned. -/
inductive AfterTrace (op : Op) (key : String) : Value → Except Value Value → List Event → Prop
  | done (v : Value) : AfterTrace op key v (.ok v) []
  | threw (i : Nat) (v x : Value) :
      AfterTrace op key v (.error x) [⟨.after i op, [.str key, v], .error x⟩]
  | step (i : Nat) (v u : Value) (r : Except Value Value) (t : List Event) :
      AfterTrace op key u r t →
      AfterTrace op key v r (⟨.after i op, [.str key, v], .ok u⟩ :: t)

/-- Shape of the trace of the `try` block of `get` or `has` with outcome `r`: calls that are
not `after.<op>` hooks, followed by nothing or by a loop over the `after.<op>` hooks. -/
def AfterShape (op : Op) (key : String) (r : Except Value Value) (t : List Event) : Prop :=
  ∃ t0 tc, t = t0 ++ tc ∧ (∀ e ∈ t0, e.site.isAfter op = false) ∧
    ((tc = [] ∧ ∀ e ∈ t0, e.site.isBody = true) ∨ ∃ v, AfterTrace op key v r tc)

/-- The site is a `before` or an `after` hook of some middleware. -/
def Site.isHook : Site → Bool
  | .before _ _ => true
  | .after _ _ => true
  | _ => false

/-- The operation after which a primitive operation names its hooks and its driver method. -/
def Prim.op : Prim → Op
  | .get _ => .get
  | .set _ _ => .set
  | .remove _ => .remove
  | .has _ => .has

/-- Every hook of the middleware leaves the part `view` of the state as it found it. -/
def Middleware.Keeps {σ β : Type} (view : σ → β) (m : Middleware σ) : Prop :=
  (∀ h, m.beforeGet = some h → ∀ k s, view (h k s).2 = view s) ∧
  (∀ h, m.beforeSet = some h → ∀ k v s, view (h k v s).2 = view s) ∧
  (∀ h, m.beforeRemove = some h → ∀ k s, view (h k s).2 = view s) ∧
  (∀ h, m.beforeHas = some h → ∀ k s, view (h k s).2 = view s) ∧
  (∀ h, m.afterGet = some h → ∀ k v s, view (h k v s).2 = view s) ∧
  (∀ h, m.afterSet = some h → ∀ k v s, view (h k v s).2 = view s) ∧
  (∀ h, m.afterRemove = some h → ∀ k s, view (h k s).2 = view s) ∧
  (∀ h, m.afterHas = some h → ∀ k v s, view (h k v s).2 = view s) ∧
  (∀ h, m.onError = some h → ∀ e s, view (h e s).2 = view s)

/-- Every call the computation makes is made from a site that satisfies `P`. -/
def Js.Sites {σ α : Type} (P : Site → Prop) (x : Js σ α) : Prop :=
  ∀ s, ∀ e ∈ (x s).2.2, P e.site

/-- Shape of the trace of the `try` block of a primitive operation: the calls of the
`before.<op>` hooks come first, and no such call is made after a call of another kind. -/
def Phased (op : Op) (t : List Event) : Prop :=
  ∃ tb tr, t = tb ++ tr ∧ (∀ e ∈ tb, e.site.isBefore op = true) ∧
    (∀ e ∈ tr, e.site.isBefore op = false)

/-- The computation changes the part `view` of the state through driver calls only: a run
without a driver call leaves that part as it was. -/
def Js.Frames {σ α β : Type} (view : σ → β) (x : Js σ α) : Prop :=
  ∀ s, (∀ e ∈ (x s).2.2, e.site.isDriver = false) → view (x s).2.1 = view s

/-- An operation of the engine other than the four primitive ones, with its arguments. -/
inductive Routine where
  | size : Routine
  | keys : Routine
  | values : Routine
  | clear : Routine
  | bulkSet (entries : Value) : Routine
  | bulkRemove (ks : List String) : Routine
  | exportSnapshot : Routine
  | importSnapshot (snapshot : Snapshot) : Routine

/-- Issue an operation on an engine; a list or a snapshot it returns is rendered as a value. -/
def Routine.issue {σ : Type} (eng : FUSE σ) : Routine → Js σ Value
  | .size => eng.size
  | .keys => Js.bind eng.keys (fun ks => Js.pure (.arr (ks.map Value.str)))
  | .values => Js.bind eng.values (fun vs => Js.pure (.arr vs))
  | .clear => eng.clear
  | .bulkSet entries => eng.bulkSet entries
  | .bulkRemove ks => eng.bulkRemove ks
  | .exportSnapshot => Js.bind eng.exportSnapshot (fun snap => Js.pure (.str snap.text))
  | .importSnapshot snapshot => eng.importSnapshot snapshot

/-- The engine hands the operation over to the snapshot method of the same name that the
driver provides. -/
def Routine.Delegated {σ : Type} (eng : FUSE σ) : Routine → Prop
  | .exportSnapshot => eng.driver.exportSnapshot.isSome = true
  | .importSnapshot _ => eng.driver.importSnapshot.isSome = true
  | _ => False

/-- Shape of the trace `t` of an operation with outcome `r` whose driver calls and hooks all
sit in `try` blocks with the engine's `catch` clause: either every call returned, or the first
call that threw, `x`, is followed by the `onError` hooks of the middleware that define one, in
list order, each called with `x`, and by the `error` event, and the operation fails: with `x`
if emitting returned, with what emitting threw otherwise. -/
def Guarded {σ α : Type} (ms : List (Middleware σ)) (r : Except Value α) (t : List Event) :
    Prop :=
  (∀ e ∈ t, e.site.isBody = true ∧ e.returned) ∨
  ∃ t0 ev th em x y, t = t0 ++ ev :: (th ++ [em]) ∧ r = .error y ∧
    (∀ e ∈ t0, e.site.isBody = true ∧ e.returned) ∧
    ev.site.isBody = true ∧ ev.result = .error x ∧
    th.map Event.call = (onErrorPositions ms).map (fun j => (Site.onError j, [x])) ∧
    (∀ e ∈ th, e.site.isOnError = true) ∧
    em.site = .emit "error" ∧ em.args = [x] ∧
    ((em.returned ∧ y = x) ∨ em.result = .error y)

/-- A computation all of whose runs have a trace of the shape `Guarded`. -/
def Js.Guarded {σ α : Type} (ms : List (Middleware σ)) (x : Js σ α) : Prop :=
  ∀ s, FuseDB.Guarded ms (x s).1 (x s).2.2

/-- The engine behaves as a mapping from keys to values: on the states that satisfy `Inv`,
which every operation preserves, `view s` is the mapping held in state `s`; every operation
returns, `get` reads the mapping and changes nothing, `set` updates it at one key and leaves
every other key as it was, `keys` lists its keys and changes nothing, and `clear` empties it.
This asks more than that `get(k)` return `v` right after `set(k, v)`: that condition says
nothing about the other keys. -/
structure Faithful {σ : Type} (eng : FUSE σ) (Inv : σ → Prop)
    (view : σ → String → Option Value) : Prop where
  /-- Operation `get(k)` returns the value held under `k`, `undefined` if there is none. -/
  get : ∀ k s, Inv s → ∃ s' t, (eng.get k).run s = (.ok ((view s k).getD .undefined), s', t) ∧
    Inv s' ∧ ∀ k', view s' k' = view s k'
  /-- Operation `set(k, v)` makes `k` hold `v` and changes nothing else. -/
  set : ∀ k v s, Inv s → ∃ s' t, (eng.set k v).run s = (.ok .undefined, s', t) ∧
    Inv s' ∧ view s' k = some v ∧ ∀ k', k' ≠ k → view s' k' = view s k'
  /-- Operation `keys()` lists the keys that hold a value. -/
  keys : ∀ s, Inv s → ∃ ks s' t, eng.keys.run s = (.ok ks, s', t) ∧
    Inv s' ∧ (∀ k', view s' k' = view s k') ∧ ∀ k, k ∈ ks ↔ (view s k).isSome = true
  /-- Operation `clear()` leaves no key. -/
  clear : ∀ s, Inv s → ∃ u s' t, eng.clear.run s = (.ok u, s', t) ∧
    Inv s' ∧ ∀ k, view s' k = none

/-- Operation `bulkSet(m)` makes every key of `m` hold the value `m` gives it and changes
nothing else, in the reading of `Faithful`. -/
def StoresBulk {σ : Type} (eng : FUSE σ) (Inv : σ → Prop)
    (view : σ → String → Option Value) : Prop :=
  ∀ props s, Inv s → ∃ u s' t, (eng.bulkSet (.obj props)).run s = (.ok u, s', t) ∧ Inv s' ∧
    (∀ k v, lookupOwn props k = some v → view s' k = some v) ∧
    (∀ k, lookupOwn props k = none → view s' k = view s k)

/-- The mapping a store of the default driver holds: the own properties of `_data`. -/
def InMemoryDriver.view (d : InMemoryDriver) (k : String) : Option Value :=
  match d._data with
  | .object _ props => lookupOwn props k
  | .null => none

/-- The store of the default driver is an object without prototype, as the constructor and
`clear` make it. -/
def InMemoryDriver.Bare (d : InMemoryDriver) : Prop :=
  ∃ props, d = ⟨.object .null props⟩

/-! ## Sample middleware and engines -/

/-- A middleware whose `after.get` hook appends `suffix` to a string value. -/
def suffixing (suffix : String) : Middleware InMemoryDriver where
  afterGet := some (fun _ v s =>
    (.ok (match v with
      | .str x => .str (x ++ suffix)
      | w => w), s))

/-- A middleware whose `before.get` hook serves the key `hit` from a cache and declines every
other key. -/
def caching : Middleware InMemoryDriver where
  beforeGet := some (fun key s => (.ok (if key = "hit" then .str "cached" else .undefined), s))

/-- A middleware whose `before.set` hook wraps a string value and returns the wrapped value. -/
def encoding : Middleware InMemoryDriver where
  beforeSet := some (fun _ v s =>
    (.ok (match v with
      | .str x => .str ("enc:" ++ x)
      | w => w), s))

/-- A middleware whose `before.set` hook checks the value and returns nothing, and whose
`after.set` hook returns nothing either. -/
def auditing : Middleware InMemoryDriver where
  beforeSet := some (fun _ _ s => (.ok .undefined, s))
  afterSet := some (fun _ _ s => (.ok .undefined, s))

/-- A middleware whose `after.get` hook only observes the value: it returns nothing. -/
def observing : Middleware InMemoryDriver where
  afterGet := some (fun _ _ s => (.ok .undefined, s))

/-- A middleware whose `after.has` hook answers with a string. -/
def describing : Middleware InMemoryDriver where
  afterHas := some (fun _ _ s => (.ok (.str "yes"), s))

/-- A middleware whose `after.has` hook negates a boolean flag and answers `true` to anything
else. -/
def negating : Middleware InMemoryDriver where
  afterHas := some (fun _ v s =>
    (.ok (match v with
      | .bool b => .bool (!b)
      | _ => .bool true), s))

/-- A middleware whose `before.has` hook answers `true` for every key and whose `after.has`
hook answers `false` whatever it receives. -/
def vetoing : Middleware InMemoryDriver where
  beforeHas := some (fun _ s => (.ok (.bool true), s))
  afterHas := some (fun _ _ s => (.ok (.bool false), s))

/-- A middleware whose `before.get` hook throws the string `denied`. -/
def denying : Middleware InMemoryDriver where
  beforeGet := some (fun _ s => (.error (.str "denied"), s))

/-- A middleware whose `onError` hook throws. -/
def brokenReporter : Middleware InMemoryDriver where
  onError := some (fun _ s => (.error (.str "reporter failed"), s))

/-- A middleware whose `onError` hook returns. -/
def reporter : Middleware InMemoryDriver where
  onError := some (fun _ s => (.ok .undefined, s))

/-- The `emit` of an emitter nobody listens to: an `error` event makes the emitter throw, the
payload itself when it is an `Error` instance and its own `ERR_UNHANDLED_ERROR` otherwise; any
other event returns `false`. -/
def unheardEmit {σ : Type} : String → Value → Eff σ Value :=
  fun event payload s =>
    if event = "error" then
      if payload.isError then (.error payload, s)
      else (.error (.native "ERR_UNHANDLED_ERROR"), s)
    else (.ok (.bool false), s)

/-- A store holding the string `x` under the key `k`. -/
def storeWithK : InMemoryDriver := ⟨.object .null [("k", .str "x")]⟩

/-- A store holding the number `42` under the key `k`. -/
def storeWith42 : InMemoryDriver := ⟨.object .null [("k", .num 42)]⟩

/-- A middleware whose `before.set` and `before.remove` hooks throw the string `refused`. -/
def refusing : Middleware InMemoryDriver where
  beforeSet := some (fun _ _ s => (.error (.str "refused"), s))
  beforeRemove := some (fun _ s => (.error (.str "refused"), s))

/-- A middleware that transforms what it stores and restores it on the way back: `before.set`
adds one to a number, `after.get` subtracts one. -/
def shifting : Middleware InMemoryDriver where
  beforeSet := some (fun _ v s =>
    (.ok (match v with
      | .num n => .num (n + 1)
      | w => w), s))
  afterGet := some (fun _ v s =>
    (.ok (match v with
      | .num n => .num (n - 1)
      | w => w), s))

/-- A native `bulkSet(entries)` for the store of the default driver: it upserts every own
enumerable property of `entries`. -/
def upsertAll (entries : Value) : Eff InMemoryDriver Value := fun d =>
  (ownKeys entries.enumerableOwn).foldl
    (fun acc k =>
      match acc with
      | (.ok _, d1) => InMemoryDriver.set k ((lookupOwn entries.enumerableOwn k).getD .undefined) d1
      | failed => failed)
    (.ok .undefined, d)

/-- A sample driver: the methods of the default driver, with a native `bulkSet` and without
snapshot methods. -/
def batchingDriver : Driver InMemoryDriver where
  get := InMemoryDriver.get
  set := InMemoryDriver.set
  remove := InMemoryDriver.remove
  has := InMemoryDriver.has
  size := InMemoryDriver.size
  keys := InMemoryDriver.keys
  values := InMemoryDriver.values
  clear := InMemoryDriver.clear
  bulkSet := some upsertAll

/-- A sample driver: the methods of the default driver, without snapshot methods. -/
def plainDriver : Driver InMemoryDriver where
  get := InMemoryDriver.get
  set := InMemoryDriver.set
  remove := InMemoryDriver.remove
  has := InMemoryDriver.has
  size := InMemoryDriver.size
  keys := InMemoryDriver.keys
  values := InMemoryDriver.values
  clear := InMemoryDriver.clear

/-- The key made of `a`, a line feed and `b`. -/
def twoLineKey : String := String.mk ['a', Char.ofNat 10, 'b']

/-- A store holding `1` under the key `twoLineKey`. -/
def storeWithTwoLineKey : InMemoryDriver := ⟨.object .null [(twoLineKey, .num 1)]⟩

/-- A store holding `1` under the key `__proto__`. -/
def storeWithProtoKey : InMemoryDriver := ⟨.object .null [("__proto__", .num 1)]⟩

/-- The store of the example: `foo`, `fizz` and `bar` hold `1`, `2` and `3`. -/
def storeFooFizzBar : InMemoryDriver :=
  ⟨.object .null [("foo", .num 1), ("fizz", .num 2), ("bar", .num 3)]⟩

/-- The store of the example: `1` under `a`, `2` under `b`, `3` under `c`. -/
def storeABC : InMemoryDriver :=
  ⟨.object .null [("a", .num 1), ("b", .num 2), ("c", .num 3)]⟩

/-- A random source that cycles through `0`, `1/3`, `2/3`. -/
def cyclingDraws : Nat → Draw := fun i => ⟨i % 3, 3, Nat.mod_lt i (by decide)⟩

/-- A random source that returns `0` every time. -/
def constantDraws : Nat → Draw := fun _ => ⟨0, 1, by decide⟩

/-- A cipher for the examples: the payload wraps the value, and decryption unwraps it. -/
def wrappingCipher : Cipher where
  encrypt := fun v => .obj [("iv", .str "iv"), ("tag", .str "tag"), ("value", .arr [v])]
  decrypt := fun payload =>
    match payload.payloadField "value" with
    | .arr [v] => .ok v
    | _ => .error (.native "Error")

/-- The engine over a fresh `JSONDriver` without middleware, every event listened to. -/
def jsonEngine : FUSE JSONDriver := ⟨JSONDriver.driver, [], quietEmit⟩

/-- The text `null` as a snapshot. -/
def nullSnapshot : Snapshot := ⟨"null", .null⟩

/-- A text that is not JSON, as a snapshot. -/
def malformedSnapshot : Snapshot := ⟨"\x7b", .syntaxError (.native "SyntaxError")⟩

/-- A middleware that keeps the value last set in the store, under the key `last`, and answers
every `get` with it. -/
def clobbering : Middleware InMemoryDriver where
  afterSet := some (fun _ v d => InMemoryDriver.set "last" v d)
  afterGet := some (fun _ _ d => InMemoryDriver.get "last" d)

/-- What the middleware `shifting` makes of a value on its way in. -/
def upshift : Value → Value
  | .num n => .num (n + 1)
  | w => w

/-- What the middleware `shifting` makes of a stored value on its way out. -/
def unshift : Value → Value
  | .num n => .num (n - 1)
  | w => w

/-- The mapping that an engine under the middleware `shifting` holds: the stored values on
their way out. -/
def shiftedView (d : InMemoryDriver) (k : String) : Option Value :=
  (InMemoryDriver.view d k).map unshift

/-- A middleware with a note of its own, kept in the store under the key `last`: `before.get`
notes the key it is called with, and `after.get` answers with the note. -/
def tracking : Middleware InMemoryDriver where
  beforeGet := some (fun key d => (.ok .undefined, (InMemoryDriver.set "last" (.str key) d).2))
  afterGet := some (fun _ _ d => InMemoryDriver.get "last" d)

/-- A callback that records its call: it sets its key, prefixed with `seen:`, to the value it
was given, and returns. -/
def recording : String → Value → Code InMemoryDriver :=
  fun key val =>
    .act .callback [.str key, val] (InMemoryDriver.set ("seen:" ++ key) val) (fun r => .ret r)

/-- A callback that is suspended in the middle of its work: it records that it has begun,
awaits something, and only then records its call as `recording` does. -/
def lingering : String → Value → Code InMemoryDriver :=
  fun key val =>
    .awaitAct .callback [.str "begin", .str key] (fun d => (.ok .undefined, d)) (fun _ =>
      .act .callback [.str key, val] (InMemoryDriver.set ("seen:" ++ key) val)
        (fun r => .ret r))

/-- The loop of `forEach` with the callback called but not awaited. This is not the engine's
code: it is kept to compare the engine's loop with. -/
def detachedLoop (eng : FUSE InMemoryDriver) (fn : String → Value → Code InMemoryDriver) :
    List String → Code InMemoryDriver
  | [] => .ret (.ok .undefined)
  | key :: rest =>
    .awaitCall (eng.getCode key) (fun r =>
      match r with
      | .ok val => .detach (fn key val) (detachedLoop eng fn rest)
      | .error e => .ret (.error e))

/-! ## Basic facts about computations -/

namespace Js

variable {σ α β : Type}

theorem bind_ok {x : Js σ α} {f : α → Js σ β} {s s1 : σ} {a : α} {t1 : List Event}
    (h : x s = (.ok a, s1, t1)) :
    Js.bind x f s = ((f a s1).1, (f a s1).2.1, t1 ++ (f a s1).2.2) := by
  simp [Js.bind, h]

theorem bind_error {x : Js σ α} {f : α → Js σ β} {s s1 : σ} {e : Value} {t1 : List Event}
    (h : x s = (.error e, s1, t1)) :
    Js.bind x f s = (.error e, s1, t1) := by
  simp [Js.bind, h]

theorem tryCatch_ok {x : Js σ α} {g : Value → Js σ α} {s s1 : σ} {a : α} {t1 : List Event}
    (h : x s = (.ok a, s1, t1)) :
    Js.tryCatch x g s = (.ok a, s1, t1) := by
  simp [Js.tryCatch, h]

theorem tryCatch_error {x : Js σ α} {g : Value → Js σ α} {s s1 : σ} {e : Value}
    {t1 : List Event} (h : x s = (.error e, s1, t1)) :
    Js.tryCatch x g s = ((g e s1).1, (g e s1).2.1, t1 ++ (g e s1).2.2) := by
  simp [Js.tryCatch, h]

theorem call_ok {site : Site} {args : List Value} {f : Eff σ Value} {s s1 : σ} {v : Value}
    (h : f s = (.ok v, s1)) :
    Js.call site args f s = (.ok v, s1, [⟨site, args, .ok v⟩]) := by
  simp [Js.call, Js.callWith, h]

theorem call_error {site : Site} {args : List Value} {f : Eff σ Value} {s s1 : σ} {e : Value}
    (h : f s = (.error e, s1)) :
    Js.call site args f s = (.error e, s1, [⟨site, args, .error e⟩]) := by
  simp [Js.call, Js.callWith, h]
end Js

/-! ## Facts about own properties -/

theorem hasOwn_iff_mem (ps : Props) (k : String) :
    hasOwn ps k = true ↔ k ∈ ps.map (fun p => p.1) := by
  induction ps with
  | nil => simp [hasOwn]
  | cons p rest ih =>
    obtain ⟨k', w⟩ := p
    by_cases hk : k' = k
    · simp [hasOwn, hk]
    · have hk' : ¬ k = k' := fun h => hk h.symm
      simp [hasOwn, hk, hk', ih]

theorem lookupOwn_assignOwn (ps : Props) (k : String) (v : Value) :
    lookupOwn (assignOwn ps k v) k = some v := by
  induction ps with
  | nil => simp [assignOwn, lookupOwn]
  | cons p rest ih =>
    obtain ⟨k', w⟩ := p
    by_cases hk : k' = k
    · simp [assignOwn, lookupOwn, hk]
    · simp [assignOwn, lookupOwn, hk, ih]

theorem lookupOwn_eq_none_of_hasOwn_false (ps : Props) (k : String) (h : hasOwn ps k = false) :
    lookupOwn ps k = none := by
  induction ps with
  | nil => simp [lookupOwn]
  | cons p rest ih =>
    obtain ⟨k', w⟩ := p
    by_cases hk : k' = k
    · simp [hasOwn, hk] at h
    · simp [hasOwn, hk] at h
      simp [lookupOwn, hk, ih h]

/-- The list that `Object.keys` returns holds every own property exactly once. -/
theorem ownKeys_perm (ps : Props) : (ownKeys ps).Perm (ps.map (fun p => p.1)) := by
  unfold ownKeys
  have h1 : (((ps.filterMap (fun p => (arrayIndex? p.1).map (fun n => (n, p.1)))).insertionSort
      (fun a b => a.1 ≤ b.1)).map (fun a => a.2)).Perm
      ((ps.filter (fun p => (arrayIndex? p.1).isSome)).map (fun p => p.1)) := by
    have h2 : (ps.filterMap (fun p => (arrayIndex? p.1).map (fun n => (n, p.1)))).map
        (fun a => a.2) = (ps.filter (fun p => (arrayIndex? p.1).isSome)).map (fun p => p.1) := by
      induction ps with
      | nil => rfl
      | cons p rest ih =>
        cases hp : arrayIndex? p.1 with
        | none => simp [List.filterMap_cons, List.filter_cons, hp, ih]
        | some n => simp [List.filterMap_cons, List.filter_cons, hp, ih]
    rw [← h2]
    exact (List.perm_insertionSort _ _).map _
  have h3 : ((ps.filter (fun p => (arrayIndex? p.1).isSome)).map (fun p => p.1)
      ++ (ps.filter (fun p => (arrayIndex? p.1).isNone)).map (fun p => p.1)).Perm
      (ps.map (fun p => p.1)) := by
    rw [← List.map_append]
    apply List.Perm.map
    have := List.filter_append_perm (fun p : String × Value => (arrayIndex? p.1).isSome) ps
    convert this using 3
    funext p
    cases arrayIndex? p.1 <;> rfl
  exact (h1.append_right _).trans h3

/-! ## The default engine without middleware -/

namespace FUSE

variable {σ : Type}

theorem get_nil (eng : FUSE σ) (hm : eng.middleware = []) (key : String) (s s1 : σ) (v : Value)
    (h : eng.driver.get key s = (.ok v, s1)) :
    (eng.get key).run s = (.ok v, s1, [⟨.driver .get, [.str key], .ok v⟩]) := by
  simp [Js.run, get, getBody, hm, getBefore, getAfter, Js.tryCatch, Js.bind, Js.pure, Js.call,
    Js.callWith, h]

theorem has_nil (eng : FUSE σ) (hm : eng.middleware = []) (key : String) (s s1 : σ) (v : Value)
    (h : eng.driver.has key s = (.ok v, s1)) :
    (eng.has key).run s = (.ok v, s1, [⟨.driver .has, [.str key], .ok v⟩]) := by
  simp [Js.run, has, hasBody, hm, hasBefore, hasAfter, Js.tryCatch, Js.bind, Js.pure, Js.call,
    Js.callWith, h]

theorem set_nil (eng : FUSE σ) (hm : eng.middleware = []) (key : String) (value : Value)
    (s s1 : σ) (v : Value) (h : eng.driver.set key value s = (.ok v, s1)) :
    (eng.set key value).run s
      = (.ok .undefined, s1, [⟨.driver .set, [.str key, value], .ok v⟩]) := by
  simp [Js.run, set, setBody, hm, setBefore, setAfter, Js.tryCatch, Js.bind, Js.pure, Js.call,
    Js.callWith, h]

theorem remove_nil (eng : FUSE σ) (hm : eng.middleware = []) (key : String)
    (s s1 : σ) (v : Value) (h : eng.driver.remove key s = (.ok v, s1)) :
    (eng.remove key).run s
      = (.ok .undefined, s1, [⟨.driver .remove, [.str key], .ok v⟩]) := by
  simp [Js.run, remove, removeBody, hm, removeBefore, removeAfter, Js.tryCatch, Js.bind, Js.pure,
    Js.call, Js.callWith, h]

end FUSE

/-- On a store without prototype, `get` after `set` returns the value set, whatever the key. -/
theorem inMemory_get_set_of_no_prototype (emit : String → Value → Eff InMemoryDriver Value)
    (ps : Props) (k : String) (v : Value) :
    ((FUSE.inMemory [] emit).set k v).run ⟨.object .null ps⟩
      = (.ok .undefined, ⟨.object .null (assignOwn ps k v)⟩,
          [⟨.driver .set, [.str k, v], .ok .undefined⟩]) ∧
    ((FUSE.inMemory [] emit).get k).run ⟨.object .null (assignOwn ps k v)⟩
      = (.ok v, ⟨.object .null (assignOwn ps k v)⟩, [⟨.driver .get, [.str k], .ok v⟩]) := by
  constructor
  · apply FUSE.set_nil _ rfl
    by_cases h : hasOwn ps k = true <;>
      simp [FUSE.inMemory, InMemoryDriver.driver, InMemoryDriver.set, h]
  · apply FUSE.get_nil _ rfl
    simp [FUSE.inMemory, InMemoryDriver.driver, InMemoryDriver.get, lookupOwn_assignOwn]

/-- On a store without prototype, a key that is not an own property is reported absent by
`has` and read as `undefined` by `get`. -/
theorem inMemory_absent_of_no_prototype (emit : String → Value → Eff InMemoryDriver Value)
    (ps : Props) (k : String) (hk : k ∉ ps.map (fun p => p.1)) :
    ((FUSE.inMemory [] emit).has k).run ⟨.object .null ps⟩
      = (.ok (.bool false), ⟨.object .null ps⟩,
          [⟨.driver .has, [.str k], .ok (.bool false)⟩]) ∧
    ((FUSE.inMemory [] emit).get k).run ⟨.object .null ps⟩
      = (.ok .undefined, ⟨.object .null ps⟩, [⟨.driver .get, [.str k], .ok .undefined⟩]) := by
  have h : hasOwn ps k = false := by
    cases hh : hasOwn ps k with
    | false => rfl
    | true => exact absurd ((hasOwn_iff_mem ps k).1 hh) hk
  constructor
  · apply FUSE.has_nil _ rfl
    simp [FUSE.inMemory, InMemoryDriver.driver, InMemoryDriver.has, h]
  · apply FUSE.get_nil _ rfl
    simp [FUSE.inMemory, InMemoryDriver.driver, InMemoryDriver.get,
      lookupOwn_eq_none_of_hasOwn_false ps k h]

/-! ## Size of the store after a sequence of calls -/

theorem keys_assignOwn (ps : Props) (k : String) (v : Value) :
    (assignOwn ps k v).map (fun p => p.1)
      = if k ∈ ps.map (fun p => p.1) then ps.map (fun p => p.1)
        else ps.map (fun p => p.1) ++ [k] := by
  induction ps with
  | nil => simp [assignOwn]
  | cons p rest ih =>
    obtain ⟨k', w⟩ := p
    by_cases hk : k' = k
    · subst hk
      simp [assignOwn]
    · have hk' : ¬ k = k' := fun h => hk h.symm
      rw [assignOwn, if_neg hk]
      simp only [List.map_cons, List.mem_cons, hk', false_or, ih]
      by_cases hmem : k ∈ rest.map (fun p => p.1)
      · simp [hmem]
      · simp [hmem]

theorem keys_deleteOwn (ps : Props) (k : String) :
    (deleteOwn ps k).map (fun p => p.1)
      = (ps.map (fun p => p.1)).filter (fun x => decide (x ≠ k)) := by
  induction ps with
  | nil => simp [deleteOwn]
  | cons p rest ih =>
    obtain ⟨k', w⟩ := p
    by_cases hk : k' = k
    · subst hk
      simp [deleteOwn, ih]
    · rw [deleteOwn, if_neg hk]
      simp [hk, ih]

theorem Call.keys_apply (ps : Props) (c : Call) :
    (c.apply ps).map (fun p => p.1) = c.applyKeys (ps.map (fun p => p.1)) := by
  cases c with
  | set k v => exact keys_assignOwn ps k v
  | remove k => exact keys_deleteOwn ps k
  | clear => rfl

theorem Call.keys_foldl_apply (calls : List Call) (ps : Props) :
    (calls.foldl Call.apply ps).map (fun p => p.1)
      = calls.foldl Call.applyKeys (ps.map (fun p => p.1)) := by
  induction calls generalizing ps with
  | nil => rfl
  | cons c rest ih => simp only [List.foldl_cons, ih, Call.keys_apply]

theorem Call.issue_no_prototype (emit : String → Value → Eff InMemoryDriver Value)
    (ps : Props) (c : Call) :
    ∃ t, (c.issue (FUSE.inMemory [] emit)).run ⟨.object .null ps⟩
      = (.ok .undefined, ⟨.object .null (c.apply ps)⟩, t) := by
  cases c with
  | set k v => exact ⟨_, (inMemory_get_set_of_no_prototype emit ps k v).1⟩
  | remove k =>
    refine ⟨[⟨.driver .remove, [.str k], .ok .undefined⟩], ?_⟩
    apply FUSE.remove_nil _ rfl
    simp [FUSE.inMemory, InMemoryDriver.driver, InMemoryDriver.remove, Call.apply]
  | clear =>
    refine ⟨[⟨.driver .clear, [], .ok .undefined⟩], ?_⟩
    simp [Call.issue, Call.apply, Js.run, FUSE.clear, FUSE.inMemory, InMemoryDriver.driver,
      InMemoryDriver.clear, Js.tryCatch, Js.call, Js.callWith]

theorem issueAll_no_prototype (emit : String → Value → Eff InMemoryDriver Value)
    (calls : List Call) (ps : Props) :
    ∃ t, (issueAll (FUSE.inMemory [] emit) calls).run ⟨.object .null ps⟩
      = (.ok .undefined, ⟨.object .null (calls.foldl Call.apply ps)⟩, t) := by
  induction calls generalizing ps with
  | nil => exact ⟨[], rfl⟩
  | cons c rest ih =>
    obtain ⟨t1, h1⟩ := Call.issue_no_prototype emit ps c
    obtain ⟨t2, h2⟩ := ih (c.apply ps)
    refine ⟨t1 ++ t2, ?_⟩
    simp only [Js.run] at h1 h2 ⊢
    simp only [issueAll, List.foldl_cons]
    rw [Js.bind_ok h1, h2]

theorem Call.not_live_nil (k : String) : ¬ Call.Live [] k := by
  rintro ⟨pre, v, post, h, _⟩
  cases pre <;> simp at h

theorem Call.live_concat (calls : List Call) (c : Call) (k : String) :
    Call.Live (calls ++ [c]) k ↔
      (∃ v, c = Call.set k v) ∨ (Call.Live calls k ∧ c ≠ Call.remove k ∧ c ≠ Call.clear) := by
  constructor
  · rintro ⟨pre, v, post, h, hpost⟩
    rcases List.eq_nil_or_concat post with hp | ⟨post', c', hp⟩
    · subst hp
      have h' : calls ++ [c] = pre ++ [Call.set k v] := h
      obtain ⟨_, hc⟩ := List.append_inj' h' rfl
      exact Or.inl ⟨v, by simpa using hc⟩
    · subst hp
      have h' : calls ++ [c] = (pre ++ Call.set k v :: post') ++ [c'] := by
        simpa using h
      obtain ⟨h1, hc⟩ := List.append_inj' h' rfl
      have hc' : c = c' := by simpa using hc
      subst hc'
      refine Or.inr ⟨⟨pre, v, post', h1, fun x hx => hpost x ?_⟩, hpost c ?_⟩
      · simp [hx]
      · simp
  · rintro (⟨v, rfl⟩ | ⟨⟨pre, v, post, h, hpost⟩, h1, h2⟩)
    · exact ⟨calls, v, [], rfl, by simp⟩
    · refine ⟨pre, v, post ++ [c], by simp [h], ?_⟩
      intro x hx
      rcases List.mem_append.1 hx with hx | hx
      · exact hpost x hx
      · have : x = c := by simpa using hx
        subst this
        exact ⟨h1, h2⟩

theorem Call.nodup_applyKeys (ks : List String) (c : Call) (h : ks.Nodup) :
    (c.applyKeys ks).Nodup := by
  cases c with
  | set k v =>
    simp only [Call.applyKeys]
    by_cases hk : k ∈ ks
    · simpa [hk] using h
    · simp only [hk, if_false]
      exact List.Nodup.append h (by simp) (by simpa using hk)
  | remove k => exact h.filter _
  | clear => simp [Call.applyKeys]

theorem Call.nodup_foldl_applyKeys (calls : List Call) :
    (calls.foldl Call.applyKeys []).Nodup := by
  induction calls using List.reverseRecOn with
  | nil => simp
  | append_singleton calls c ih =>
    rw [List.foldl_append]
    exact Call.nodup_applyKeys _ c ih

theorem Call.mem_applyKeys (ks : List String) (c : Call) (x : String) :
    x ∈ c.applyKeys ks ↔
      (∃ v, c = Call.set x v) ∨ (x ∈ ks ∧ c ≠ Call.remove x ∧ c ≠ Call.clear) := by
  cases c with
  | set k v =>
    simp only [Call.applyKeys]
    constructor
    · intro h
      by_cases hk : k ∈ ks
      · rw [if_pos hk] at h
        exact Or.inr ⟨h, by simp, by simp⟩
      · rw [if_neg hk] at h
        rcases List.mem_append.1 h with h | h
        · exact Or.inr ⟨h, by simp, by simp⟩
        · have : x = k := by simpa using h
          exact Or.inl ⟨v, by rw [this]⟩
    · rintro (⟨v', h⟩ | ⟨h, _, _⟩)
      · injection h with h1 _
        subst h1
        by_cases hk : k ∈ ks
        · rw [if_pos hk]; exact hk
        · rw [if_neg hk]; simp
      · by_cases hk : k ∈ ks
        · rw [if_pos hk]; exact h
        · rw [if_neg hk]; exact List.mem_append_left _ h
  | remove k =>
    simp only [Call.applyKeys, List.mem_filter, decide_eq_true_eq]
    constructor
    · rintro ⟨h1, h2⟩
      exact Or.inr ⟨h1, fun h => h2 (by injection h with h'; exact h'.symm), by simp⟩
    · rintro (⟨v', h⟩ | ⟨h, h1, _⟩)
      · cases h
      · exact ⟨h, fun hk => h1 (by rw [hk])⟩
  | clear =>
    simp only [Call.applyKeys]
    constructor
    · intro h
      simp at h
    · rintro (⟨v', h⟩ | ⟨_, _, h⟩)
      · cases h
      · exact absurd rfl h

theorem Call.mem_foldl_applyKeys (calls : List Call) (k : String) :
    k ∈ calls.foldl Call.applyKeys [] ↔ Call.Live calls k := by
  induction calls using List.reverseRecOn with
  | nil => simpa using Call.not_live_nil k
  | append_singleton calls c ih =>
    rw [List.foldl_append, Call.live_concat, ← ih]
    exact Call.mem_applyKeys _ c k

/-- The keys `Object.keys` lists on a store whose own keys are those left by the calls are as
many as the keys that are live after the calls. -/
theorem Call.ncard_live (calls : List Call) (ps : Props)
    (hps : ps.map (fun p => p.1) = calls.foldl Call.applyKeys []) :
    Set.ncard {k | Call.Live calls k} = (ownKeys ps).length := by
  have hperm := ownKeys_perm ps
  have hnodup : (ownKeys ps).Nodup :=
    hperm.nodup_iff.2 (hps ▸ Call.nodup_foldl_applyKeys calls)
  have hset : {k | Call.Live calls k} = ↑(ownKeys ps).toFinset := by
    ext k
    simp only [Set.mem_setOf_eq, List.coe_toFinset]
    rw [← Call.mem_foldl_applyKeys, hperm.mem_iff, hps]
  rw [hset, Set.ncard_coe_Finset, List.toFinset_card_of_nodup hnodup]

/-- C3. After any sequence of `set`, `remove` and `clear` calls on the default engine, starting
from the empty store, every call has returned, `size()` is the number of keys that were set
and neither removed nor cleared afterwards, and `keys()` has that length. -/
theorem inMemory_size_eq_live_count (emit : String → Value → Eff InMemoryDriver Value)
    (calls : List Call) :
    ∃ (s : InMemoryDriver) (t : List Event) (ks : List String),
      (issueAll (FUSE.inMemory [] emit) calls).run InMemoryDriver.new = (.ok .undefined, s, t) ∧
      (FUSE.inMemory [] emit).size.run s
        = (.ok (.num (Set.ncard {k | Call.Live calls k})), s,
            [⟨.driver .size, [], .ok (.num (Set.ncard {k | Call.Live calls k}))⟩]) ∧
      (FUSE.inMemory [] emit).keys.run s
        = (.ok ks, s, [⟨.driver .keys, [], .ok (.arr (ks.map Value.str))⟩]) ∧
      ks.length = Set.ncard {k | Call.Live calls k} := by
  obtain ⟨t, h⟩ := issueAll_no_prototype emit calls []
  have hcard := Call.ncard_live calls (calls.foldl Call.apply [])
    (Call.keys_foldl_apply calls [])
  refine ⟨_, t, ownKeys (calls.foldl Call.apply []), h, ?_, ?_, hcard.symm⟩
  · simp [Js.run, FUSE.size, FUSE.inMemory, InMemoryDriver.driver, InMemoryDriver.size,
      Js.tryCatch, Js.call, Js.callWith, hcard]
  · simp [Js.run, FUSE.keys, FUSE.inMemory, InMemoryDriver.driver, InMemoryDriver.keys,
      Js.tryCatch, Js.callWith]

/-! ## The `get` operation -/

theorem Value.isDefined_iff (v : Value) : v.isDefined = true ↔ v ≠ Value.undefined := by
  cases v <;> simp [Value.isDefined]

namespace FUSE

variable {σ : Type}

theorem getAfter_of_chain {key : String} {ms : List (Middleware σ)} {v v' : Value} {s s' : σ}
    (h : AfterGetChain key ms v s v' s') (i : Nat) :
    ∃ t, getAfter key i ms v s = (.ok v', s', t) ∧ ∀ e ∈ t, e.site.isAfter .get = true := by
  induction h generalizing i with
  | nil => exact ⟨[], rfl, by simp⟩
  | absent hm _ ih =>
    obtain ⟨t, ht, hs⟩ := ih (i + 1)
    exact ⟨t, by simp only [getAfter, hm]; exact ht, hs⟩
  | @applied m rest h v w v' s s1 s' hm hh _ ih =>
    obtain ⟨t, ht, hs⟩ := ih (i + 1)
    refine ⟨⟨.after i .get, [.str key, v], .ok w⟩ :: t, ?_, ?_⟩
    · simp only [getAfter, hm]
      rw [Js.bind_ok (Js.call_ok hh), ht]
      rfl
    · intro e he
      rcases List.mem_cons.1 he with rfl | he
      · simp [Site.isAfter]
      · exact hs e he

theorem getBefore_of_firstOverride (eng : FUSE σ) {key : String} {ms : List (Middleware σ)}
    {s s1 s2 : σ} {o r : Value} (hb : FirstOverride key ms s o s1)
    (ha : AfterGetChain key eng.middleware o s1 r s2) (i : Nat) :
    ∃ t, getBefore eng key i ms s = (.ok (some r), s2, t) ∧
      ∀ e ∈ t, e.site.isBefore .get = true ∨ e.site.isAfter .get = true := by
  induction hb generalizing i with
  | @here m rest h s s' o hm hh ho =>
    obtain ⟨t, ht, hs⟩ := getAfter_of_chain ha 0
    refine ⟨⟨.before i .get, [.str key], .ok o⟩ :: (t ++ []), ?_, ?_⟩
    · simp only [getBefore, hm]
      rw [Js.bind_ok (Js.call_ok hh)]
      simp only [(Value.isDefined_iff _).2 ho, if_true]
      rw [Js.bind_ok ht]
      rfl
    · intro e he
      rcases List.mem_cons.1 he with rfl | he
      · simp [Site.isBefore]
      · exact Or.inr (hs e (by simpa using he))
  | absent hm _ ih =>
    obtain ⟨t, ht, hs⟩ := ih ha (i + 1)
    exact ⟨t, by simp only [getBefore, hm]; exact ht, hs⟩
  | @declined m rest h s s1 s' o hm hh _ ih =>
    obtain ⟨t, ht, hs⟩ := ih ha (i + 1)
    refine ⟨⟨.before i .get, [.str key], .ok .undefined⟩ :: t, ?_, ?_⟩
    · simp only [getBefore, hm]
      rw [Js.bind_ok (Js.call_ok hh)]
      simp only [Value.isDefined, Bool.false_eq_true, if_false]
      rw [ht]
      rfl
    · intro e he
      rcases List.mem_cons.1 he with rfl | he
      · simp [Site.isBefore]
      · exact hs e he

theorem getBefore_of_noOverride (eng : FUSE σ) {key : String} {ms : List (Middleware σ)}
    {s s1 : σ} (hb : NoOverride key ms s s1) (i : Nat) :
    ∃ t, getBefore eng key i ms s = (.ok none, s1, t) ∧
      ∀ e ∈ t, e.site.isBefore .get = true := by
  induction hb generalizing i with
  | nil => exact ⟨[], rfl, by simp⟩
  | absent hm _ ih =>
    obtain ⟨t, ht, hs⟩ := ih (i + 1)
    exact ⟨t, by simp only [getBefore, hm]; exact ht, hs⟩
  | @declined m rest h s s1 s' hm hh _ ih =>
    obtain ⟨t, ht, hs⟩ := ih (i + 1)
    refine ⟨⟨.before i .get, [.str key], .ok .undefined⟩ :: t, ?_, ?_⟩
    · simp only [getBefore, hm]
      rw [Js.bind_ok (Js.call_ok hh)]
      simp only [Value.isDefined, Bool.false_eq_true, if_false]
      rw [ht]
      rfl
    · intro e he
      rcases List.mem_cons.1 he with rfl | he
      · simp [Site.isBefore]
      · exact hs e he

end FUSE

/-- C4. When the `before.get` hooks, called in list order, produce a first defined override
`o`, and `o` passed through every `after.get` hook in list order comes out as `r`, then
`get(key)` returns `r` and no method of the driver is called. -/
theorem get_override_skips_driver {σ : Type} (eng : FUSE σ) (key : String) (s s1 s2 : σ)
    (o r : Value) (hb : FirstOverride key eng.middleware s o s1)
    (ha : AfterGetChain key eng.middleware o s1 r s2) :
    ∃ t, (eng.get key).run s = (.ok r, s2, t) ∧ ∀ e ∈ t, e.site.isDriver = false := by
  obtain ⟨t, ht, hs⟩ := FUSE.getBefore_of_firstOverride eng hb ha 0
  refine ⟨t ++ [], ?_, ?_⟩
  · have hbody : eng.getBody key s = (.ok r, s2, t ++ []) := by
      simp only [FUSE.getBody]
      rw [Js.bind_ok ht]
      rfl
    simp only [Js.run, FUSE.get]
    rw [Js.tryCatch_ok hbody]
  · intro e he
    rcases hs e (by simpa using he) with h | h
    · cases hsite : e.site <;> simp [hsite, Site.isBefore, Site.isDriver] at h ⊢
    · cases hsite : e.site <;> simp [hsite, Site.isAfter, Site.isDriver] at h ⊢

/-- C6. When every `before.get` hook returns `undefined`, the driver's `get` returns `d`, and
`d` passed through the `after.get` hooks in list order (the first of the list first, each fed
the value returned by the one before, an absent hook passing the value on) comes out as `r`,
then `get(key)` returns `r`. -/
theorem get_applies_after_hooks_in_list_order {σ : Type} (eng : FUSE σ) (key : String)
    (s s1 s2 s3 : σ) (d r : Value) (hb : NoOverride key eng.middleware s s1)
    (hd : eng.driver.get key s1 = (.ok d, s2))
    (ha : AfterGetChain key eng.middleware d s2 r s3) :
    ∃ t, (eng.get key).run s = (.ok r, s3, t) := by
  obtain ⟨t1, ht1, _⟩ := FUSE.getBefore_of_noOverride eng hb 0
  obtain ⟨t2, ht2, _⟩ := FUSE.getAfter_of_chain ha 0
  refine ⟨t1 ++ ([⟨.driver .get, [.str key], .ok d⟩] ++ t2), ?_⟩
  have hbody : eng.getBody key s
      = (.ok r, s3, t1 ++ ([⟨.driver .get, [.str key], .ok d⟩] ++ t2)) := by
    simp only [FUSE.getBody]
    rw [Js.bind_ok ht1]
    simp only []
    rw [Js.bind_ok (Js.call_ok hd), ht2]
  simp only [Js.run, FUSE.get]
  rw [Js.tryCatch_ok hbody]

/-! ## Traces of `try` blocks -/

theorem Site.isDriver_eq_false_of_isAfter {op : Op} {st : Site} (h : st.isAfter op = true) :
    st.isDriver = false := by
  cases st <;> simp [Site.isAfter, Site.isDriver] at h ⊢

theorem Site.isOnError_eq_false_of_isBody {st : Site} (h : st.isBody = true) :
    st.isOnError = false := by
  cases st <;> simp [Site.isBody, Site.isOnError] at h ⊢

namespace Js

variable {σ α β : Type}

theorem tidy_pure (a : α) : (Js.pure a : Js σ α).Tidy := by
  intro s
  exact ⟨by simp [Js.pure], by simp [Js.pure]⟩

theorem tidy_call (site : Site) (args : List Value) (f : Eff σ Value)
    (h : site.isBody = true) : (Js.call site args f).Tidy := by
  intro s
  rcases hf : f s with ⟨r, s1⟩
  cases r with
  | ok v =>
    rw [Js.call_ok hf]
    exact ⟨by simpa using h, by simp [Event.returned]⟩
  | error x =>
    rw [Js.call_error hf]
    exact ⟨by simpa using h, ⟨[], _, rfl, rfl, by simp⟩⟩

theorem tidy_bind {x : Js σ α} {f : α → Js σ β} (hx : x.Tidy) (hf : ∀ a, (f a).Tidy) :
    (Js.bind x f).Tidy := by
  intro s
  rcases hxs : x s with ⟨r, s1, t1⟩
  have h1 := hx s
  rw [hxs] at h1
  cases r with
  | error e =>
    rw [Js.bind_error hxs]
    exact h1
  | ok a =>
    rw [Js.bind_ok hxs]
    have h2 := hf a s1
    rcases hfs : f a s1 with ⟨r2, s2, t2⟩
    rw [hfs] at h2
    obtain ⟨h1s, h1r⟩ := h1
    obtain ⟨h2s, h2r⟩ := h2
    refine ⟨?_, ?_⟩
    · intro e he
      rcases List.mem_append.1 he with he | he
      · exact h1s e he
      · exact h2s e he
    · cases r2 with
      | ok b =>
        intro e he
        rcases List.mem_append.1 he with he | he
        · exact h1r e he
        · exact h2r e he
      | error y =>
        obtain ⟨t0, ev, ht, hev, h0⟩ := h2r
        refine ⟨t1 ++ t0, ev, ?_, hev, ?_⟩
        · have ht' : t2 = t0 ++ [ev] := ht
          show t1 ++ t2 = t1 ++ t0 ++ [ev]
          rw [ht', List.append_assoc]
        · intro e he
          rcases List.mem_append.1 he with he | he
          · exact h1r e he
          · exact h0 e he

end Js

namespace FUSE

variable {σ : Type}

theorem tidy_getAfter (key : String) (ms : List (Middleware σ)) :
    ∀ (i : Nat) (v : Value), (getAfter key i ms v).Tidy := by
  induction ms with
  | nil => intro i v; exact Js.tidy_pure v
  | cons m rest ih =>
    intro i v
    cases hm : m.afterGet with
    | none => simp only [getAfter, hm]; exact ih (i + 1) v
    | some h =>
      simp only [getAfter, hm]
      exact Js.tidy_bind (Js.tidy_call _ _ _ rfl) (fun w => ih (i + 1) w)

theorem tidy_getBefore (eng : FUSE σ) (key : String) (ms : List (Middleware σ)) :
    ∀ (i : Nat), (getBefore eng key i ms).Tidy := by
  induction ms with
  | nil => intro i; exact Js.tidy_pure none
  | cons m rest ih =>
    intro i
    cases hm : m.beforeGet with
    | none => simp only [getBefore, hm]; exact ih (i + 1)
    | some h =>
      simp only [getBefore, hm]
      refine Js.tidy_bind (Js.tidy_call _ _ _ rfl) (fun o => ?_)
      by_cases ho : o.isDefined = true
      · simp only [ho, if_true]
        exact Js.tidy_bind (tidy_getAfter key _ 0 o) (fun val => Js.tidy_pure (some val))
      · simp only [ho, if_false]
        exact ih (i + 1)

theorem tidy_getBody (eng : FUSE σ) (key : String) : (getBody eng key).Tidy := by
  refine Js.tidy_bind (tidy_getBefore eng key _ 0) (fun r => ?_)
  cases r with
  | some val => exact Js.tidy_pure val
  | none =>
    exact Js.tidy_bind (Js.tidy_call _ _ _ rfl) (fun d => tidy_getAfter key _ 0 d)

theorem tidy_setBefore (key : String) (ms : List (Middleware σ)) :
    ∀ (i : Nat) (v : Value), (setBefore key i ms v).Tidy := by
  induction ms with
  | nil => intro i v; exact Js.tidy_pure v
  | cons m rest ih =>
    intro i v
    cases hm : m.beforeSet with
    | none => simp only [setBefore, hm]; exact ih (i + 1) v
    | some h =>
      simp only [setBefore, hm]
      refine Js.tidy_bind (Js.tidy_call _ _ _ rfl) (fun w => ?_)
      by_cases hw : w.isDefined = true
      · simp only [hw, if_true]; exact ih (i + 1) w
      · simp only [hw, if_false]; exact ih (i + 1) v

theorem tidy_setAfter (key : String) (val : Value) (ms : List (Middleware σ)) :
    ∀ (i : Nat), (setAfter key val i ms).Tidy := by
  induction ms with
  | nil => intro i; exact Js.tidy_pure ()
  | cons m rest ih =>
    intro i
    cases hm : m.afterSet with
    | none => simp only [setAfter, hm]; exact ih (i + 1)
    | some h =>
      simp only [setAfter, hm]
      exact Js.tidy_bind (Js.tidy_call _ _ _ rfl) (fun _ => ih (i + 1))

theorem tidy_setBody (eng : FUSE σ) (key : String) (value : Value) :
    (setBody eng key value).Tidy :=
  Js.tidy_bind (tidy_setBefore key _ 0 value) (fun val =>
    Js.tidy_bind (Js.tidy_call _ _ _ rfl) (fun _ =>
      Js.tidy_bind (tidy_setAfter key val _ 0) (fun _ => Js.tidy_pure _)))

theorem tidy_removeBefore (key : String) (ms : List (Middleware σ)) :
    ∀ (i : Nat), (removeBefore key i ms).Tidy := by
  induction ms with
  | nil => intro i; exact Js.tidy_pure ()
  | cons m rest ih =>
    intro i
    cases hm : m.beforeRemove with
    | none => simp only [removeBefore, hm]; exact ih (i + 1)
    | some h =>
      simp only [removeBefore, hm]
      exact Js.tidy_bind (Js.tidy_call _ _ _ rfl) (fun _ => ih (i + 1))

theorem tidy_removeAfter (key : String) (ms : List (Middleware σ)) :
    ∀ (i : Nat), (removeAfter key i ms).Tidy := by
  induction ms with
  | nil => intro i; exact Js.tidy_pure ()
  | cons m rest ih =>
    intro i
    cases hm : m.afterRemove with
    | none => simp only [removeAfter, hm]; exact ih (i + 1)
    | some h =>
      simp only [removeAfter, hm]
      exact Js.tidy_bind (Js.tidy_call _ _ _ rfl) (fun _ => ih (i + 1))

theorem tidy_removeBody (eng : FUSE σ) (key : String) : (removeBody eng key).Tidy :=
  Js.tidy_bind (tidy_removeBefore key _ 0) (fun _ =>
    Js.tidy_bind (Js.tidy_call _ _ _ rfl) (fun _ =>
      Js.tidy_bind (tidy_removeAfter key _ 0) (fun _ => Js.tidy_pure _)))

theorem tidy_hasBefore (key : String) (ms : List (Middleware σ)) :
    ∀ (i : Nat), (hasBefore key i ms).Tidy := by
  induction ms with
  | nil => intro i; exact Js.tidy_pure none
  | cons m rest ih =>
    intro i
    cases hm : m.beforeHas with
    | none => simp only [hasBefore, hm]; exact ih (i + 1)
    | some h =>
      simp only [hasBefore, hm]
      refine Js.tidy_bind (Js.tidy_call _ _ _ rfl) (fun o => ?_)
      by_cases ho : o.isBoolean = true
      · simp only [ho, if_true]; exact Js.tidy_pure (some o)
      · simp only [ho, if_false]; exact ih (i + 1)

theorem tidy_hasAfter (key : String) (ms : List (Middleware σ)) :
    ∀ (i : Nat) (v : Value), (hasAfter key i ms v).Tidy := by
  induction ms with
  | nil => intro i v; exact Js.tidy_pure v
  | cons m rest ih =>
    intro i v
    cases hm : m.afterHas with
    | none => simp only [hasAfter, hm]; exact ih (i + 1) v
    | some h =>
      simp only [hasAfter, hm]
      exact Js.tidy_bind (Js.tidy_call _ _ _ rfl) (fun w => ih (i + 1) w)

theorem tidy_hasBody (eng : FUSE σ) (key : String) : (hasBody eng key).Tidy := by
  refine Js.tidy_bind (tidy_hasBefore key _ 0) (fun r => ?_)
  cases r with
  | some val => exact Js.tidy_pure val
  | none =>
    exact Js.tidy_bind (Js.tidy_call _ _ _ rfl) (fun d => tidy_hasAfter key _ 0 d)

theorem tidy_body (eng : FUSE σ) (p : Prim) : (p.body eng).Tidy := by
  cases p with
  | get key => exact tidy_getBody eng key
  | set key value => exact tidy_setBody eng key value
  | remove key => exact tidy_removeBody eng key
  | has key => exact tidy_hasBody eng key

theorem issue_eq (eng : FUSE σ) (p : Prim) :
    p.issue eng = Js.tryCatch (p.body eng) (rethrow eng) := by
  cases p <;> rfl

/-! ## The error handler -/

theorem handleErrorLoop_trace (err : Value) (ms : List (Middleware σ)) :
    ∀ (i : Nat) (s : σ), ∃ s' t, handleErrorLoop err i ms s = (.ok (), s', t) ∧
      t.map Event.call
        = (positionsFrom (fun m => m.onError.isSome) i ms).map (fun j => (Site.onError j, [err]))
      ∧ ∀ e ∈ t, e.site.isOnError = true := by
  induction ms with
  | nil => intro i s; exact ⟨s, [], rfl, rfl, by simp⟩
  | cons m rest ih =>
    intro i s
    cases hm : m.onError with
    | none =>
      obtain ⟨s', t, ht, hc, hs⟩ := ih (i + 1) s
      refine ⟨s', t, ?_, ?_, hs⟩
      · simp only [handleErrorLoop, hm]; exact ht
      · simp only [positionsFrom, hm, Option.isSome_none, Bool.false_eq_true, if_false]
        exact hc
    | some h =>
      rcases hh : h err s with ⟨r, s1⟩
      obtain ⟨s', t, ht, hc, hs⟩ := ih (i + 1) s1
      have hcall : Js.tryCatch (Js.call (.onError i) [err] (h err))
          (fun _ => Js.pure Value.undefined) s
          = (.ok (match r with | .ok v => v | .error _ => Value.undefined), s1,
              [⟨.onError i, [err], r⟩]) := by
        cases r with
        | ok v => rw [Js.tryCatch_ok (Js.call_ok hh)]
        | error x => rw [Js.tryCatch_error (Js.call_error hh)]; rfl
      refine ⟨s', ⟨.onError i, [err], r⟩ :: t, ?_, ?_, ?_⟩
      · simp only [handleErrorLoop, hm]
        rw [Js.bind_ok hcall, ht]
        rfl
      · simp only [positionsFrom, hm, Option.isSome_some, if_true, List.map_cons, hc]
        rfl
      · intro e he
        rcases List.mem_cons.1 he with rfl | he
        · rfl
        · exact hs e he

/-- Shape of every run of the `catch` clause: the `onError` hooks of the middleware that define
one, in list order, each called with the error, then the `error` event. The clause fails with
the error it was given unless emitting throws. -/
theorem rethrow_trace (eng : FUSE σ) (err : Value) (s : σ) :
    ∃ (x : Value) (s' : σ) (t : List Event) (em : Event),
      (rethrow eng err : Js σ Value) s = (.error x, s', t ++ [em]) ∧
      t.map Event.call = (onErrorPositions eng.middleware).map (fun j => (Site.onError j, [err]))
      ∧ (∀ e ∈ t, e.site.isOnError = true)
      ∧ em.site = .emit "error" ∧ em.args = [err]
      ∧ ((em.returned ∧ x = err) ∨ em.result = .error x) := by
  obtain ⟨s1, t, ht, hc, hs⟩ := handleErrorLoop_trace err eng.middleware 0 s
  rcases hem : eng.emit "error" err s1 with ⟨r, s2⟩
  cases r with
  | ok v =>
    refine ⟨err, s2, t, ⟨.emit "error", [err], .ok v⟩, ?_, hc, hs, rfl, rfl,
      Or.inl ⟨⟨v, rfl⟩, rfl⟩⟩
    simp only [rethrow, _handleError]
    have h1 : Js.bind (handleErrorLoop err 0 eng.middleware) (fun _ =>
        Js.bind (Js.call (.emit "error") [err] (eng.emit "error" err))
          (fun _ => Js.pure ())) s = (.ok (), s2, t ++ [⟨.emit "error", [err], .ok v⟩]) := by
      rw [Js.bind_ok ht, Js.bind_ok (Js.call_ok hem)]
      rfl
    rw [Js.bind_ok h1]
    simp [Js.throw]
  | error y =>
    refine ⟨y, s2, t, ⟨.emit "error", [err], .error y⟩, ?_, hc, hs, rfl, rfl, Or.inr rfl⟩
    simp only [rethrow, _handleError]
    have h1 : Js.bind (handleErrorLoop err 0 eng.middleware) (fun _ =>
        Js.bind (Js.call (.emit "error") [err] (eng.emit "error" err))
          (fun _ => Js.pure ())) s
        = (.error y, s2, t ++ [⟨.emit "error", [err], .error y⟩]) := by
      rw [Js.bind_ok ht, Js.bind_error (Js.call_error hem)]
    rw [Js.bind_error h1]

end FUSE

/-! ## Failure of a primitive operation -/

theorem filter_isOnError_of_tidy {α : Type} {r : Except Value α} {t : List Event}
    (h : FailLast r t) : t.filter (fun ev => ev.site.isOnError) = [] := by
  rw [List.filter_eq_nil_iff]
  intro ev hev
  simp [Site.isOnError_eq_false_of_isBody (h.1 ev hev)]

/-- C10, amended. If, while a primitive operation runs, a hook or the driver throws `e`, then
the `onError` hooks called are exactly those of the middleware that define one, once each, in
list order, each with `e`, whether or not they throw themselves; and the operation fails with
`e`, provided that the call that emits the `error` event returns. -/
theorem prim_failure_is_broadcast_and_rethrown {σ : Type} (eng : FUSE σ) (p : Prim) (s : σ)
    (e : Value)
    (hfail : ∃ ev ∈ ((p.issue eng).run s).2.2, ev.site.isBody = true ∧ ev.result = .error e) :
    (((p.issue eng).run s).2.2.filter (fun ev => ev.site.isOnError)).map Event.call
      = (onErrorPositions eng.middleware).map (fun j => (Site.onError j, [e])) ∧
    ((∀ ev ∈ ((p.issue eng).run s).2.2, ev.site = Site.emit "error" → ev.returned) →
      ((p.issue eng).run s).1 = .error e) := by
  have htidy := FUSE.tidy_body eng p s
  rcases hbody : p.body eng s with ⟨r1, s1, t1⟩
  rw [hbody] at htidy
  simp only [Js.run, FUSE.issue_eq] at hfail ⊢
  cases r1 with
  | ok a =>
    rw [Js.tryCatch_ok hbody] at hfail
    obtain ⟨ev, hev, _, hres⟩ := hfail
    obtain ⟨v, hv⟩ := htidy.2 ev hev
    rw [hres] at hv
    cases hv
  | error x =>
    obtain ⟨y, s2, tl, em, hre, hcalls, hsites, hemsite, _, hout⟩ :=
      FUSE.rethrow_trace eng x s1
    rw [Js.tryCatch_error hbody, hre] at hfail ⊢
    obtain ⟨t0, ev0, ht1, hev0, h0⟩ := htidy.2
    have ht1' : t1 = t0 ++ [ev0] := ht1
    have hxe : x = e := by
      obtain ⟨ev, hev, hbodysite, hres⟩ := hfail
      have hev' : ev ∈ t1 ++ (tl ++ [em]) := hev
      rcases List.mem_append.1 hev' with hin | hin
      · rw [ht1'] at hin
        rcases List.mem_append.1 hin with hin | hin
        · obtain ⟨v, hv⟩ := h0 ev hin
          rw [hres] at hv
          cases hv
        · have : ev = ev0 := by simpa using hin
          rw [this, hev0] at hres
          injection hres
      · rcases List.mem_append.1 hin with hin | hin
        · have h1 := hsites ev hin
          cases hsite : ev.site <;> simp [hsite, Site.isBody, Site.isOnError] at hbodysite h1
        · have : ev = em := by simpa using hin
          rw [this, hemsite] at hbodysite
          simp [Site.isBody] at hbodysite
    subst hxe
    refine ⟨?_, ?_⟩
    · show (List.filter (fun ev => ev.site.isOnError) (t1 ++ (tl ++ [em]))).map Event.call = _
      rw [List.filter_append, List.filter_append, filter_isOnError_of_tidy htidy,
        List.filter_eq_self.2 (fun ev hev => hsites ev hev)]
      have hemf : List.filter (fun ev => ev.site.isOnError) [em] = [] := by
        rw [List.filter_eq_nil_iff]
        intro ev hev
        have : ev = em := by simpa using hev
        rw [this, hemsite]
        simp [Site.isOnError]
      rw [hemf, List.nil_append, List.append_nil, hcalls]
    · intro hreturned
      show Except.error y = Except.error x
      rcases hout with ⟨_, hy⟩ | hthrew
      · rw [hy]
      · exfalso
        have hmem : em ∈ t1 ++ (tl ++ [em]) := by simp
        obtain ⟨v, hv⟩ := hreturned em hmem hemsite
        rw [hthrew] at hv
        cases hv

/-! ## The `set` operation -/

namespace FUSE

variable {σ : Type}

theorem setBefore_of_chain {key : String} {ms : List (Middleware σ)} {v v' : Value} {s s' : σ}
    (h : BeforeSetChain key ms v s v' s') (i : Nat) :
    ∃ t, setBefore key i ms v s = (.ok v', s', t) ∧ ∀ e ∈ t, e.site.isBefore .set = true := by
  induction h generalizing i with
  | nil => exact ⟨[], rfl, by simp⟩
  | absent hm _ ih =>
    obtain ⟨t, ht, hs⟩ := ih (i + 1)
    exact ⟨t, by simp only [setBefore, hm]; exact ht, hs⟩
  | @replaced m rest h v w v' s s1 s' hm hh hw _ ih =>
    obtain ⟨t, ht, hs⟩ := ih (i + 1)
    refine ⟨⟨.before i .set, [.str key, v], .ok w⟩ :: t, ?_, ?_⟩
    · simp only [setBefore, hm]
      rw [Js.bind_ok (Js.call_ok hh)]
      simp only [(Value.isDefined_iff _).2 hw, if_true]
      rw [ht]
      rfl
    · intro e he
      rcases List.mem_cons.1 he with rfl | he
      · simp [Site.isBefore]
      · exact hs e he
  | @kept m rest h v v' s s1 s' hm hh _ ih =>
    obtain ⟨t, ht, hs⟩ := ih (i + 1)
    refine ⟨⟨.before i .set, [.str key, v], .ok .undefined⟩ :: t, ?_, ?_⟩
    · simp only [setBefore, hm]
      rw [Js.bind_ok (Js.call_ok hh)]
      simp only [Value.isDefined, Bool.false_eq_true, if_false]
      rw [ht]
      rfl
    · intro e he
      rcases List.mem_cons.1 he with rfl | he
      · simp [Site.isBefore]
      · exact hs e he

theorem setAfter_trace (key : String) (val : Value) (ms : List (Middleware σ)) :
    ∀ (i : Nat) (s : σ),
      (∀ e ∈ (setAfter key val i ms s).2.2,
        e.site.isAfter .set = true ∧ e.args = [.str key, val]) ∧
      (∀ u, (setAfter key val i ms s).1 = .ok u →
        (setAfter key val i ms s).2.2.map Event.call
          = (positionsFrom (fun m => m.afterSet.isSome) i ms).map
              (fun j => (Site.after j .set, [.str key, val]))) := by
  induction ms with
  | nil => intro i s; exact ⟨by simp [setAfter, Js.pure], by simp [setAfter, Js.pure, positionsFrom]⟩
  | cons m rest ih =>
    intro i s
    cases hm : m.afterSet with
    | none =>
      simp only [setAfter, hm, positionsFrom, Option.isSome_none, Bool.false_eq_true, if_false]
      exact ih (i + 1) s
    | some h =>
      simp only [setAfter, hm, positionsFrom, Option.isSome_some, if_true]
      rcases hh : h key val s with ⟨r, s1⟩
      cases r with
      | error x =>
        rw [Js.bind_error (Js.call_error hh)]
        exact ⟨by simp [Site.isAfter], by intro u hu; cases hu⟩
      | ok w =>
        rw [Js.bind_ok (Js.call_ok hh)]
        obtain ⟨h1, h2⟩ := ih (i + 1) s1
        refine ⟨?_, ?_⟩
        · intro e he
          rcases List.mem_cons.1 he with rfl | he
          · simp [Site.isAfter]
          · exact h1 e he
        · intro u hu
          have := h2 u hu
          simp only [List.singleton_append, List.map_cons, this]
          rfl

end FUSE

/-- C7. When the `before.set` hooks, folded in list order from `v` (a defined return replaces
the current value, `undefined` keeps it, each hook is given the current value), produce `v'`,
then `set(key, v)` calls the `before.set` hooks, then the driver's `set` once, with `v'`, and
no driver method besides; every `after.set` hook called receives `v'`; and when the operation
returns, every middleware that defines an `after.set` hook has had it called, in list order. -/
theorem set_persists_folded_value {σ : Type} (eng : FUSE σ) (key : String) (v v' : Value)
    (s s1 : σ) (hb : BeforeSetChain key eng.middleware v s v' s1) :
    ∃ (t1 : List Event) (res : Except Value Value) (t2 : List Event),
      ((eng.set key v).run s).2.2 = t1 ++ ⟨.driver .set, [.str key, v'], res⟩ :: t2 ∧
      (∀ e ∈ t1, e.site.isBefore .set = true) ∧
      (∀ e ∈ t2, e.site.isDriver = false ∧
        (e.site.isAfter .set = true → e.args = [.str key, v'])) ∧
      (∀ u, ((eng.set key v).run s).1 = .ok u →
        t2.map Event.call
          = (afterSetPositions eng.middleware).map
              (fun j => (Site.after j .set, [.str key, v']))) := by
  obtain ⟨t1, ht1, hs1⟩ := FUSE.setBefore_of_chain hb 0
  have hhandler : ∀ (x : Value) (s' : σ), ∀ e ∈ ((FUSE.rethrow eng x : Js σ Value) s').2.2,
      e.site.isDriver = false ∧ (e.site.isAfter .set = true → e.args = [.str key, v']) := by
    intro x s' e he
    obtain ⟨y, s2, tl, em, hre, _, hsites, hemsite, _, _⟩ := FUSE.rethrow_trace eng x s'
    rw [hre] at he
    have he' : e ∈ tl ++ [em] := he
    rcases List.mem_append.1 he' with hin | hin
    · have h1 := hsites e hin
      cases hsite : e.site <;> simp [hsite, Site.isOnError, Site.isDriver, Site.isAfter] at h1 ⊢
    · have : e = em := by simpa using hin
      rw [this, hemsite]
      simp [Site.isDriver, Site.isAfter]
  rcases hd : eng.driver.set key v' s1 with ⟨rd, s2⟩
  cases rd with
  | error x =>
    have hbody : eng.setBody key v s
        = (.error x, s2, t1 ++ [⟨.driver .set, [.str key, v'], .error x⟩]) := by
      simp only [FUSE.setBody]
      rw [Js.bind_ok ht1, Js.bind_error (Js.call_error hd)]
    refine ⟨t1, .error x, ((FUSE.rethrow eng x : Js σ Value) s2).2.2, ?_, hs1,
      hhandler x s2, ?_⟩
    · simp only [Js.run, FUSE.set]
      rw [Js.tryCatch_error hbody]
      simp
    · intro u hu
      simp only [Js.run, FUSE.set] at hu
      rw [Js.tryCatch_error hbody] at hu
      obtain ⟨y, s3, tl, em, hre, _⟩ := FUSE.rethrow_trace eng x s2
      rw [hre] at hu
      cases hu
  | ok w =>
    have hafter := FUSE.setAfter_trace key v' eng.middleware 0 s2
    rcases ha : FUSE.setAfter key v' 0 eng.middleware s2 with ⟨r3, s3, t3⟩
    rw [ha] at hafter
    obtain ⟨hargs, hall⟩ := hafter
    have hargs' : ∀ e ∈ t3, e.site.isDriver = false ∧
        (e.site.isAfter .set = true → e.args = [.str key, v']) :=
      fun e he => ⟨Site.isDriver_eq_false_of_isAfter (hargs e he).1, fun _ => (hargs e he).2⟩
    cases r3 with
    | ok u3 =>
      have hbody : eng.setBody key v s
          = (.ok .undefined, s3, t1 ++ ([⟨.driver .set, [.str key, v'], .ok w⟩] ++ (t3 ++ []))) := by
        simp only [FUSE.setBody]
        rw [Js.bind_ok ht1, Js.bind_ok (Js.call_ok hd), Js.bind_ok ha]
        rfl
      refine ⟨t1, .ok w, t3, ?_, hs1, hargs', ?_⟩
      · simp only [Js.run, FUSE.set]
        rw [Js.tryCatch_ok hbody]
        simp
      · intro _ _
        exact hall u3 rfl
    | error x =>
      have hbody : eng.setBody key v s
          = (.error x, s3, t1 ++ ([⟨.driver .set, [.str key, v'], .ok w⟩] ++ t3)) := by
        simp only [FUSE.setBody]
        rw [Js.bind_ok ht1, Js.bind_ok (Js.call_ok hd), Js.bind_error ha]
      refine ⟨t1, .ok w, t3 ++ ((FUSE.rethrow eng x : Js σ Value) s3).2.2, ?_, hs1, ?_, ?_⟩
      · simp only [Js.run, FUSE.set]
        rw [Js.tryCatch_error hbody]
        simp
      · intro e he
        rcases List.mem_append.1 he with hin | hin
        · exact hargs' e hin
        · exact hhandler x s3 e hin
      · intro u hu
        simp only [Js.run, FUSE.set] at hu
        rw [Js.tryCatch_error hbody] at hu
        obtain ⟨y, s4, tl, em, hre, _⟩ := FUSE.rethrow_trace eng x s3
        rw [hre] at hu
        cases hu

/-! ## What the `after` hooks of `get` and `has` receive and return -/

theorem AfterTrace.eq_of_nil {op : Op} {key : String} {v : Value} {r : Except Value Value}
    (h : AfterTrace op key v r []) : r = .ok v := by
  cases h
  rfl

theorem AfterTrace.sites {op : Op} {key : String} {v : Value} {r : Except Value Value}
    {t : List Event} (h : AfterTrace op key v r t) : ∀ e ∈ t, e.site.isAfter op = true := by
  induction h with
  | done v => simp
  | threw i v x => simp [Site.isAfter]
  | step i v u r t _ ih =>
    intro e he
    rcases List.mem_cons.1 he with rfl | he
    · simp [Site.isAfter]
    · exact ih e he

theorem AfterTrace.chain {op : Op} {key : String} {v : Value} {r : Except Value Value}
    {t : List Event} (h : AfterTrace op key v r t) :
    List.Chain' (fun e e' => ∀ u, e.result = .ok u → e'.args = [.str key, u]) t ∧
      ∀ e, t.head? = some e → e.args = [.str key, v] := by
  induction h with
  | done v => simp
  | threw i v x =>
    refine ⟨by simp, ?_⟩
    intro e he
    simp only [List.head?_cons, Option.some.injEq] at he
    rw [← he]
  | step i v u r t _ ih =>
    refine ⟨?_, ?_⟩
    · rw [List.chain'_cons']
      refine ⟨?_, ih.1⟩
      intro e' he' w hw
      have hwu : w = u := by
        simp only [Except.ok.injEq] at hw
        exact hw.symm
      rw [hwu]
      exact ih.2 e' he'
    · intro e he
      simp only [List.head?_cons, Option.some.injEq] at he
      rw [← he]

theorem AfterTrace.last {op : Op} {key : String} {v : Value} {r : Except Value Value}
    {t : List Event} (h : AfterTrace op key v r t) :
    ∀ e u, t.getLast? = some e → e.result = .ok u → r = .ok u := by
  induction h with
  | done v => intro e u he; simp at he
  | threw i v x =>
    intro e u he hu
    simp only [List.getLast?_singleton, Option.some.injEq] at he
    rw [← he] at hu
    cases hu
  | step i v u r t ht ih =>
    intro e w he hw
    cases t with
    | nil =>
      simp only [List.getLast?_singleton, Option.some.injEq] at he
      rw [← he] at hw
      simp only [Except.ok.injEq] at hw
      rw [← hw]
      exact ht.eq_of_nil
    | cons e' t' =>
      rw [List.getLast?_cons_cons] at he
      exact ih e w he hw

theorem AfterShape.of_body {op : Op} {key : String} {r : Except Value Value} {t : List Event}
    (h : ∀ e ∈ t, e.site.isAfter op = false ∧ e.site.isBody = true) :
    AfterShape op key r t :=
  ⟨t, [], by simp, fun e he => (h e he).1, Or.inl ⟨rfl, fun e he => (h e he).2⟩⟩

theorem AfterShape.of_trace {op : Op} {key : String} {v : Value} {r : Except Value Value}
    {t : List Event} (h : AfterTrace op key v r t) : AfterShape op key r t :=
  ⟨[], t, by simp, by simp, Or.inr ⟨v, h⟩⟩

theorem AfterShape.append_left {op : Op} {key : String} {r : Except Value Value}
    {t' t : List Event} (h' : ∀ e ∈ t', e.site.isAfter op = false ∧ e.site.isBody = true)
    (h : AfterShape op key r t) : AfterShape op key r (t' ++ t) := by
  obtain ⟨t0, tc, ht, h0, hc⟩ := h
  refine ⟨t' ++ t0, tc, by rw [ht, List.append_assoc], ?_, ?_⟩
  · intro e he
    rcases List.mem_append.1 he with he | he
    · exact (h' e he).1
    · exact h0 e he
  · rcases hc with ⟨hnil, hb⟩ | hc
    · refine Or.inl ⟨hnil, ?_⟩
      intro e he
      rcases List.mem_append.1 he with he | he
      · exact (h' e he).2
      · exact hb e he
    · exact Or.inr hc

/-- What a trace of shape `AfterShape` says about the `after` calls in it. -/
theorem AfterShape.spec {op : Op} {key : String} {r : Except Value Value} {t : List Event}
    (h : AfterShape op key r t) :
    List.Chain' (fun e e' => ∀ u, e.result = .ok u → e'.args = [.str key, u])
        (t.filter (fun e => e.site.isAfter op)) ∧
      ∀ e u, (t.filter (fun e => e.site.isAfter op)).getLast? = some e →
        e.result = .ok u → r = .ok u := by
  obtain ⟨t0, tc, ht, h0, hc⟩ := h
  have hf0 : t0.filter (fun e => e.site.isAfter op) = [] := by
    rw [List.filter_eq_nil_iff]
    intro e he
    simp [h0 e he]
  rcases hc with ⟨hnil, _⟩ | ⟨v, hv⟩
  · rw [ht, hnil, List.append_nil, hf0]
    exact ⟨by simp, by intro e u he; simp at he⟩
  · have hfc : tc.filter (fun e => e.site.isAfter op) = tc :=
      List.filter_eq_self.2 (fun e he => hv.sites e he)
    rw [ht, List.filter_append, hf0, hfc, List.nil_append]
    exact ⟨hv.chain.1, hv.last⟩

namespace FUSE

variable {σ : Type}

theorem getAfter_afterTrace (key : String) (ms : List (Middleware σ)) :
    ∀ (i : Nat) (v : Value) (s : σ),
      AfterTrace .get key v (getAfter key i ms v s).1 (getAfter key i ms v s).2.2 := by
  induction ms with
  | nil => intro i v s; exact AfterTrace.done v
  | cons m rest ih =>
    intro i v s
    cases hm : m.afterGet with
    | none => simp only [getAfter, hm]; exact ih (i + 1) v s
    | some h =>
      simp only [getAfter, hm]
      rcases hh : h key v s with ⟨r, s1⟩
      cases r with
      | error x =>
        rw [Js.bind_error (Js.call_error hh)]
        exact AfterTrace.threw i v x
      | ok w =>
        rw [Js.bind_ok (Js.call_ok hh)]
        exact AfterTrace.step i v w _ _ (ih (i + 1) w s1)

theorem hasAfter_afterTrace (key : String) (ms : List (Middleware σ)) :
    ∀ (i : Nat) (v : Value) (s : σ),
      AfterTrace .has key v (hasAfter key i ms v s).1 (hasAfter key i ms v s).2.2 := by
  induction ms with
  | nil => intro i v s; exact AfterTrace.done v
  | cons m rest ih =>
    intro i v s
    cases hm : m.afterHas with
    | none => simp only [hasAfter, hm]; exact ih (i + 1) v s
    | some h =>
      simp only [hasAfter, hm]
      rcases hh : h key v s with ⟨r, s1⟩
      cases r with
      | error x =>
        rw [Js.bind_error (Js.call_error hh)]
        exact AfterTrace.threw i v x
      | ok w =>
        rw [Js.bind_ok (Js.call_ok hh)]
        exact AfterTrace.step i v w _ _ (ih (i + 1) w s1)

theorem getBefore_shape (eng : FUSE σ) (key : String) (ms : List (Middleware σ)) :
    ∀ (i : Nat) (s : σ),
      ((getBefore eng key i ms s).1 = .ok none →
        ∀ e ∈ (getBefore eng key i ms s).2.2, e.site.isAfter .get = false ∧ e.site.isBody = true)
      ∧ (∀ val, (getBefore eng key i ms s).1 = .ok (some val) →
          AfterShape .get key (.ok val) (getBefore eng key i ms s).2.2)
      ∧ (∀ x, (getBefore eng key i ms s).1 = .error x →
          AfterShape .get key (.error x) (getBefore eng key i ms s).2.2) := by
  induction ms with
  | nil =>
    intro i s
    refine ⟨by simp [getBefore, Js.pure], ?_, ?_⟩
    · intro val h; simp [getBefore, Js.pure] at h
    · intro x h; simp [getBefore, Js.pure] at h
  | cons m rest ih =>
    intro i s
    cases hm : m.beforeGet with
    | none => simp only [getBefore, hm]; exact ih (i + 1) s
    | some h =>
      simp only [getBefore, hm]
      rcases hh : h key s with ⟨r, s1⟩
      cases r with
      | error x =>
        rw [Js.bind_error (Js.call_error hh)]
        refine ⟨(by intro h; cases h), (by intro val h; cases h), ?_⟩
        intro y hy
        exact AfterShape.of_body (by simp [Site.isAfter, Site.isBody])
      | ok o =>
        rw [Js.bind_ok (Js.call_ok hh)]
        have hev : ∀ e ∈ [(⟨.before i .get, [.str key], .ok o⟩ : Event)],
            e.site.isAfter .get = false ∧ e.site.isBody = true := by
          simp [Site.isAfter, Site.isBody]
        by_cases ho : o.isDefined = true
        · simp only [ho, if_true]
          have htr := getAfter_afterTrace key eng.middleware 0 o s1
          rcases ha : getAfter key 0 eng.middleware o s1 with ⟨r2, s2, t2⟩
          rw [ha] at htr
          cases r2 with
          | error x =>
            rw [Js.bind_error ha]
            refine ⟨(by intro h; cases h), (by intro val h; cases h), ?_⟩
            intro y hy
            have hxy : x = y := by injection hy
            subst hxy
            exact AfterShape.append_left hev (AfterShape.of_trace htr)
          | ok val =>
            rw [Js.bind_ok ha]
            refine ⟨?_, ?_, ?_⟩
            · intro h
              simp [Js.pure] at h
            · intro val' h
              have hv : val = val' := by
                simpa [Js.pure] using h
              subst hv
              have : (Js.pure (some val) : Js σ (Option Value)) s2 = (.ok (some val), s2, []) :=
                rfl
              rw [this]
              simp only [List.append_nil]
              exact AfterShape.append_left hev (AfterShape.of_trace htr)
            · intro y h
              simp [Js.pure] at h
        · simp only [ho, if_false]
          obtain ⟨h1, h2, h3⟩ := ih (i + 1) s1
          refine ⟨?_, ?_, ?_⟩
          · intro hr e he
            rcases List.mem_append.1 he with he | he
            · exact hev e he
            · exact h1 hr e he
          · intro val hr
            exact AfterShape.append_left hev (h2 val hr)
          · intro x hr
            exact AfterShape.append_left hev (h3 x hr)

theorem getBody_shape (eng : FUSE σ) (key : String) (s : σ) :
    AfterShape .get key (getBody eng key s).1 (getBody eng key s).2.2 := by
  obtain ⟨h1, h2, h3⟩ := getBefore_shape eng key eng.middleware 0 s
  rcases hb : getBefore eng key 0 eng.middleware s with ⟨r, s1, t1⟩
  rw [hb] at h1 h2 h3
  simp only [getBody]
  cases r with
  | error x =>
    rw [Js.bind_error hb]
    exact h3 x rfl
  | ok o =>
    rw [Js.bind_ok hb]
    cases o with
    | some val =>
      have := h2 val rfl
      simpa [Js.pure] using this
    | none =>
      have h1' := h1 rfl
      simp only []
      rcases hd : eng.driver.get key s1 with ⟨rd, s2⟩
      cases rd with
      | error x =>
        rw [Js.bind_error (Js.call_error hd)]
        apply AfterShape.of_body
        intro e he
        rcases List.mem_append.1 he with he | he
        · exact h1' e he
        · have : e = ⟨.driver .get, [.str key], .error x⟩ := by simpa using he
          rw [this]
          simp [Site.isAfter, Site.isBody]
      | ok d =>
        rw [Js.bind_ok (Js.call_ok hd)]
        have htr := getAfter_afterTrace key eng.middleware 0 d s2
        have hdrv : ∀ e ∈ [(⟨.driver .get, [.str key], .ok d⟩ : Event)],
            e.site.isAfter .get = false ∧ e.site.isBody = true := by
          simp [Site.isAfter, Site.isBody]
        exact AfterShape.append_left h1' (AfterShape.append_left hdrv (AfterShape.of_trace htr))

theorem hasBefore_shape (key : String) (ms : List (Middleware σ)) :
    ∀ (i : Nat) (s : σ),
      (∀ e ∈ (hasBefore key i ms s).2.2, e.site.isAfter .has = false ∧ e.site.isBody = true)
      ∧ (∀ o, (hasBefore key i ms s).1 = .ok (some o) → o.isBoolean = true) := by
  induction ms with
  | nil =>
    intro i s
    exact ⟨by simp [hasBefore, Js.pure], by intro o h; simp [hasBefore, Js.pure] at h⟩
  | cons m rest ih =>
    intro i s
    cases hm : m.beforeHas with
    | none => simp only [hasBefore, hm]; exact ih (i + 1) s
    | some h =>
      simp only [hasBefore, hm]
      rcases hh : h key s with ⟨r, s1⟩
      cases r with
      | error x =>
        rw [Js.bind_error (Js.call_error hh)]
        exact ⟨by simp [Site.isAfter, Site.isBody], by intro o h; cases h⟩
      | ok o =>
        rw [Js.bind_ok (Js.call_ok hh)]
        by_cases ho : o.isBoolean = true
        · simp only [ho, if_true]
          refine ⟨by simp [Js.pure, Site.isAfter, Site.isBody], ?_⟩
          intro o' h
          have : o = o' := by simpa [Js.pure] using h
          rw [← this]
          exact ho
        · simp only [ho, if_false]
          obtain ⟨h1, h2⟩ := ih (i + 1) s1
          refine ⟨?_, h2⟩
          intro e he
          rcases List.mem_append.1 he with he | he
          · have : e = ⟨.before i .has, [.str key], .ok o⟩ := by simpa using he
            rw [this]
            simp [Site.isAfter, Site.isBody]
          · exact h1 e he

theorem hasBody_shape (eng : FUSE σ) (key : String) (s : σ) :
    AfterShape .has key (hasBody eng key s).1 (hasBody eng key s).2.2 := by
  obtain ⟨h1, _⟩ := hasBefore_shape key eng.middleware 0 s
  rcases hb : hasBefore key 0 eng.middleware s with ⟨r, s1, t1⟩
  rw [hb] at h1
  simp only [hasBody]
  cases r with
  | error x =>
    rw [Js.bind_error hb]
    exact AfterShape.of_body h1
  | ok o =>
    rw [Js.bind_ok hb]
    cases o with
    | some val =>
      have : AfterShape .has key (.ok val) t1 := AfterShape.of_body h1
      simpa [Js.pure] using this
    | none =>
      simp only []
      rcases hd : eng.driver.has key s1 with ⟨rd, s2⟩
      cases rd with
      | error x =>
        rw [Js.bind_error (Js.call_error hd)]
        apply AfterShape.of_body
        intro e he
        rcases List.mem_append.1 he with he | he
        · exact h1 e he
        · have : e = ⟨.driver .has, [.str key], .error x⟩ := by simpa using he
          rw [this]
          simp [Site.isAfter, Site.isBody]
      | ok d =>
        rw [Js.bind_ok (Js.call_ok hd)]
        have htr := hasAfter_afterTrace key eng.middleware 0 d s2
        have hdrv : ∀ e ∈ [(⟨.driver .has, [.str key], .ok d⟩ : Event)],
            e.site.isAfter .has = false ∧ e.site.isBody = true := by
          simp [Site.isAfter, Site.isBody]
        exact AfterShape.append_left h1 (AfterShape.append_left hdrv (AfterShape.of_trace htr))

/-- The `catch` clause adds no `after` call and turns no failure into a return. -/
theorem tryCatch_rethrow_spec (eng : FUSE σ) (op : Op) (key : String) (body : Js σ Value)
    (s : σ) (h : AfterShape op key (body s).1 (body s).2.2) :
    List.Chain' (fun e e' => ∀ u, e.result = .ok u → e'.args = [.str key, u])
        ((Js.tryCatch body (rethrow eng) s).2.2.filter (fun e => e.site.isAfter op)) ∧
      ∀ e u, ((Js.tryCatch body (rethrow eng) s).2.2.filter
          (fun e => e.site.isAfter op)).getLast? = some e →
        e.result = .ok u → (Js.tryCatch body (rethrow eng) s).1 = .ok u := by
  have hspec := h.spec
  rcases hb : body s with ⟨r, s1, t1⟩
  rw [hb] at hspec
  cases r with
  | ok a =>
    rw [Js.tryCatch_ok hb]
    exact hspec
  | error x =>
    obtain ⟨y, s2, tl, em, hre, _, hsites, hemsite, _, _⟩ := rethrow_trace eng x s1
    rw [Js.tryCatch_error hb, hre]
    have hfl : (tl ++ [em]).filter (fun e => e.site.isAfter op) = [] := by
      rw [List.filter_eq_nil_iff]
      intro e he
      rcases List.mem_append.1 he with he | he
      · have h1 := hsites e he
        cases hsite : e.site <;> simp [hsite, Site.isOnError, Site.isAfter] at h1 ⊢
      · have : e = em := by simpa using he
        rw [this, hemsite]
        simp [Site.isAfter]
    have : (t1 ++ (tl ++ [em])).filter (fun e => e.site.isAfter op)
        = t1.filter (fun e => e.site.isAfter op) := by
      rw [List.filter_append, hfl, List.append_nil]
    show List.Chain' _ ((t1 ++ (tl ++ [em])).filter _) ∧
      ∀ e u, ((t1 ++ (tl ++ [em])).filter _).getLast? = some e → e.result = .ok u →
        Except.error y = .ok u
    rw [this]
    refine ⟨hspec.1, ?_⟩
    intro e u he hu
    have := hspec.2 e u he hu
    cases this

theorem hasAfter_isBoolean (key : String) (ms : List (Middleware σ))
    (hhooks : ∀ m ∈ ms, ∀ h, m.afterHas = some h →
      ∀ v s r s', h key v s = (.ok r, s') → r.isBoolean = true) :
    ∀ (i : Nat) (v : Value) (s : σ), v.isBoolean = true →
      ∀ r, (hasAfter key i ms v s).1 = .ok r → r.isBoolean = true := by
  induction ms with
  | nil =>
    intro i v s hv r hr
    have : v = r := by simpa [hasAfter, Js.pure] using hr
    rw [← this]
    exact hv
  | cons m rest ih =>
    intro i v s hv r hr
    have ih' := ih (fun m' hm' => hhooks m' (List.mem_cons_of_mem _ hm'))
    cases hm : m.afterHas with
    | none =>
      simp only [hasAfter, hm] at hr
      exact ih' (i + 1) v s hv r hr
    | some h =>
      simp only [hasAfter, hm] at hr
      rcases hh : h key v s with ⟨r0, s1⟩
      cases r0 with
      | error x =>
        rw [Js.bind_error (Js.call_error hh)] at hr
        cases hr
      | ok w =>
        rw [Js.bind_ok (Js.call_ok hh)] at hr
        exact ih' (i + 1) w s1 (hhooks m (List.mem_cons_self _ _) h hm v s w s1 hh) r hr

end FUSE

/-- C8, amended. In every run of `get(key)`, each `after.get` hook called after another one
receives the value that one returned, and `get` returns the value the last `after.get` hook
called returned: the return value of an `after.get` hook, `undefined` included, always
replaces the propagated value. -/
theorem get_after_return_always_replaces {σ : Type} (eng : FUSE σ) (key : String) (s : σ) :
    List.Chain' (fun e e' => ∀ u, e.result = .ok u → e'.args = [.str key, u])
        (((eng.get key).run s).2.2.filter (fun e => e.site.isAfter .get)) ∧
      ∀ e u, (((eng.get key).run s).2.2.filter (fun e => e.site.isAfter .get)).getLast? = some e →
        e.result = .ok u → ((eng.get key).run s).1 = .ok u :=
  FUSE.tryCatch_rethrow_spec eng .get key (eng.getBody key) s (FUSE.getBody_shape eng key s)

/-- C9, amended. Over a driver whose `has` returns booleans and `after.has` hooks that return
booleans, `has(key)` returns a boolean. In every run, whatever the hooks return, each
`after.has` hook called after another one receives the value that one returned, and `has`
returns the value the last `after.has` hook called returned: a non-boolean value is not
ignored, it replaces the existence flag. -/
theorem has_after_return_always_replaces {σ : Type} (eng : FUSE σ) (key : String) (s : σ) :
    ((∀ s r s', eng.driver.has key s = (.ok r, s') → r.isBoolean = true) →
      (∀ m ∈ eng.middleware, ∀ h, m.afterHas = some h →
        ∀ v s r s', h key v s = (.ok r, s') → r.isBoolean = true) →
      ∀ r, ((eng.has key).run s).1 = .ok r → r.isBoolean = true) ∧
    List.Chain' (fun e e' => ∀ u, e.result = .ok u → e'.args = [.str key, u])
        (((eng.has key).run s).2.2.filter (fun e => e.site.isAfter .has)) ∧
      ∀ e u, (((eng.has key).run s).2.2.filter (fun e => e.site.isAfter .has)).getLast? = some e →
        e.result = .ok u → ((eng.has key).run s).1 = .ok u := by
  refine ⟨?_, FUSE.tryCatch_rethrow_spec eng .has key (eng.hasBody key) s
    (FUSE.hasBody_shape eng key s)⟩
  intro hdrv hhooks r hr
  simp only [Js.run, FUSE.has] at hr
  rcases hbody : eng.hasBody key s with ⟨rb, sb, tb⟩
  cases rb with
  | error x =>
    rw [Js.tryCatch_error hbody] at hr
    obtain ⟨y, s2, tl, em, hre, _⟩ := FUSE.rethrow_trace eng x sb
    rw [hre] at hr
    cases hr
  | ok a =>
    rw [Js.tryCatch_ok hbody] at hr
    have har : a = r := by injection hr
    subst har
    obtain ⟨_, hov⟩ := FUSE.hasBefore_shape key eng.middleware 0 s
    simp only [FUSE.hasBody] at hbody
    rcases hb : FUSE.hasBefore key 0 eng.middleware s with ⟨r1, s1, t1⟩
    rw [hb] at hov
    cases r1 with
    | error x =>
      rw [Js.bind_error hb] at hbody
      cases hbody
    | ok o =>
      rw [Js.bind_ok hb] at hbody
      cases o with
      | some val =>
        have : val = a := by
          have := congrArg (fun q => q.1) hbody
          simpa [Js.pure] using this
        rw [← this]
        exact hov val rfl
      | none =>
        simp only [] at hbody
        rcases hd : eng.driver.has key s1 with ⟨rd, s2⟩
        cases rd with
        | error x =>
          rw [Js.bind_error (Js.call_error hd)] at hbody
          cases hbody
        | ok d =>
          rw [Js.bind_ok (Js.call_ok hd)] at hbody
          have h1 : (FUSE.hasAfter key 0 eng.middleware d s2).1 = .ok a := by
            have := congrArg (fun q => q.1) hbody
            exact this
          exact FUSE.hasAfter_isBoolean key eng.middleware hhooks 0 d s2
            (hdrv s1 d s2 hd) a h1

/-! ## The size claim under middleware that leaves the store alone -/

namespace FUSE

variable {σ : Type}

theorem rethrow_ne_ok (eng : FUSE σ) (x : Value) (s : σ) (u : Value) :
    ((rethrow eng x : Js σ Value) s).1 ≠ .ok u := by
  obtain ⟨y, s', t, em, hre, _⟩ := rethrow_trace eng x s
  rw [hre]
  intro h
  cases h

theorem setBefore_state (key : String) (ms : List (Middleware σ))
    (hms : ∀ m ∈ ms, m.Inert) :
    ∀ (i : Nat) (v : Value) (s : σ), (setBefore key i ms v s).2.1 = s := by
  induction ms with
  | nil => intro i v s; rfl
  | cons m rest ih =>
    intro i v s
    have ih' := ih (fun m' hm' => hms m' (List.mem_cons_of_mem _ hm'))
    cases hm : m.beforeSet with
    | none => simp only [setBefore, hm]; exact ih' (i + 1) v s
    | some h =>
      simp only [setBefore, hm]
      have hst := (hms m (List.mem_cons_self _ _)).1 h hm key v s
      rcases hh : h key v s with ⟨r, s1⟩
      rw [hh] at hst
      have hs1 : s1 = s := hst
      subst hs1
      cases r with
      | error x => rw [Js.bind_error (Js.call_error hh)]
      | ok w =>
        rw [Js.bind_ok (Js.call_ok hh)]
        by_cases hw : w.isDefined = true
        · simp only [hw, if_true]; exact ih' (i + 1) w s1
        · simp only [hw, if_false]; exact ih' (i + 1) v s1

theorem setAfter_state (key : String) (val : Value) (ms : List (Middleware σ))
    (hms : ∀ m ∈ ms, m.Inert) :
    ∀ (i : Nat) (s : σ), (setAfter key val i ms s).2.1 = s := by
  induction ms with
  | nil => intro i s; rfl
  | cons m rest ih =>
    intro i s
    have ih' := ih (fun m' hm' => hms m' (List.mem_cons_of_mem _ hm'))
    cases hm : m.afterSet with
    | none => simp only [setAfter, hm]; exact ih' (i + 1) s
    | some h =>
      simp only [setAfter, hm]
      have hst := (hms m (List.mem_cons_self _ _)).2.1 h hm key val s
      rcases hh : h key val s with ⟨r, s1⟩
      rw [hh] at hst
      have hs1 : s1 = s := hst
      subst hs1
      cases r with
      | error x => rw [Js.bind_error (Js.call_error hh)]
      | ok w =>
        rw [Js.bind_ok (Js.call_ok hh)]
        exact ih' (i + 1) s1

theorem removeBefore_state (key : String) (ms : List (Middleware σ))
    (hms : ∀ m ∈ ms, m.Inert) :
    ∀ (i : Nat) (s : σ), (removeBefore key i ms s).2.1 = s := by
  induction ms with
  | nil => intro i s; rfl
  | cons m rest ih =>
    intro i s
    have ih' := ih (fun m' hm' => hms m' (List.mem_cons_of_mem _ hm'))
    cases hm : m.beforeRemove with
    | none => simp only [removeBefore, hm]; exact ih' (i + 1) s
    | some h =>
      simp only [removeBefore, hm]
      have hst := (hms m (List.mem_cons_self _ _)).2.2.1 h hm key s
      rcases hh : h key s with ⟨r, s1⟩
      rw [hh] at hst
      have hs1 : s1 = s := hst
      subst hs1
      cases r with
      | error x => rw [Js.bind_error (Js.call_error hh)]
      | ok w =>
        rw [Js.bind_ok (Js.call_ok hh)]
        exact ih' (i + 1) s1

theorem removeAfter_state (key : String) (ms : List (Middleware σ))
    (hms : ∀ m ∈ ms, m.Inert) :
    ∀ (i : Nat) (s : σ), (removeAfter key i ms s).2.1 = s := by
  induction ms with
  | nil => intro i s; rfl
  | cons m rest ih =>
    intro i s
    have ih' := ih (fun m' hm' => hms m' (List.mem_cons_of_mem _ hm'))
    cases hm : m.afterRemove with
    | none => simp only [removeAfter, hm]; exact ih' (i + 1) s
    | some h =>
      simp only [removeAfter, hm]
      have hst := (hms m (List.mem_cons_self _ _)).2.2.2 h hm key s
      rcases hh : h key s with ⟨r, s1⟩
      rw [hh] at hst
      have hs1 : s1 = s := hst
      subst hs1
      cases r with
      | error x => rw [Js.bind_error (Js.call_error hh)]
      | ok w =>
        rw [Js.bind_ok (Js.call_ok hh)]
        exact ih' (i + 1) s1

/-- Under inert hooks, a `set` that returns leaves the state in which the driver's `set`,
called with some value, left it. -/
theorem set_state_of_ok (eng : FUSE σ) (hms : ∀ m ∈ eng.middleware, m.Inert) (key : String)
    (value u : Value) (s s' : σ) (t : List Event)
    (h : (eng.set key value).run s = (.ok u, s', t)) :
    ∃ v' w, eng.driver.set key v' s = (.ok w, s') := by
  simp only [Js.run, set] at h
  have hrun : ∀ {b : Js σ Value} {x : Value} {sb : σ} {tb : List Event},
      b s = (.error x, sb, tb) → Js.tryCatch b (rethrow eng) s = (.ok u, s', t) → False := by
    intro b x sb tb hb hc
    rw [Js.tryCatch_error hb] at hc
    exact rethrow_ne_ok eng x sb u (congrArg (fun q => q.1) hc)
  have hb1 := setBefore_state key eng.middleware hms 0 value s
  rcases hbefore : setBefore key 0 eng.middleware value s with ⟨r1, s1, t1⟩
  rw [hbefore] at hb1
  have hs1 : s1 = s := hb1
  subst hs1
  cases r1 with
  | error x =>
    exact (hrun (by simp only [setBody]; rw [Js.bind_error hbefore]) h).elim
  | ok v' =>
    rcases hd : eng.driver.set key v' s1 with ⟨rd, s2⟩
    cases rd with
    | error x =>
      exact (hrun (by
        simp only [setBody]
        rw [Js.bind_ok hbefore, Js.bind_error (Js.call_error hd)]) h).elim
    | ok w =>
      have ha1 := setAfter_state key v' eng.middleware hms 0 s2
      rcases hafter : setAfter key v' 0 eng.middleware s2 with ⟨r3, s3, t3⟩
      rw [hafter] at ha1
      have hs3 : s3 = s2 := ha1
      subst hs3
      cases r3 with
      | error x =>
        exact (hrun (by
          simp only [setBody]
          rw [Js.bind_ok hbefore, Js.bind_ok (Js.call_ok hd), Js.bind_error hafter]) h).elim
      | ok u3 =>
        have hbody : setBody eng key value s1
            = (.ok .undefined, s3,
                t1 ++ ([⟨.driver .set, [.str key, v'], .ok w⟩] ++ (t3 ++ []))) := by
          simp only [setBody]
          rw [Js.bind_ok hbefore, Js.bind_ok (Js.call_ok hd), Js.bind_ok hafter]
          rfl
        rw [Js.tryCatch_ok hbody] at h
        have hs : s3 = s' := congrArg (fun q => q.2.1) h
        exact ⟨v', w, by rw [hd, hs]⟩

/-- Under inert hooks, a `remove` that returns leaves the state in which the driver's `remove`
left it. -/
theorem remove_state_of_ok (eng : FUSE σ) (hms : ∀ m ∈ eng.middleware, m.Inert)
    (key : String) (u : Value) (s s' : σ) (t : List Event)
    (h : (eng.remove key).run s = (.ok u, s', t)) :
    ∃ w, eng.driver.remove key s = (.ok w, s') := by
  simp only [Js.run, remove] at h
  have hrun : ∀ {b : Js σ Value} {x : Value} {sb : σ} {tb : List Event},
      b s = (.error x, sb, tb) → Js.tryCatch b (rethrow eng) s = (.ok u, s', t) → False := by
    intro b x sb tb hb hc
    rw [Js.tryCatch_error hb] at hc
    exact rethrow_ne_ok eng x sb u (congrArg (fun q => q.1) hc)
  have hb1 := removeBefore_state key eng.middleware hms 0 s
  rcases hbefore : removeBefore key 0 eng.middleware s with ⟨r1, s1, t1⟩
  rw [hbefore] at hb1
  have hs1 : s1 = s := hb1
  subst hs1
  cases r1 with
  | error x =>
    exact (hrun (by simp only [removeBody]; rw [Js.bind_error hbefore]) h).elim
  | ok v' =>
    rcases hd : eng.driver.remove key s1 with ⟨rd, s2⟩
    cases rd with
    | error x =>
      exact (hrun (by
        simp only [removeBody]
        rw [Js.bind_ok hbefore, Js.bind_error (Js.call_error hd)]) h).elim
    | ok w =>
      have ha1 := removeAfter_state key eng.middleware hms 0 s2
      rcases hafter : removeAfter key 0 eng.middleware s2 with ⟨r3, s3, t3⟩
      rw [hafter] at ha1
      have hs3 : s3 = s2 := ha1
      subst hs3
      cases r3 with
      | error x =>
        exact (hrun (by
          simp only [removeBody]
          rw [Js.bind_ok hbefore, Js.bind_ok (Js.call_ok hd), Js.bind_error hafter]) h).elim
      | ok u3 =>
        have hbody : removeBody eng key s1
            = (.ok .undefined, s3,
                t1 ++ ([⟨.driver .remove, [.str key], .ok w⟩] ++ (t3 ++ []))) := by
          simp only [removeBody]
          rw [Js.bind_ok hbefore, Js.bind_ok (Js.call_ok hd), Js.bind_ok hafter]
          rfl
        rw [Js.tryCatch_ok hbody] at h
        have hs : s3 = s' := congrArg (fun q => q.2.1) h
        exact ⟨w, by rw [hs]⟩

/-- A `clear` that returns leaves the state in which the driver's `clear` left it. -/
theorem clear_state_of_ok (eng : FUSE σ) (u : Value) (s s' : σ) (t : List Event)
    (h : (eng.clear).run s = (.ok u, s', t)) :
    ∃ w, eng.driver.clear s = (.ok w, s') := by
  simp only [Js.run, clear] at h
  rcases hd : eng.driver.clear s with ⟨rd, s2⟩
  cases rd with
  | error x =>
    rw [Js.tryCatch_error (Js.call_error hd)] at h
    exact (rethrow_ne_ok eng x s2 u (congrArg (fun q => q.1) h)).elim
  | ok w =>
    rw [Js.tryCatch_ok (Js.call_ok hd)] at h
    have hs : s2 = s' := congrArg (fun q => q.2.1) h
    exact ⟨w, by rw [hs]⟩

end FUSE

theorem Call.issue_keys_of_inert (ms : List (Middleware InMemoryDriver))
    (emit : String → Value → Eff InMemoryDriver Value) (hms : ∀ m ∈ ms, m.Inert)
    (c : Call) (ps : Props) (u : Value) (s' : InMemoryDriver) (t : List Event)
    (h : (c.issue (FUSE.inMemory ms emit)).run ⟨.object .null ps⟩ = (.ok u, s', t)) :
    ∃ ps', s' = ⟨.object .null ps'⟩ ∧
      ps'.map (fun p => p.1) = c.applyKeys (ps.map (fun p => p.1)) := by
  cases c with
  | set k v =>
    obtain ⟨v', w, hd⟩ := FUSE.set_state_of_ok (FUSE.inMemory ms emit) hms k v u _ s' t h
    refine ⟨assignOwn ps k v', ?_, keys_assignOwn ps k v'⟩
    simp only [FUSE.inMemory, InMemoryDriver.driver, InMemoryDriver.set] at hd
    by_cases hk : hasOwn ps k = true
    · simp only [hk, if_true, Prod.mk.injEq] at hd
      exact hd.2.symm
    · simp only [hk, Bool.false_eq_true, if_false, Prod.mk.injEq] at hd
      exact hd.2.symm
  | remove k =>
    obtain ⟨w, hd⟩ := FUSE.remove_state_of_ok (FUSE.inMemory ms emit) hms k u _ s' t h
    refine ⟨deleteOwn ps k, ?_, keys_deleteOwn ps k⟩
    simp only [FUSE.inMemory, InMemoryDriver.driver, InMemoryDriver.remove,
      Prod.mk.injEq] at hd
    exact hd.2.symm
  | clear =>
    obtain ⟨w, hd⟩ := FUSE.clear_state_of_ok (FUSE.inMemory ms emit) u _ s' t h
    refine ⟨[], ?_, rfl⟩
    simp only [FUSE.inMemory, InMemoryDriver.driver, InMemoryDriver.clear,
      Prod.mk.injEq] at hd
    exact hd.2.symm

theorem issueAll_keys_of_inert (ms : List (Middleware InMemoryDriver))
    (emit : String → Value → Eff InMemoryDriver Value) (hms : ∀ m ∈ ms, m.Inert)
    (calls : List Call) :
    ∀ (ps : Props) (u : Value) (s' : InMemoryDriver) (t : List Event),
      (issueAll (FUSE.inMemory ms emit) calls).run ⟨.object .null ps⟩ = (.ok u, s', t) →
      ∃ ps', s' = ⟨.object .null ps'⟩ ∧
        ps'.map (fun p => p.1) = calls.foldl Call.applyKeys (ps.map (fun p => p.1)) := by
  induction calls with
  | nil =>
    intro ps u s' t h
    refine ⟨ps, ?_, rfl⟩
    have := congrArg (fun q => q.2.1) h
    exact this.symm
  | cons c rest ih =>
    intro ps u s' t h
    simp only [Js.run, issueAll] at h
    rcases hc : c.issue (FUSE.inMemory ms emit) ⟨.object .null ps⟩ with ⟨r1, s1, t1⟩
    cases r1 with
    | error x =>
      rw [Js.bind_error hc] at h
      cases h
    | ok u1 =>
      obtain ⟨ps1, hs1, hk1⟩ := Call.issue_keys_of_inert ms emit hms c ps u1 s1 t1 hc
      subst hs1
      rw [Js.bind_ok hc] at h
      rcases hr : issueAll (FUSE.inMemory ms emit) rest ⟨.object .null ps1⟩ with ⟨r2, s2, t2⟩
      rw [hr] at h
      have hr2 : r2 = .ok u := congrArg (fun q => q.1) h
      have hs2 : s2 = s' := congrArg (fun q => q.2.1) h
      subst hr2 hs2
      obtain ⟨ps', hs', hk'⟩ := ih ps1 u s2 t2 hr
      exact ⟨ps', hs', by rw [hk', hk1]; rfl⟩

/-- The size claim for an engine with middleware: when the `set` and `remove` hooks leave the
store alone and every call of the sequence returns, `size()` is the number of keys that were
set and neither removed nor cleared afterwards, and `keys()` has that length. -/
theorem inMemory_size_under_inert_middleware (ms : List (Middleware InMemoryDriver))
    (emit : String → Value → Eff InMemoryDriver Value) (hms : ∀ m ∈ ms, m.Inert)
    (calls : List Call) (u : Value) (s : InMemoryDriver) (t : List Event)
    (h : (issueAll (FUSE.inMemory ms emit) calls).run InMemoryDriver.new = (.ok u, s, t)) :
    ∃ ks : List String,
      (FUSE.inMemory ms emit).size.run s
        = (.ok (.num (Set.ncard {k | Call.Live calls k})), s,
            [⟨.driver .size, [], .ok (.num (Set.ncard {k | Call.Live calls k}))⟩]) ∧
      (FUSE.inMemory ms emit).keys.run s
        = (.ok ks, s, [⟨.driver .keys, [], .ok (.arr (ks.map Value.str))⟩]) ∧
      ks.length = Set.ncard {k | Call.Live calls k} := by
  obtain ⟨ps, hs, hk⟩ := issueAll_keys_of_inert ms emit hms calls [] u s t h
  subst hs
  have hcard := Call.ncard_live calls ps hk
  refine ⟨ownKeys ps, ?_, ?_, hcard.symm⟩
  · simp [Js.run, FUSE.size, FUSE.inMemory, InMemoryDriver.driver, InMemoryDriver.size,
      Js.tryCatch, Js.call, Js.callWith, hcard]
  · simp [Js.run, FUSE.keys, FUSE.inMemory, InMemoryDriver.driver, InMemoryDriver.keys,
      Js.tryCatch, Js.callWith]

/-! ## The `after.get` hooks as a left fold -/

/-- For hooks that are functions of the value alone, passing a value through the `after.get`
hooks is the left fold of those functions over the list, an absent hook counting as the
identity. -/
theorem AfterGetChain.of_functions {σ : Type} (key : String) (ms : List (Middleware σ))
    (fs : List (Value → Value))
    (h : List.Forall₂ (fun m f => (m.afterGet = none ∧ f = id) ∨
      ∃ g, m.afterGet = some g ∧ ∀ v s, g key v s = (.ok (f v), s)) ms fs)
    (d : Value) (s : σ) :
    AfterGetChain key ms d s (fs.foldl (fun v f => f v) d) s := by
  induction h generalizing d with
  | nil => exact AfterGetChain.nil
  | cons hmf _ ih =>
    rcases hmf with ⟨hm, hf⟩ | ⟨g, hm, hg⟩
    · subst hf
      exact AfterGetChain.absent hm (ih d)
    · exact AfterGetChain.applied hm (hg d s) (ih _)

/-- With no override and `after.get` hooks that are functions of the value alone, `get(key)`
returns the left fold of those functions, in list order, over the value the driver returned. -/
theorem get_eq_foldl_of_functions {σ : Type} (eng : FUSE σ) (key : String) (s s1 s2 : σ)
    (d : Value) (fs : List (Value → Value)) (hb : NoOverride key eng.middleware s s1)
    (hd : eng.driver.get key s1 = (.ok d, s2))
    (h : List.Forall₂ (fun m f => (m.afterGet = none ∧ f = id) ∨
      ∃ g, m.afterGet = some g ∧ ∀ v s, g key v s = (.ok (f v), s)) eng.middleware fs) :
    ∃ t, (eng.get key).run s = (.ok (fs.foldl (fun v f => f v) d), s2, t) := by
  obtain ⟨t1, ht1, _⟩ := FUSE.getBefore_of_noOverride eng hb 0
  obtain ⟨t2, ht2, _⟩ := FUSE.getAfter_of_chain (AfterGetChain.of_functions key _ fs h d s2) 0
  refine ⟨t1 ++ ([⟨.driver .get, [.str key], .ok d⟩] ++ t2), ?_⟩
  have hbody : eng.getBody key s
      = (.ok (fs.foldl (fun v f => f v) d), s2,
          t1 ++ ([⟨.driver .get, [.str key], .ok d⟩] ++ t2)) := by
    simp only [FUSE.getBody]
    rw [Js.bind_ok ht1]
    simp only []
    rw [Js.bind_ok (Js.call_ok hd), ht2]
  simp only [Js.run, FUSE.get]
  rw [Js.tryCatch_ok hbody]

/-! ## The claims on concrete engines -/

/-- C1. On the default engine after `importSnapshot('{}')`, `set('__proto__', 42)` returns and
`get('__proto__')` then returns `Object.prototype`, not `42`. -/
theorem inMemory_get_set_proto_key_on_imported_store :
    ((defaultEngine.importSnapshot emptyObjectSnapshot).run InMemoryDriver.new).1
      = .ok .undefined ∧
    ((defaultEngine.set "__proto__" (.num 42)).run importedEmpty).1 = .ok .undefined ∧
    ((defaultEngine.get "__proto__").run
      ((defaultEngine.set "__proto__" (.num 42)).run importedEmpty).2.1).1
      = .ok (.native "Object.prototype") :=
  ⟨rfl, rfl, rfl⟩

/-- C2. On the default engine after `importSnapshot('{}')`, the key `toString` is not stored
and `has('toString')` is `false`, yet `get('toString')` returns a built-in function, not
`undefined`. -/
theorem inMemory_get_absent_key_on_imported_store :
    ((defaultEngine.keys).run importedEmpty).1 = .ok [] ∧
    ((defaultEngine.has "toString").run importedEmpty).1 = .ok (.bool false) ∧
    ((defaultEngine.get "toString").run importedEmpty).1
      = .ok (.native "Object.prototype.toString") :=
  ⟨rfl, rfl, rfl⟩

/-- Witness of C4: with the cache in the middle of two suffixing middleware, `get('hit')`
returns the cached value with both suffixes, in list order, and the driver is not called. -/
theorem get_override_skips_driver_witness :
    ∃ t, ((FUSE.inMemory [suffixing "-a", caching, suffixing "-b"] quietEmit).get "hit").run
        InMemoryDriver.new = (.ok (.str "cached-a-b"), InMemoryDriver.new, t) ∧
      ∀ e ∈ t, e.site.isDriver = false :=
  get_override_skips_driver (FUSE.inMemory [suffixing "-a", caching, suffixing "-b"] quietEmit)
    "hit" InMemoryDriver.new InMemoryDriver.new InMemoryDriver.new (.str "cached")
    (.str "cached-a-b")
    (FirstOverride.absent rfl (FirstOverride.here rfl rfl (by simp)))
    (AfterGetChain.applied rfl rfl
      (AfterGetChain.absent rfl (AfterGetChain.applied rfl rfl AfterGetChain.nil)))

/-- Witness of C6: two suffixing middleware are applied first to last. -/
theorem get_applies_after_hooks_in_list_order_witness :
    ∃ t, ((FUSE.inMemory [suffixing "-a", suffixing "-b"] quietEmit).get "k").run storeWithK
      = (.ok (.str "x-a-b"), storeWithK, t) :=
  get_applies_after_hooks_in_list_order
    (FUSE.inMemory [suffixing "-a", suffixing "-b"] quietEmit) "k"
    storeWithK storeWithK storeWithK storeWithK (.str "x") (.str "x-a-b")
    (NoOverride.absent rfl (NoOverride.absent rfl NoOverride.nil))
    rfl
    (AfterGetChain.applied rfl rfl (AfterGetChain.applied rfl rfl AfterGetChain.nil))

/-- Witness of C7: the driver receives the encoded value, and so does the `after.set` hook. -/
theorem set_persists_folded_value_witness :
    ∃ (t1 : List Event) (res : Except Value Value) (t2 : List Event),
      (((FUSE.inMemory [encoding, auditing] quietEmit).set "k" (.str "v")).run
        InMemoryDriver.new).2.2
        = t1 ++ ⟨.driver .set, [.str "k", .str "enc:v"], res⟩ :: t2 ∧
      (∀ e ∈ t1, e.site.isBefore .set = true) ∧
      (∀ e ∈ t2, e.site.isDriver = false ∧
        (e.site.isAfter .set = true → e.args = [.str "k", .str "enc:v"])) ∧
      (∀ u, (((FUSE.inMemory [encoding, auditing] quietEmit).set "k" (.str "v")).run
          InMemoryDriver.new).1 = .ok u →
        t2.map Event.call
          = (afterSetPositions (FUSE.inMemory [encoding, auditing] quietEmit).middleware).map
              (fun j => (Site.after j .set, [.str "k", .str "enc:v"]))) :=
  set_persists_folded_value (FUSE.inMemory [encoding, auditing] quietEmit) "k" (.str "v")
    (.str "enc:v") InMemoryDriver.new InMemoryDriver.new
    (BeforeSetChain.replaced rfl rfl (by simp)
      (BeforeSetChain.kept rfl rfl BeforeSetChain.nil))

/-- C5. With a middleware whose `before.has` answers `true` and whose `after.has` answers
`false`, `has('k')` returns `true` after a single call, the one to `before.has`: the override
is returned as it is and the `after.has` hook is not called. -/
theorem has_override_skips_after_hooks :
    ((FUSE.inMemory [vetoing] quietEmit).has "k").run InMemoryDriver.new
      = (.ok (.bool true), InMemoryDriver.new,
          [⟨.before 0 .has, [.str "k"], .ok (.bool true)⟩]) :=
  rfl

/-- Counterexample to C8: the `after.get` hook receives `42` and returns `undefined`, and
`get('k')` returns `undefined`, not the `42` the hook received. -/
theorem get_after_undefined_not_ignored :
    ((FUSE.inMemory [observing] quietEmit).get "k").run storeWith42
      = (.ok .undefined, storeWith42,
          [⟨.driver .get, [.str "k"], .ok (.num 42)⟩,
           ⟨.after 0 .get, [.str "k", .num 42], .ok .undefined⟩]) ∧
    (((FUSE.inMemory [observing] quietEmit).get "k").run storeWith42).1 ≠ .ok (.num 42) := by
  refine ⟨rfl, ?_⟩
  rw [show (((FUSE.inMemory [observing] quietEmit).get "k").run storeWith42).1
    = .ok .undefined from rfl]
  simp

/-- Counterexample to C9: the driver's `has` returns the boolean `false`, the `after.has` hook
returns a string, and `has('k')` returns that string, which is not a boolean. -/
theorem has_after_non_boolean_not_ignored :
    ((FUSE.inMemory [describing] quietEmit).has "k").run InMemoryDriver.new
      = (.ok (.str "yes"), InMemoryDriver.new,
          [⟨.driver .has, [.str "k"], .ok (.bool false)⟩,
           ⟨.after 0 .has, [.str "k", .bool false], .ok (.str "yes")⟩]) ∧
    (Value.str "yes").isBoolean = false :=
  ⟨rfl, rfl⟩

/-- Witness of C9 as amended: a hook that answers with a boolean yields a boolean, and the
string a hook answers with is what `has('k')` returns. -/
theorem has_after_return_always_replaces_witness :
    (Value.bool true).isBoolean = true ∧
    (((FUSE.inMemory [describing] quietEmit).has "k").run InMemoryDriver.new).1
      = .ok (.str "yes") :=
  ⟨(has_after_return_always_replaces (FUSE.inMemory [negating] quietEmit) "k"
      InMemoryDriver.new).1
      (by
        intro s r s' h
        simp only [FUSE.inMemory, InMemoryDriver.driver, InMemoryDriver.has] at h
        cases hd : s._data with
        | null => rw [hd] at h; simp at h
        | object p ps =>
          rw [hd] at h
          simp only [Prod.mk.injEq, Except.ok.injEq] at h
          rw [← h.1]
          rfl)
      (by
        intro m hm h hh v s r s' hr
        have hmv : m = negating := by simpa [FUSE.inMemory] using hm
        subst hmv
        simp only [negating, Option.some.injEq] at hh
        subst hh
        simp only [Prod.mk.injEq, Except.ok.injEq] at hr
        rw [← hr.1]
        cases v <;> rfl)
      (.bool true) rfl,
    (has_after_return_always_replaces (FUSE.inMemory [describing] quietEmit) "k"
      InMemoryDriver.new).2.2
      ⟨.after 0 .has, [.str "k", .bool false], .ok (.str "yes")⟩ (.str "yes") rfl rfl⟩

/-- Witness of C8 as amended: the hook returns nothing, so `get('k')` returns `undefined`. -/
theorem get_after_return_always_replaces_witness :
    (((FUSE.inMemory [observing] quietEmit).get "k").run storeWith42).1 = .ok .undefined :=
  (get_after_return_always_replaces (FUSE.inMemory [observing] quietEmit) "k" storeWith42).2
    ⟨.after 0 .get, [.str "k", .num 42], .ok .undefined⟩ .undefined rfl rfl

/-- Counterexample to C10: the `before.get` hook throws `denied`, nobody listens to `error`,
and `get('k')` fails with the emitter's `ERR_UNHANDLED_ERROR` instead of `denied`. -/
theorem get_failure_masked_by_emit :
    ((FUSE.inMemory [denying] unheardEmit).get "k").run InMemoryDriver.new
      = (.error (.native "ERR_UNHANDLED_ERROR"), InMemoryDriver.new,
          [⟨.before 0 .get, [.str "k"], .error (.str "denied")⟩,
           ⟨.emit "error", [.str "denied"], .error (.native "ERR_UNHANDLED_ERROR")⟩]) ∧
    (((FUSE.inMemory [denying] unheardEmit).get "k").run InMemoryDriver.new).1
      ≠ .error (.str "denied") := by
  refine ⟨rfl, ?_⟩
  rw [show (((FUSE.inMemory [denying] unheardEmit).get "k").run InMemoryDriver.new).1
    = .error (.native "ERR_UNHANDLED_ERROR") from rfl]
  simp

/-- Witness of C10 as amended: `denied` reaches both `onError` hooks, the one that throws
included, and the caller. -/
theorem prim_failure_is_broadcast_and_rethrown_witness :
    ((((Prim.get "k").issue (FUSE.inMemory [denying, brokenReporter, reporter] quietEmit)).run
        InMemoryDriver.new).2.2.filter (fun ev => ev.site.isOnError)).map Event.call
      = [(Site.onError 1, [.str "denied"]), (Site.onError 2, [.str "denied"])] ∧
    (((Prim.get "k").issue (FUSE.inMemory [denying, brokenReporter, reporter] quietEmit)).run
        InMemoryDriver.new).1 = .error (.str "denied") := by
  have htrace : (((Prim.get "k").issue
      (FUSE.inMemory [denying, brokenReporter, reporter] quietEmit)).run InMemoryDriver.new).2.2
      = [⟨.before 0 .get, [.str "k"], .error (.str "denied")⟩,
         ⟨.onError 1, [.str "denied"], .error (.str "reporter failed")⟩,
         ⟨.onError 2, [.str "denied"], .ok .undefined⟩,
         ⟨.emit "error", [.str "denied"], .ok (.bool true)⟩] := rfl
  have h := prim_failure_is_broadcast_and_rethrown
    (FUSE.inMemory [denying, brokenReporter, reporter] quietEmit) (Prim.get "k")
    InMemoryDriver.new (.str "denied")
    ⟨⟨.before 0 .get, [.str "k"], .error (.str "denied")⟩, by rw [htrace]; simp, rfl, rfl⟩
  refine ⟨h.1, h.2 ?_⟩
  intro ev hev hsite
  rw [htrace] at hev
  simp only [List.mem_cons, List.mem_singleton, List.not_mem_nil, or_false] at hev
  rcases hev with rfl | rfl | rfl | rfl
  · cases hsite
  · cases hsite
  · cases hsite
  · exact ⟨.bool true, rfl⟩

/-! ## Operations that only forward to the driver -/

namespace FUSE

variable {σ : Type}

theorem rethrow_no_hook {α : Type} (eng : FUSE σ) (err : Value) (s : σ) :
    ∀ e ∈ ((rethrow eng err : Js σ α) s).2.2, e.site.isHook = false ∧ e.site.isDriver = false := by
  obtain ⟨x, s', t, em, h, _, hs, hem, _, _⟩ := rethrow_trace eng err s
  have hα : ((rethrow eng err : Js σ α) s).2.2 = ((rethrow eng err : Js σ Value) s).2.2 := by
    simp only [rethrow, Js.bind, Js.throw]
    rcases eng._handleError err s with ⟨r, s1, t1⟩
    cases r <;> rfl
  rw [hα, h]
  intro e he
  rcases List.mem_append.1 he with he | he
  · have := hs e he
    cases hsite : e.site <;> simp [hsite, Site.isOnError, Site.isHook, Site.isDriver] at this ⊢
  · have : e = em := by simpa using he
    rw [this, hem]
    simp [Site.isHook, Site.isDriver]

/-- An operation that wraps a single driver call in the `try` block: it calls no hook, and it
returns what the driver returns. -/
theorem forward_spec {α : Type} (eng : FUSE σ) (render : α → Value) (op : Op)
    (args : List Value) (f : Eff σ α) (s : σ) :
    (∀ e ∈ (Js.tryCatch (Js.callWith render (.driver op) args f) (rethrow eng) s).2.2,
      e.site.isHook = false) ∧
    ∀ v s', f s = (.ok v, s') →
      Js.tryCatch (Js.callWith render (.driver op) args f) (rethrow eng) s
        = (.ok v, s', [⟨.driver op, args, .ok (render v)⟩]) := by
  rcases hf : f s with ⟨r, s1⟩
  cases r with
  | ok v =>
    have hc : Js.callWith render (.driver op) args f s
        = (.ok v, s1, [⟨.driver op, args, .ok (render v)⟩]) := by
      simp [Js.callWith, hf]
    refine ⟨?_, ?_⟩
    · rw [Js.tryCatch_ok hc]
      intro e he
      have : e = ⟨.driver op, args, .ok (render v)⟩ := by simpa using he
      rw [this]
      rfl
    · intro v' s' h
      simp only [Prod.mk.injEq, Except.ok.injEq] at h
      rw [Js.tryCatch_ok hc, h.1, h.2]
  | error x =>
    have hc : Js.callWith render (.driver op) args f s
        = (.error x, s1, [⟨.driver op, args, .error x⟩]) := by
      simp [Js.callWith, hf]
    refine ⟨?_, ?_⟩
    · rw [Js.tryCatch_error hc]
      intro e he
      have he' : e ∈ [(⟨.driver op, args, .error x⟩ : Event)]
          ++ ((rethrow eng x : Js σ α) s1).2.2 := he
      rcases List.mem_append.1 he' with he | he
      · have : e = ⟨.driver op, args, .error x⟩ := by simpa using he
        rw [this]
        rfl
      · exact (rethrow_no_hook eng x s1 e he).1
    · intro v' s' h
      simp at h

end FUSE

/-- C13. Whatever the middleware list, `size()`, `keys()`, `values()` and `clear()` call no
`before` or `after` hook, and when the driver's method returns they return what it returned,
after that single call. -/
theorem size_keys_values_clear_bypass_hooks {σ : Type} (eng : FUSE σ) (s : σ) :
    ((∀ e ∈ (eng.size.run s).2.2, e.site.isHook = false) ∧
      ∀ v s', eng.driver.size s = (.ok v, s') →
        eng.size.run s = (.ok v, s', [⟨.driver .size, [], .ok v⟩])) ∧
    ((∀ e ∈ (eng.keys.run s).2.2, e.site.isHook = false) ∧
      ∀ ks s', eng.driver.keys s = (.ok ks, s') →
        eng.keys.run s = (.ok ks, s', [⟨.driver .keys, [], .ok (.arr (ks.map Value.str))⟩])) ∧
    ((∀ e ∈ (eng.values.run s).2.2, e.site.isHook = false) ∧
      ∀ vs s', eng.driver.values s = (.ok vs, s') →
        eng.values.run s = (.ok vs, s', [⟨.driver .values, [], .ok (.arr vs)⟩])) ∧
    ((∀ e ∈ (eng.clear.run s).2.2, e.site.isHook = false) ∧
      ∀ v s', eng.driver.clear s = (.ok v, s') →
        eng.clear.run s = (.ok v, s', [⟨.driver .clear, [], .ok v⟩])) :=
  ⟨FUSE.forward_spec eng id .size [] eng.driver.size s,
   FUSE.forward_spec eng (fun (ks : List String) => Value.arr (ks.map Value.str)) .keys [] eng.driver.keys s,
   FUSE.forward_spec eng Value.arr .values [] eng.driver.values s,
   FUSE.forward_spec eng id .clear [] eng.driver.clear s⟩

/-! ## Sites and frames of computations -/

namespace Js

variable {σ α β γ : Type}

theorem sites_pure (P : Site → Prop) (a : α) : (Js.pure a : Js σ α).Sites P := by
  intro s e he
  simp [Js.pure] at he

theorem sites_callWith (P : Site → Prop) (render : α → Value) (site : Site) (args : List Value)
    (f : Eff σ α) (h : P site) : (Js.callWith render site args f).Sites P := by
  intro s e he
  rcases hf : f s with ⟨r, s1⟩
  cases r <;> simp [Js.callWith, hf] at he <;> rw [he] <;> exact h

theorem sites_bind (P : Site → Prop) {x : Js σ α} {f : α → Js σ β} (hx : x.Sites P)
    (hf : ∀ a, (f a).Sites P) : (Js.bind x f).Sites P := by
  intro s e he
  rcases hxs : x s with ⟨r, s1, t1⟩
  have h1 := hx s
  rw [hxs] at h1
  cases r with
  | error x0 =>
    rw [Js.bind_error hxs] at he
    exact h1 e he
  | ok a =>
    rw [Js.bind_ok hxs] at he
    rcases List.mem_append.1 he with he | he
    · exact h1 e he
    · exact hf a s1 e he

theorem sites_mono {P Q : Site → Prop} {x : Js σ α} (h : ∀ st, P st → Q st) (hx : x.Sites P) :
    x.Sites Q :=
  fun s e he => h _ (hx s e he)

theorem frames_pure (view : σ → γ) (a : α) : (Js.pure a : Js σ α).Frames view := by
  intro s _
  rfl

theorem frames_throw (view : σ → γ) (e : Value) : (Js.throw e : Js σ α).Frames view := by
  intro s _
  rfl

theorem frames_callWith (view : σ → γ) (render : α → Value) (site : Site) (args : List Value)
    (f : Eff σ α) (h : site.isDriver = false → ∀ s, view (f s).2 = view s) :
    (Js.callWith render site args f).Frames view := by
  intro s hs
  rcases hf : f s with ⟨r, s1⟩
  have hsite : site.isDriver = false := by
    cases r with
    | ok a => exact hs ⟨site, args, .ok (render a)⟩ (by simp [Js.callWith, hf])
    | error x => exact hs ⟨site, args, .error x⟩ (by simp [Js.callWith, hf])
  have hv := h hsite s
  rw [hf] at hv
  cases r <;> simpa [Js.callWith, hf] using hv

theorem frames_bind {view : σ → γ} {x : Js σ α} {f : α → Js σ β} (hx : x.Frames view)
    (hf : ∀ a, (f a).Frames view) : (Js.bind x f).Frames view := by
  intro s hs
  rcases hxs : x s with ⟨r, s1, t1⟩
  have h1 := hx s
  rw [hxs] at h1
  cases r with
  | error x0 =>
    rw [Js.bind_error hxs] at hs ⊢
    exact h1 hs
  | ok a =>
    rw [Js.bind_ok hxs] at hs ⊢
    have hs1 : ∀ e ∈ t1, e.site.isDriver = false :=
      fun e he => hs e (List.mem_append_left _ he)
    have hs2 : ∀ e ∈ (f a s1).2.2, e.site.isDriver = false :=
      fun e he => hs e (List.mem_append_right _ he)
    exact (hf a s1 hs2).trans (h1 hs1)

theorem frames_tryCatch {view : σ → γ} {x : Js σ α} {g : Value → Js σ α} (hx : x.Frames view)
    (hg : ∀ e, (g e).Frames view) : (Js.tryCatch x g).Frames view := by
  intro s hs
  rcases hxs : x s with ⟨r, s1, t1⟩
  have h1 := hx s
  rw [hxs] at h1
  cases r with
  | ok a =>
    rw [Js.tryCatch_ok hxs] at hs ⊢
    exact h1 hs
  | error x0 =>
    rw [Js.tryCatch_error hxs] at hs ⊢
    have hs1 : ∀ e ∈ t1, e.site.isDriver = false :=
      fun e he => hs e (List.mem_append_left _ he)
    have hs2 : ∀ e ∈ (g x0 s1).2.2, e.site.isDriver = false :=
      fun e he => hs e (List.mem_append_right _ he)
    exact (hg x0 s1 hs2).trans (h1 hs1)

end Js

namespace FUSE

variable {σ : Type}

theorem sites_setBefore (key : String) (ms : List (Middleware σ)) :
    ∀ (i : Nat) (v : Value),
      (setBefore key i ms v).Sites (fun st => st.isBefore .set = true) := by
  induction ms with
  | nil => intro i v; exact Js.sites_pure _ v
  | cons m rest ih =>
    intro i v
    cases hm : m.beforeSet with
    | none => simp only [setBefore, hm]; exact ih (i + 1) v
    | some h =>
      simp only [setBefore, hm]
      refine Js.sites_bind _ (Js.sites_callWith _ _ _ _ _ rfl) (fun w => ?_)
      by_cases hw : w.isDefined = true
      · simp only [hw, if_true]; exact ih (i + 1) w
      · simp only [hw, if_false]; exact ih (i + 1) v

theorem sites_setAfter (key : String) (val : Value) (ms : List (Middleware σ)) :
    ∀ (i : Nat), (setAfter key val i ms).Sites (fun st => st.isBefore .set = false) := by
  induction ms with
  | nil => intro i; exact Js.sites_pure _ ()
  | cons m rest ih =>
    intro i
    cases hm : m.afterSet with
    | none => simp only [setAfter, hm]; exact ih (i + 1)
    | some h =>
      simp only [setAfter, hm]
      exact Js.sites_bind _ (Js.sites_callWith _ _ _ _ _ rfl) (fun _ => ih (i + 1))

theorem sites_removeBefore (key : String) (ms : List (Middleware σ)) :
    ∀ (i : Nat), (removeBefore key i ms).Sites (fun st => st.isBefore .remove = true) := by
  induction ms with
  | nil => intro i; exact Js.sites_pure _ ()
  | cons m rest ih =>
    intro i
    cases hm : m.beforeRemove with
    | none => simp only [removeBefore, hm]; exact ih (i + 1)
    | some h =>
      simp only [removeBefore, hm]
      exact Js.sites_bind _ (Js.sites_callWith _ _ _ _ _ rfl) (fun _ => ih (i + 1))

theorem sites_removeAfter (key : String) (ms : List (Middleware σ)) :
    ∀ (i : Nat), (removeAfter key i ms).Sites (fun st => st.isBefore .remove = false) := by
  induction ms with
  | nil => intro i; exact Js.sites_pure _ ()
  | cons m rest ih =>
    intro i
    cases hm : m.afterRemove with
    | none => simp only [removeAfter, hm]; exact ih (i + 1)
    | some h =>
      simp only [removeAfter, hm]
      exact Js.sites_bind _ (Js.sites_callWith _ _ _ _ _ rfl) (fun _ => ih (i + 1))

theorem sites_getAfter (key : String) (ms : List (Middleware σ)) :
    ∀ (i : Nat) (v : Value),
      (getAfter key i ms v).Sites (fun st => st.isBefore .get = false) := by
  induction ms with
  | nil => intro i v; exact Js.sites_pure _ v
  | cons m rest ih =>
    intro i v
    cases hm : m.afterGet with
    | none => simp only [getAfter, hm]; exact ih (i + 1) v
    | some h =>
      simp only [getAfter, hm]
      exact Js.sites_bind _ (Js.sites_callWith _ _ _ _ _ rfl) (fun w => ih (i + 1) w)

theorem sites_hasAfter (key : String) (ms : List (Middleware σ)) :
    ∀ (i : Nat) (v : Value),
      (hasAfter key i ms v).Sites (fun st => st.isBefore .has = false) := by
  induction ms with
  | nil => intro i v; exact Js.sites_pure _ v
  | cons m rest ih =>
    intro i v
    cases hm : m.afterHas with
    | none => simp only [hasAfter, hm]; exact ih (i + 1) v
    | some h =>
      simp only [hasAfter, hm]
      exact Js.sites_bind _ (Js.sites_callWith _ _ _ _ _ rfl) (fun w => ih (i + 1) w)

theorem sites_hasBefore (key : String) (ms : List (Middleware σ)) :
    ∀ (i : Nat), (hasBefore key i ms).Sites (fun st => st.isBefore .has = true) := by
  induction ms with
  | nil => intro i; exact Js.sites_pure _ none
  | cons m rest ih =>
    intro i
    cases hm : m.beforeHas with
    | none => simp only [hasBefore, hm]; exact ih (i + 1)
    | some h =>
      simp only [hasBefore, hm]
      refine Js.sites_bind _ (Js.sites_callWith _ _ _ _ _ rfl) (fun o => ?_)
      by_cases ho : o.isBoolean = true
      · simp only [ho, if_true]; exact Js.sites_pure _ (some o)
      · simp only [ho, if_false]; exact ih (i + 1)

end FUSE

theorem Phased.of_before {op : Op} {t : List Event}
    (h : ∀ e ∈ t, e.site.isBefore op = true) : Phased op t :=
  ⟨t, [], by simp, h, by simp⟩

theorem Phased.of_rest {op : Op} {t : List Event}
    (h : ∀ e ∈ t, e.site.isBefore op = false) : Phased op t :=
  ⟨[], t, by simp, by simp, h⟩

theorem Phased.cons {op : Op} {e : Event} {t : List Event} (he : e.site.isBefore op = true)
    (h : Phased op t) : Phased op (e :: t) := by
  obtain ⟨tb, tr, ht, hb, hr⟩ := h
  refine ⟨e :: tb, tr, by simp [ht], ?_, hr⟩
  intro x hx
  rcases List.mem_cons.1 hx with rfl | hx
  · exact he
  · exact hb x hx

theorem Phased.append {op : Op} {t1 t2 : List Event}
    (h1 : ∀ e ∈ t1, e.site.isBefore op = true) (h2 : Phased op t2) : Phased op (t1 ++ t2) := by
  induction t1 with
  | nil => simpa using h2
  | cons e rest ih =>
    exact Phased.cons (h1 e (by simp)) (ih (fun x hx => h1 x (List.mem_cons_of_mem _ hx)))

/-- In a phased trace whose calls all returned except the last, a failed `before` call is the
last call, and only `before` calls precede it. -/
theorem Phased.last_before {op : Op} {t0 : List Event} {ev x : Event}
    (h : Phased op (t0 ++ [ev])) (h0 : ∀ e ∈ t0, e.returned) (hx : x ∈ t0 ++ [ev])
    (hsite : x.site.isBefore op = true) (hres : ¬ x.returned) :
    x = ev ∧ ∀ e ∈ t0, e.site.isBefore op = true := by
  have hxev : x = ev := by
    rcases List.mem_append.1 hx with hx | hx
    · exact absurd (h0 x hx) hres
    · simpa using hx
  refine ⟨hxev, ?_⟩
  obtain ⟨tb, tr, ht, hb, hr⟩ := h
  rcases List.eq_nil_or_concat tr with htr | ⟨tr', z, htr⟩
  · subst htr
    rw [List.append_nil] at ht
    intro e he
    exact hb e (ht ▸ List.mem_append_left _ he)
  · subst htr
    have ht' : t0 ++ [ev] = (tb ++ tr') ++ [z] := by simpa using ht
    obtain ⟨_, hz⟩ := List.append_inj' ht' rfl
    have hz' : ev = z := by simpa using hz
    have := hr z (by simp)
    rw [← hz', ← hxev, hsite] at this
    cases this

theorem Phased.append_rest {op : Op} {t1 t2 : List Event} (h1 : Phased op t1)
    (h2 : ∀ e ∈ t2, e.site.isBefore op = false) : Phased op (t1 ++ t2) := by
  obtain ⟨tb, tr, ht, hb, hr⟩ := h1
  refine ⟨tb, tr ++ t2, by simp [ht], hb, ?_⟩
  intro e he
  rcases List.mem_append.1 he with he | he
  · exact hr e he
  · exact h2 e he

namespace Js

variable {σ α β : Type}

theorem phased_bind {op : Op} {x : Js σ α} {f : α → Js σ β}
    (hx : x.Sites (fun st => st.isBefore op = true)) (hf : ∀ a s, Phased op (f a s).2.2) :
    ∀ s, Phased op (Js.bind x f s).2.2 := by
  intro s
  rcases hxs : x s with ⟨r, s1, t1⟩
  have h1 := hx s
  rw [hxs] at h1
  cases r with
  | error x0 => rw [Js.bind_error hxs]; exact Phased.of_before h1
  | ok a => rw [Js.bind_ok hxs]; exact Phased.append h1 (hf a s1)

theorem phased_bind_rest {op : Op} {x : Js σ α} {f : α → Js σ β}
    (hx : ∀ s, Phased op (x s).2.2)
    (hf : ∀ a, (f a).Sites (fun st => st.isBefore op = false)) :
    ∀ s, Phased op (Js.bind x f s).2.2 := by
  intro s
  rcases hxs : x s with ⟨r, s1, t1⟩
  have h1 := hx s
  rw [hxs] at h1
  cases r with
  | error x0 => rw [Js.bind_error hxs]; exact h1
  | ok a => rw [Js.bind_ok hxs]; exact Phased.append_rest h1 (hf a s1)

end Js

namespace FUSE

variable {σ : Type}

theorem phased_getBefore (eng : FUSE σ) (key : String) (ms : List (Middleware σ)) :
    ∀ (i : Nat) (s : σ), Phased .get (getBefore eng key i ms s).2.2 := by
  induction ms with
  | nil => intro i s; exact Phased.of_before (by simp [getBefore, Js.pure])
  | cons m rest ih =>
    intro i
    cases hm : m.beforeGet with
    | none => simp only [getBefore, hm]; exact ih (i + 1)
    | some h =>
      simp only [getBefore, hm]
      refine Js.phased_bind (Js.sites_callWith _ _ _ _ _ rfl) (fun o => ?_)
      by_cases ho : o.isDefined = true
      · simp only [ho, if_true]
        intro s
        exact Phased.of_rest
          (Js.sites_bind _ (sites_getAfter key _ 0 o) (fun val => Js.sites_pure _ (some val)) s)
      · simp only [ho, if_false]
        exact ih (i + 1)

theorem phased_body (eng : FUSE σ) (p : Prim) (s : σ) : Phased p.op (p.body eng s).2.2 := by
  cases p with
  | get key =>
    refine Js.phased_bind_rest (phased_getBefore eng key _ 0) (fun r => ?_) s
    cases r with
    | some val => exact Js.sites_pure _ val
    | none =>
      exact Js.sites_bind _ (Js.sites_callWith _ _ _ _ _ rfl)
        (fun d => sites_getAfter key _ 0 d)
  | set key value =>
    refine Js.phased_bind (sites_setBefore key _ 0 value) (fun val s1 => Phased.of_rest ?_) s
    exact Js.sites_bind (fun st => st.isBefore .set = false)
      (Js.sites_callWith _ _ _ _ _ (by rfl)) (fun _ =>
        Js.sites_bind _ (sites_setAfter key val _ 0) (fun _ => Js.sites_pure _ _)) s1
  | remove key =>
    refine Js.phased_bind (sites_removeBefore key _ 0) (fun _ s1 => Phased.of_rest ?_) s
    exact Js.sites_bind (fun st => st.isBefore .remove = false)
      (Js.sites_callWith _ _ _ _ _ (by rfl)) (fun _ =>
        Js.sites_bind _ (sites_removeAfter key _ 0) (fun _ => Js.sites_pure _ _)) s1
  | has key =>
    refine Js.phased_bind_rest
      (fun s1 => Phased.of_before (sites_hasBefore key _ 0 s1)) (fun r => ?_) s
    cases r with
    | some val => exact Js.sites_pure _ val
    | none =>
      exact Js.sites_bind _ (Js.sites_callWith _ _ _ _ _ rfl)
        (fun d => sites_hasAfter key _ 0 d)

end FUSE

namespace FUSE

variable {σ β : Type}

theorem frames_call_driver (view : σ → β) (op : Op) (args : List Value) (f : Eff σ Value) :
    (Js.call (.driver op) args f).Frames view :=
  Js.frames_callWith view id _ args f (fun h => by simp [Site.isDriver] at h)

theorem frames_getAfter (view : σ → β) (key : String) (ms : List (Middleware σ))
    (hms : ∀ m ∈ ms, m.Keeps view) :
    ∀ (i : Nat) (v : Value), (getAfter key i ms v).Frames view := by
  induction ms with
  | nil => intro i v; exact Js.frames_pure view v
  | cons m rest ih =>
    intro i v
    have hrest : ∀ m ∈ rest, m.Keeps view := fun x hx => hms x (List.mem_cons_of_mem _ hx)
    cases hm : m.afterGet with
    | none => simp only [getAfter, hm]; exact ih hrest (i + 1) v
    | some h =>
      simp only [getAfter, hm]
      exact Js.frames_bind
        (Js.frames_callWith view id _ _ _ (fun _ => (hms m (by simp)).2.2.2.2.1 h hm key v))
        (fun w => ih hrest (i + 1) w)

theorem frames_getBefore (view : σ → β) (eng : FUSE σ)
    (hall : ∀ m ∈ eng.middleware, m.Keeps view) (key : String) (ms : List (Middleware σ))
    (hms : ∀ m ∈ ms, m.Keeps view) :
    ∀ (i : Nat), (getBefore eng key i ms).Frames view := by
  induction ms with
  | nil => intro i; exact Js.frames_pure view none
  | cons m rest ih =>
    intro i
    have hrest : ∀ m ∈ rest, m.Keeps view := fun x hx => hms x (List.mem_cons_of_mem _ hx)
    cases hm : m.beforeGet with
    | none => simp only [getBefore, hm]; exact ih hrest (i + 1)
    | some h =>
      simp only [getBefore, hm]
      refine Js.frames_bind
        (Js.frames_callWith view id _ _ _ (fun _ => (hms m (by simp)).1 h hm key))
        (fun o => ?_)
      by_cases ho : o.isDefined = true
      · simp only [ho, if_true]
        exact Js.frames_bind (frames_getAfter view key _ hall 0 o)
          (fun val => Js.frames_pure view (some val))
      · simp only [ho, if_false]
        exact ih hrest (i + 1)

theorem frames_setBefore (view : σ → β) (key : String) (ms : List (Middleware σ))
    (hms : ∀ m ∈ ms, m.Keeps view) :
    ∀ (i : Nat) (v : Value), (setBefore key i ms v).Frames view := by
  induction ms with
  | nil => intro i v; exact Js.frames_pure view v
  | cons m rest ih =>
    intro i v
    have hrest : ∀ m ∈ rest, m.Keeps view := fun x hx => hms x (List.mem_cons_of_mem _ hx)
    cases hm : m.beforeSet with
    | none => simp only [setBefore, hm]; exact ih hrest (i + 1) v
    | some h =>
      simp only [setBefore, hm]
      refine Js.frames_bind
        (Js.frames_callWith view id _ _ _ (fun _ => (hms m (by simp)).2.1 h hm key v))
        (fun w => ?_)
      by_cases hw : w.isDefined = true
      · simp only [hw, if_true]; exact ih hrest (i + 1) w
      · simp only [hw, if_false]; exact ih hrest (i + 1) v

theorem frames_setAfter (view : σ → β) (key : String) (val : Value)
    (ms : List (Middleware σ)) (hms : ∀ m ∈ ms, m.Keeps view) :
    ∀ (i : Nat), (setAfter key val i ms).Frames view := by
  induction ms with
  | nil => intro i; exact Js.frames_pure view ()
  | cons m rest ih =>
    intro i
    have hrest : ∀ m ∈ rest, m.Keeps view := fun x hx => hms x (List.mem_cons_of_mem _ hx)
    cases hm : m.afterSet with
    | none => simp only [setAfter, hm]; exact ih hrest (i + 1)
    | some h =>
      simp only [setAfter, hm]
      exact Js.frames_bind
        (Js.frames_callWith view id _ _ _
          (fun _ => (hms m (by simp)).2.2.2.2.2.1 h hm key val))
        (fun _ => ih hrest (i + 1))

theorem frames_removeBefore (view : σ → β) (key : String) (ms : List (Middleware σ))
    (hms : ∀ m ∈ ms, m.Keeps view) :
    ∀ (i : Nat), (removeBefore key i ms).Frames view := by
  induction ms with
  | nil => intro i; exact Js.frames_pure view ()
  | cons m rest ih =>
    intro i
    have hrest : ∀ m ∈ rest, m.Keeps view := fun x hx => hms x (List.mem_cons_of_mem _ hx)
    cases hm : m.beforeRemove with
    | none => simp only [removeBefore, hm]; exact ih hrest (i + 1)
    | some h =>
      simp only [removeBefore, hm]
      exact Js.frames_bind
        (Js.frames_callWith view id _ _ _ (fun _ => (hms m (by simp)).2.2.1 h hm key))
        (fun _ => ih hrest (i + 1))

theorem frames_removeAfter (view : σ → β) (key : String) (ms : List (Middleware σ))
    (hms : ∀ m ∈ ms, m.Keeps view) :
    ∀ (i : Nat), (removeAfter key i ms).Frames view := by
  induction ms with
  | nil => intro i; exact Js.frames_pure view ()
  | cons m rest ih =>
    intro i
    have hrest : ∀ m ∈ rest, m.Keeps view := fun x hx => hms x (List.mem_cons_of_mem _ hx)
    cases hm : m.afterRemove with
    | none => simp only [removeAfter, hm]; exact ih hrest (i + 1)
    | some h =>
      simp only [removeAfter, hm]
      exact Js.frames_bind
        (Js.frames_callWith view id _ _ _
          (fun _ => (hms m (by simp)).2.2.2.2.2.2.1 h hm key))
        (fun _ => ih hrest (i + 1))

theorem frames_hasBefore (view : σ → β) (key : String) (ms : List (Middleware σ))
    (hms : ∀ m ∈ ms, m.Keeps view) :
    ∀ (i : Nat), (hasBefore key i ms).Frames view := by
  induction ms with
  | nil => intro i; exact Js.frames_pure view none
  | cons m rest ih =>
    intro i
    have hrest : ∀ m ∈ rest, m.Keeps view := fun x hx => hms x (List.mem_cons_of_mem _ hx)
    cases hm : m.beforeHas with
    | none => simp only [hasBefore, hm]; exact ih hrest (i + 1)
    | some h =>
      simp only [hasBefore, hm]
      refine Js.frames_bind
        (Js.frames_callWith view id _ _ _ (fun _ => (hms m (by simp)).2.2.2.1 h hm key))
        (fun o => ?_)
      by_cases ho : o.isBoolean = true
      · simp only [ho, if_true]; exact Js.frames_pure view (some o)
      · simp only [ho, if_false]; exact ih hrest (i + 1)

theorem frames_hasAfter (view : σ → β) (key : String) (ms : List (Middleware σ))
    (hms : ∀ m ∈ ms, m.Keeps view) :
    ∀ (i : Nat) (v : Value), (hasAfter key i ms v).Frames view := by
  induction ms with
  | nil => intro i v; exact Js.frames_pure view v
  | cons m rest ih =>
    intro i v
    have hrest : ∀ m ∈ rest, m.Keeps view := fun x hx => hms x (List.mem_cons_of_mem _ hx)
    cases hm : m.afterHas with
    | none => simp only [hasAfter, hm]; exact ih hrest (i + 1) v
    | some h =>
      simp only [hasAfter, hm]
      exact Js.frames_bind
        (Js.frames_callWith view id _ _ _
          (fun _ => (hms m (by simp)).2.2.2.2.2.2.2.1 h hm key v))
        (fun w => ih hrest (i + 1) w)

theorem frames_handleErrorLoop (view : σ → β) (err : Value) (ms : List (Middleware σ))
    (hms : ∀ m ∈ ms, m.Keeps view) :
    ∀ (i : Nat), (handleErrorLoop err i ms).Frames view := by
  induction ms with
  | nil => intro i; exact Js.frames_pure view ()
  | cons m rest ih =>
    intro i
    have hrest : ∀ m ∈ rest, m.Keeps view := fun x hx => hms x (List.mem_cons_of_mem _ hx)
    cases hm : m.onError with
    | none => simp only [handleErrorLoop, hm]; exact ih hrest (i + 1)
    | some h =>
      simp only [handleErrorLoop, hm]
      exact Js.frames_bind
        (Js.frames_tryCatch
          (Js.frames_callWith view id _ _ _
            (fun _ => (hms m (by simp)).2.2.2.2.2.2.2.2 h hm err))
          (fun _ => Js.frames_pure view _))
        (fun _ => ih hrest (i + 1))

theorem frames_rethrow {α : Type} (view : σ → β) (eng : FUSE σ)
    (hall : ∀ m ∈ eng.middleware, m.Keeps view)
    (hemit : ∀ name payload s, view (eng.emit name payload s).2 = view s) (err : Value) :
    (rethrow eng err : Js σ α).Frames view :=
  Js.frames_bind
    (Js.frames_bind (frames_handleErrorLoop view err _ hall 0) (fun _ =>
      Js.frames_bind (Js.frames_callWith view id _ _ _ (fun _ => hemit "error" err))
        (fun _ => Js.frames_pure view ())))
    (fun _ => Js.frames_throw view err)

theorem frames_body (view : σ → β) (eng : FUSE σ)
    (hall : ∀ m ∈ eng.middleware, m.Keeps view) (p : Prim) : (p.body eng).Frames view := by
  cases p with
  | get key =>
    refine Js.frames_bind (frames_getBefore view eng hall key _ hall 0) (fun r => ?_)
    cases r with
    | some val => exact Js.frames_pure view val
    | none =>
      exact Js.frames_bind (frames_call_driver view _ _ _)
        (fun d => frames_getAfter view key _ hall 0 d)
  | set key value =>
    exact Js.frames_bind (frames_setBefore view key _ hall 0 value) (fun val =>
      Js.frames_bind (frames_call_driver view _ _ _) (fun _ =>
        Js.frames_bind (frames_setAfter view key val _ hall 0)
          (fun _ => Js.frames_pure view _)))
  | remove key =>
    exact Js.frames_bind (frames_removeBefore view key _ hall 0) (fun _ =>
      Js.frames_bind (frames_call_driver view _ _ _) (fun _ =>
        Js.frames_bind (frames_removeAfter view key _ hall 0)
          (fun _ => Js.frames_pure view _)))
  | has key =>
    refine Js.frames_bind (frames_hasBefore view key _ hall 0) (fun r => ?_)
    cases r with
    | some val => exact Js.frames_pure view val
    | none =>
      exact Js.frames_bind (frames_call_driver view _ _ _)
        (fun d => frames_hasAfter view key _ hall 0 d)

theorem frames_issue (view : σ → β) (eng : FUSE σ)
    (hall : ∀ m ∈ eng.middleware, m.Keeps view)
    (hemit : ∀ name payload s, view (eng.emit name payload s).2 = view s) (p : Prim) :
    (p.issue eng).Frames view := by
  rw [issue_eq]
  exact Js.frames_tryCatch (frames_body view eng hall p)
    (fun e => frames_rethrow view eng hall hemit e)

end FUSE

/-! ## Failure of a `before` hook -/

/-- C12. If a `before` hook of a primitive operation (`set` and `remove` in particular) throws
`e`, the calls of the operation are: `before` hooks that returned, then the hook that threw,
then calls that are neither hooks nor driver methods (the error handler). So no later `before`
hook runs, the driver is not called and no `after` hook runs. Whatever part of the state the
hooks, the `onError` hooks and the event listeners leave alone (the store, unless they write to
it themselves) is as it was before the call. -/
theorem before_hook_failure_aborts {σ : Type} (eng : FUSE σ) (p : Prim) (s : σ) (e : Value)
    (hfail : ∃ ev ∈ ((p.issue eng).run s).2.2,
      ev.site.isBefore p.op = true ∧ ev.result = .error e) :
    (∃ t1 ev th, ((p.issue eng).run s).2.2 = t1 ++ ev :: th ∧
      (∀ x ∈ t1, x.site.isBefore p.op = true ∧ x.returned) ∧
      ev.site.isBefore p.op = true ∧ ev.result = .error e ∧
      (∀ x ∈ th, x.site.isBody = false)) ∧
    (∀ (β : Type) (view : σ → β), (∀ m ∈ eng.middleware, m.Keeps view) →
      (∀ name payload s0, view (eng.emit name payload s0).2 = view s0) →
      view ((p.issue eng).run s).2.1 = view s) := by
  have htidy := FUSE.tidy_body eng p s
  have hphased := FUSE.phased_body eng p s
  rcases hbody : p.body eng s with ⟨r1, s1, t1⟩
  rw [hbody] at htidy hphased
  have hshape : ∃ t0 ev th, ((p.issue eng).run s).2.2 = t0 ++ ev :: th ∧
      (∀ x ∈ t0, x.site.isBefore p.op = true ∧ x.returned) ∧
      ev.site.isBefore p.op = true ∧ ev.result = .error e ∧
      (∀ x ∈ th, x.site.isBody = false ∧ x.site.isDriver = false) := by
    simp only [Js.run, FUSE.issue_eq] at hfail ⊢
    cases r1 with
    | ok a =>
      rw [Js.tryCatch_ok hbody] at hfail
      obtain ⟨ev, hev, _, hres⟩ := hfail
      obtain ⟨v, hv⟩ := htidy.2 ev hev
      rw [hres] at hv
      cases hv
    | error x =>
      obtain ⟨y, s2, tl, em, hre, _, hsites, hemsite, _, _⟩ := FUSE.rethrow_trace eng x s1
      rw [Js.tryCatch_error hbody, hre] at hfail ⊢
      obtain ⟨t0, ev0, ht1, hev0, h0⟩ := htidy.2
      have ht1' : t1 = t0 ++ [ev0] := ht1
      rw [ht1'] at hphased
      obtain ⟨ev, hev, hsite, hres⟩ := hfail
      have hev' : ev ∈ t1 ++ (tl ++ [em]) := hev
      have hin : ev ∈ t0 ++ [ev0] := by
        rcases List.mem_append.1 hev' with hin | hin
        · rw [ht1'] at hin; exact hin
        · exfalso
          rcases List.mem_append.1 hin with hin | hin
          · have h1 := hsites ev hin
            cases hs : ev.site <;> simp [hs, Site.isBefore, Site.isOnError] at hsite h1
          · have : ev = em := by simpa using hin
            rw [this, hemsite] at hsite
            simp [Site.isBefore] at hsite
      have hnot : ¬ ev.returned := by
        rintro ⟨v, hv⟩
        rw [hres] at hv
        cases hv
      obtain ⟨heq, hb⟩ := Phased.last_before hphased h0 hin hsite hnot
      refine ⟨t0, ev0, tl ++ [em], ?_, fun z hz => ⟨hb z hz, h0 z hz⟩, heq ▸ hsite,
        heq ▸ hres, ?_⟩
      · show t1 ++ (tl ++ [em]) = t0 ++ ev0 :: (tl ++ [em])
        rw [ht1']
        simp
      · intro z hz
        rcases List.mem_append.1 hz with hz | hz
        · have h1 := hsites z hz
          cases hs : z.site <;> simp [hs, Site.isBody, Site.isDriver, Site.isOnError] at h1 ⊢
        · have : z = em := by simpa using hz
          rw [this, hemsite]
          simp [Site.isBody, Site.isDriver]
  obtain ⟨t0, ev, th, ht, h0, hsite, hres, hth⟩ := hshape
  refine ⟨⟨t0, ev, th, ht, h0, hsite, hres, fun z hz => (hth z hz).1⟩, ?_⟩
  intro β view hall hemit
  refine FUSE.frames_issue view eng hall hemit p s ?_
  have ht' : ((p.issue eng) s).2.2 = t0 ++ ev :: th := ht
  rw [ht']
  intro z hz
  have hbefore : ∀ w : Event, w.site.isBefore p.op = true → w.site.isDriver = false := by
    intro w hw
    cases hs : w.site <;> simp [hs, Site.isBefore, Site.isDriver] at hw ⊢
  rcases List.mem_append.1 hz with hz | hz
  · exact hbefore z (h0 z hz).1
  · rcases List.mem_cons.1 hz with rfl | hz
    · exact hbefore _ hsite
    · exact (hth z hz).2

/-- Witness of C12: the second of three middleware refuses `set('k', 'y')`; the third is not
reached, and the store still holds `x` under `k`. -/
theorem before_hook_failure_aborts_witness :
    (∃ t1 ev th,
      (((Prim.set "k" (.str "y")).issue (FUSE.inMemory [auditing, refusing, auditing]
          quietEmit)).run storeWithK).2.2 = t1 ++ ev :: th ∧
      (∀ x ∈ t1, x.site.isBefore (Prim.set "k" (.str "y")).op = true ∧ x.returned) ∧
      ev.site.isBefore (Prim.set "k" (.str "y")).op = true ∧
      ev.result = .error (.str "refused") ∧
      (∀ x ∈ th, x.site.isBody = false)) ∧
    (∀ (β : Type) (view : InMemoryDriver → β),
      (∀ m ∈ (FUSE.inMemory [auditing, refusing, auditing] quietEmit).middleware,
        m.Keeps view) →
      (∀ name payload s0,
        view ((FUSE.inMemory [auditing, refusing, auditing] quietEmit).emit name payload s0).2
          = view s0) →
      view (((Prim.set "k" (.str "y")).issue (FUSE.inMemory [auditing, refusing, auditing]
          quietEmit)).run storeWithK).2.1 = view storeWithK) :=
  before_hook_failure_aborts (FUSE.inMemory [auditing, refusing, auditing] quietEmit)
    (Prim.set "k" (.str "y")) storeWithK (.str "refused")
    ⟨⟨.before 1 .set, [.str "k", .str "y"], .error (.str "refused")⟩,
      by
        rw [show (((Prim.set "k" (.str "y")).issue
            (FUSE.inMemory [auditing, refusing, auditing] quietEmit)).run storeWithK).2.2
          = [⟨.before 0 .set, [.str "k", .str "y"], .ok .undefined⟩,
             ⟨.before 1 .set, [.str "k", .str "y"], .error (.str "refused")⟩,
             ⟨.emit "error", [.str "refused"], .ok (.bool true)⟩] from rfl]
        simp,
      rfl, rfl⟩

/-! ## Operations built from guarded blocks -/

namespace Js

variable {σ α β : Type}

theorem tidy_callWith (render : α → Value) (site : Site) (args : List Value) (f : Eff σ α)
    (h : site.isBody = true) : (Js.callWith render site args f).Tidy := by
  intro s
  rcases hf : f s with ⟨r, s1⟩
  cases r with
  | ok v =>
    have hc : Js.callWith render site args f s = (.ok v, s1, [⟨site, args, .ok (render v)⟩]) := by
      simp [Js.callWith, hf]
    rw [hc]
    exact ⟨by simpa using h, by simp [Event.returned]⟩
  | error x =>
    have hc : Js.callWith render site args f s = (.error x, s1, [⟨site, args, .error x⟩]) := by
      simp [Js.callWith, hf]
    rw [hc]
    exact ⟨by simpa using h, ⟨[], _, rfl, rfl, by simp⟩⟩

theorem guarded_pure (ms : List (Middleware σ)) (a : α) : (Js.pure a : Js σ α).Guarded ms :=
  fun _ => Or.inl (by simp [Js.pure])

theorem guarded_throw (ms : List (Middleware σ)) (e : Value) :
    (Js.throw e : Js σ α).Guarded ms :=
  fun _ => Or.inl (by simp [Js.throw])

theorem guarded_bind {ms : List (Middleware σ)} {x : Js σ α} {f : α → Js σ β}
    (hx : x.Guarded ms) (hf : ∀ a, (f a).Guarded ms) : (Js.bind x f).Guarded ms := by
  intro s
  rcases hxs : x s with ⟨r, s1, t1⟩
  have h1 := hx s
  rw [hxs] at h1
  cases r with
  | error e0 =>
    rw [Js.bind_error hxs]
    rcases h1 with h1 | ⟨t0, ev, th, em, x0, y, ht, hr, h0, hev, hres, hth, hsites, hem, hargs, hout⟩
    · exact Or.inl h1
    · refine Or.inr ⟨t0, ev, th, em, x0, y, ht, ?_, h0, hev, hres, hth, hsites, hem, hargs, hout⟩
      have hr' : (Except.error e0 : Except Value α) = .error y := hr
      injection hr' with hr'
      show (Except.error e0 : Except Value β) = .error y
      rw [hr']
  | ok a =>
    rw [Js.bind_ok hxs]
    have h1' : ∀ e ∈ t1, e.site.isBody = true ∧ e.returned := by
      rcases h1 with h1 | ⟨_, _, _, _, _, _, _, hr, _⟩
      · exact h1
      · cases hr
    rcases hf a s1 with h2 | ⟨t0, ev, th, em, x0, y, ht, hr, h0, hev, hres, hth, hsites, hem, hargs, hout⟩
    · refine Or.inl ?_
      intro e he
      rcases List.mem_append.1 he with he | he
      · exact h1' e he
      · exact h2 e he
    · refine Or.inr ⟨t1 ++ t0, ev, th, em, x0, y, ?_, hr, ?_, hev, hres, hth, hsites, hem,
        hargs, hout⟩
      · have ht' : (f a s1).2.2 = t0 ++ ev :: (th ++ [em]) := ht
        show t1 ++ (f a s1).2.2 = t1 ++ t0 ++ ev :: (th ++ [em])
        rw [ht', List.append_assoc]
      · intro e he
        rcases List.mem_append.1 he with he | he
        · exact h1' e he
        · exact h0 e he

end Js

namespace FUSE

variable {σ : Type}

/-- The `catch` clause runs alike whatever the type of the value the operation returns. -/
theorem rethrow_run (α : Type) (eng : FUSE σ) (err : Value) (s : σ) :
    ∃ x s' t, (rethrow eng err : Js σ α) s = (.error x, s', t) ∧
      (rethrow eng err : Js σ Value) s = (.error x, s', t) := by
  simp only [rethrow, Js.bind, Js.throw]
  rcases eng._handleError err s with ⟨r, s1, t1⟩
  cases r with
  | ok u => exact ⟨err, s1, t1 ++ [], rfl, rfl⟩
  | error y => exact ⟨y, s1, t1, rfl, rfl⟩

/-- A `try` block whose trace is tidy, under the engine's `catch` clause, is guarded. -/
theorem guarded_tryCatch {α : Type} (eng : FUSE σ) {body : Js σ α} (hb : body.Tidy) :
    (Js.tryCatch body (rethrow eng)).Guarded eng.middleware := by
  intro s
  have htidy := hb s
  rcases hbody : body s with ⟨r1, s1, t1⟩
  rw [hbody] at htidy
  cases r1 with
  | ok a =>
    rw [Js.tryCatch_ok hbody]
    exact Or.inl (fun e he => ⟨htidy.1 e he, htidy.2 e he⟩)
  | error x =>
    obtain ⟨y, s2, tl, em, hre, hcalls, hsites, hemsite, hargs, hout⟩ := rethrow_trace eng x s1
    obtain ⟨y', s2', t', hα, hv⟩ := rethrow_run α eng x s1
    rw [hre] at hv
    simp only [Prod.mk.injEq, Except.error.injEq] at hv
    obtain ⟨hy, hs2, ht'⟩ := hv
    rw [Js.tryCatch_error hbody, hα]
    obtain ⟨t0, ev0, ht1, hev0, h0⟩ := htidy.2
    have ht1' : t1 = t0 ++ [ev0] := ht1
    refine Or.inr ⟨t0, ev0, tl, em, x, y, ?_, ?_, ?_, ?_, hev0, hcalls, hsites, hemsite, hargs,
      hout⟩
    · show t1 ++ t' = t0 ++ ev0 :: (tl ++ [em])
      rw [ht1', ← ht']
      simp
    · show (Except.error y' : Except Value α) = .error y
      rw [hy]
    · intro e he
      exact ⟨htidy.1 e (ht1' ▸ List.mem_append_left _ he), h0 e he⟩
    · exact htidy.1 ev0 (ht1' ▸ by simp)

theorem guarded_issue (eng : FUSE σ) (p : Prim) : (p.issue eng).Guarded eng.middleware := by
  rw [issue_eq]
  exact guarded_tryCatch eng (tidy_body eng p)

theorem guarded_keys (eng : FUSE σ) : eng.keys.Guarded eng.middleware :=
  guarded_tryCatch eng (Js.tidy_callWith _ _ _ _ rfl)

theorem guarded_clear (eng : FUSE σ) : eng.clear.Guarded eng.middleware :=
  guarded_tryCatch eng (Js.tidy_callWith _ _ _ _ rfl)

theorem guarded_bulkSetLoop (eng : FUSE σ) (entries : Value) (ks : List String) :
    (bulkSetLoop eng entries ks).Guarded eng.middleware := by
  induction ks with
  | nil => exact Js.guarded_pure _ _
  | cons k rest ih =>
    exact Js.guarded_bind (guarded_issue eng (.set k _)) (fun _ => ih)

theorem guarded_bulkSet (eng : FUSE σ) (entries : Value) :
    (eng.bulkSet entries).Guarded eng.middleware := by
  unfold bulkSet
  cases eng.driver.bulkSet with
  | some f => exact guarded_tryCatch eng (Js.tidy_callWith _ _ _ _ rfl)
  | none =>
    refine Js.guarded_bind ?_ (fun ks => guarded_bulkSetLoop eng entries ks)
    cases entries <;> first
      | exact Js.guarded_throw _ _
      | exact Js.guarded_pure _ _

theorem guarded_bulkRemoveLoop (eng : FUSE σ) (ks : List String) :
    (bulkRemoveLoop eng ks).Guarded eng.middleware := by
  induction ks with
  | nil => exact Js.guarded_pure _ _
  | cons k rest ih =>
    exact Js.guarded_bind (guarded_issue eng (.remove k)) (fun _ => ih)

theorem guarded_exportLoop (eng : FUSE σ) (ks : List String) :
    ∀ obj, (exportLoop eng ks obj).Guarded eng.middleware := by
  induction ks with
  | nil => intro obj; exact Js.guarded_pure _ _
  | cons k rest ih =>
    intro obj
    exact Js.guarded_bind (guarded_issue eng (.get k)) (fun v => ih (obj.assign k v))

theorem guarded_routine (eng : FUSE σ) (q : Routine) (hq : ¬ q.Delegated eng) :
    (q.issue eng).Guarded eng.middleware := by
  cases q with
  | size => exact guarded_tryCatch eng (Js.tidy_callWith _ _ _ _ rfl)
  | keys => exact Js.guarded_bind (guarded_keys eng) (fun _ => Js.guarded_pure _ _)
  | values =>
    exact Js.guarded_bind (guarded_tryCatch eng (Js.tidy_callWith _ _ _ _ rfl))
      (fun _ => Js.guarded_pure _ _)
  | clear => exact guarded_clear eng
  | bulkSet entries => exact guarded_bulkSet eng entries
  | bulkRemove ks =>
    show (eng.bulkRemove ks).Guarded eng.middleware
    unfold bulkRemove
    cases eng.driver.bulkRemove with
    | some f => exact guarded_tryCatch eng (Js.tidy_callWith _ _ _ _ rfl)
    | none => exact guarded_bulkRemoveLoop eng ks
  | exportSnapshot =>
    have hnone : eng.driver.exportSnapshot = none := by
      cases h : eng.driver.exportSnapshot with
      | none => rfl
      | some f => exact absurd (by simp [Routine.Delegated, h]) hq
    refine Js.guarded_bind ?_ (fun _ => Js.guarded_pure _ _)
    simp only [exportSnapshot, hnone]
    exact Js.guarded_bind (guarded_keys eng) (fun ks =>
      Js.guarded_bind (guarded_exportLoop eng ks _) (fun _ => Js.guarded_pure _ _))
  | importSnapshot snapshot =>
    have hnone : eng.driver.importSnapshot = none := by
      cases h : eng.driver.importSnapshot with
      | none => rfl
      | some f => exact absurd (by simp [Routine.Delegated, h]) hq
    show (eng.importSnapshot snapshot).Guarded eng.middleware
    simp only [importSnapshot, hnone]
    cases snapshot.parsed with
    | syntaxError err => exact Js.guarded_throw _ _
    | null => exact Js.guarded_bind (guarded_clear eng) (fun _ => guarded_bulkSet eng _)
    | object props => exact Js.guarded_bind (guarded_clear eng) (fun _ => guarded_bulkSet eng _)

end FUSE

/-- The operations whose driver call sits in a `try` block: `size`, `keys`, `values`, `clear`,
`bulkSet`, `bulkRemove`, and `exportSnapshot` and `importSnapshot` when the driver has no
method of that name, so that the engine synthesizes them. If a driver call fails with `e`,
every call before it returned, the `onError` hooks of the middleware that define one are then
called in list order, each with `e`, then the `error` event is emitted with `e`, and the
operation fails: with `e` if emitting returned, with what emitting threw otherwise. -/
theorem routine_failure_is_broadcast {σ : Type} (eng : FUSE σ) (q : Routine)
    (hq : ¬ q.Delegated eng) (s : σ) (e : Value)
    (hfail : ∃ ev ∈ ((q.issue eng).run s).2.2, ev.site.isDriver = true ∧ ev.result = .error e) :
    ∃ t0 ev th em y, ((q.issue eng).run s).2.2 = t0 ++ ev :: (th ++ [em]) ∧
      ((q.issue eng).run s).1 = .error y ∧
      (∀ x ∈ t0, x.returned) ∧
      ev.site.isDriver = true ∧ ev.result = .error e ∧
      th.map Event.call = (onErrorPositions eng.middleware).map (fun j => (Site.onError j, [e])) ∧
      em.site = .emit "error" ∧ em.args = [e] ∧
      ((em.returned ∧ y = e) ∨ em.result = .error y) := by
  obtain ⟨ev', hev', hdriver, hres'⟩ := hfail
  rcases FUSE.guarded_routine eng q hq s with hall |
    ⟨t0, ev, th, em, x, y, ht, hr, h0, hev, hres, hth, hsites, hem, hargs, hout⟩
  · obtain ⟨v, hv⟩ := (hall ev' hev').2
    rw [hres'] at hv
    cases hv
  · have ht' : ((q.issue eng).run s).2.2 = t0 ++ ev :: (th ++ [em]) := ht
    rw [ht'] at hev'
    have heq : ev' = ev := by
      rcases List.mem_append.1 hev' with hin | hin
      · obtain ⟨v, hv⟩ := (h0 ev' hin).2
        rw [hres'] at hv
        cases hv
      · rcases List.mem_cons.1 hin with hin | hin
        · exact hin
        · exfalso
          rcases List.mem_append.1 hin with hin | hin
          · have h1 := hsites ev' hin
            cases hs : ev'.site <;> simp [hs, Site.isDriver, Site.isOnError] at hdriver h1
          · have : ev' = em := by simpa using hin
            rw [this, hem] at hdriver
            simp [Site.isDriver] at hdriver
    have hxe : x = e := by
      rw [heq, hres] at hres'
      injection hres'
    subst hxe
    exact ⟨t0, ev, th, em, y, ht', hr, fun z hz => (h0 z hz).2, heq ▸ hdriver, hres, hth, hem,
      hargs, hout⟩

/-- C11. On the default engine under a middleware with an `onError` hook and with a listener
for every event, `importSnapshot` of a text that is not JSON fails with the driver's
`SyntaxError` after a single call, the one to the driver: the `onError` hook is not called and
no `error` event is emitted. The sibling operation `keys()`, on a store that makes the driver
throw, calls the hook with the driver's error and emits the event before it fails. -/
theorem importSnapshot_failure_skips_onError :
    ((Routine.importSnapshot ⟨"\x7b", .syntaxError (.native "SyntaxError")⟩).issue
        (FUSE.inMemory [reporter] quietEmit)).run InMemoryDriver.new
      = (.error (.native "SyntaxError"), InMemoryDriver.new,
          [⟨.driver .importSnapshot, [.str "\x7b"], .error (.native "SyntaxError")⟩]) ∧
    onErrorPositions (FUSE.inMemory [reporter] quietEmit).middleware = [0] ∧
    (Routine.keys.issue (FUSE.inMemory [reporter] quietEmit)).run ⟨.null⟩
      = (.error typeError, ⟨.null⟩,
          [⟨.driver .keys, [], .error typeError⟩,
           ⟨.onError 0, [typeError], .ok .undefined⟩,
           ⟨.emit "error", [typeError], .ok (.bool true)⟩]) :=
  ⟨rfl, rfl, rfl⟩

/-- On a store that makes the driver throw, `size()` reports the `TypeError` to both `onError`
hooks, the one that throws included, and fails with it. -/
theorem size_failure_is_broadcast :
    ∃ t0 ev th em y,
      ((Routine.size.issue (FUSE.inMemory [brokenReporter, reporter] quietEmit)).run
        ⟨.null⟩).2.2 = t0 ++ ev :: (th ++ [em]) ∧
      ((Routine.size.issue (FUSE.inMemory [brokenReporter, reporter] quietEmit)).run
        ⟨.null⟩).1 = .error y ∧
      (∀ x ∈ t0, x.returned) ∧
      ev.site.isDriver = true ∧ ev.result = .error typeError ∧
      th.map Event.call
        = (onErrorPositions (FUSE.inMemory [brokenReporter, reporter] quietEmit).middleware).map
            (fun j => (Site.onError j, [typeError])) ∧
      em.site = .emit "error" ∧ em.args = [typeError] ∧
      ((em.returned ∧ y = typeError) ∨ em.result = .error y) :=
  routine_failure_is_broadcast (FUSE.inMemory [brokenReporter, reporter] quietEmit)
    Routine.size (fun h => h) ⟨.null⟩ typeError
    ⟨⟨.driver .size, [], .error typeError⟩,
      by
        rw [show ((Routine.size.issue
            (FUSE.inMemory [brokenReporter, reporter] quietEmit)).run ⟨.null⟩).2.2
          = [⟨.driver .size, [], .error typeError⟩,
             ⟨.onError 0, [typeError], .error (.str "reporter failed")⟩,
             ⟨.onError 1, [typeError], .ok .undefined⟩,
             ⟨.emit "error", [typeError], .ok (.bool true)⟩] from rfl]
        simp,
      rfl, rfl⟩

/-! ## Engines that behave as mappings -/

theorem lookupOwn_isSome_iff_mem (ps : Props) (k : String) :
    (lookupOwn ps k).isSome = true ↔ k ∈ ps.map (fun p => p.1) := by
  induction ps with
  | nil => simp [lookupOwn]
  | cons p rest ih =>
    obtain ⟨k', w⟩ := p
    by_cases hk : k' = k
    · simp [lookupOwn, hk]
    · have hk' : ¬ k = k' := fun h => hk h.symm
      simp [lookupOwn, hk, hk', ih]

theorem mem_ownKeys_iff (ps : Props) (k : String) :
    k ∈ ownKeys ps ↔ (lookupOwn ps k).isSome = true := by
  rw [(ownKeys_perm ps).mem_iff, lookupOwn_isSome_iff_mem]

namespace Faithful

variable {σ : Type} {eng : FUSE σ} {Inv : σ → Prop} {view : σ → String → Option Value}

/-- Under the per-key fallback, `bulkSet` runs `set` for each key in turn, which stores every
entry. -/
theorem bulkSetLoop_spec (hf : Faithful eng Inv view) (entries : Value) (ks : List String) :
    ∀ s, Inv s → ∃ s' t, (FUSE.bulkSetLoop eng entries ks).run s = (.ok .undefined, s', t) ∧
      Inv s' ∧ ∀ k, view s' k
        = if k ∈ ks then some ((lookupOwn entries.enumerableOwn k).getD .undefined)
          else view s k := by
  induction ks with
  | nil => intro s hs; exact ⟨s, [], rfl, hs, by simp⟩
  | cons k0 rest ih =>
    intro s hs
    obtain ⟨s1, t1, h1, hs1, hk0, hothers⟩ :=
      hf.set k0 ((lookupOwn entries.enumerableOwn k0).getD .undefined) s hs
    obtain ⟨s2, t2, h2, hs2, hview⟩ := ih s1 hs1
    refine ⟨s2, t1 ++ t2, ?_, hs2, ?_⟩
    · simp only [Js.run] at h1 h2 ⊢
      simp only [FUSE.bulkSetLoop]
      rw [Js.bind_ok h1, h2]
    · intro k
      rw [hview k]
      by_cases hkr : k ∈ rest
      · simp [hkr]
      · by_cases hk : k = k0
        · subst hk
          simp [hkr, hk0]
        · simp [hkr, hk, hothers k hk]

theorem storesBulk_of_fallback (hf : Faithful eng Inv view) (hnone : eng.driver.bulkSet = none) :
    StoresBulk eng Inv view := by
  intro props s hs
  obtain ⟨s', t, h, hs', hview⟩ := hf.bulkSetLoop_spec (.obj props) (ownKeys props) s hs
  refine ⟨.undefined, s', t, ?_, hs', ?_, ?_⟩
  · simp only [Js.run] at h ⊢
    simp only [FUSE.bulkSet, hnone, FUSE.objectKeys]
    have hp : (Js.pure (ownKeys (Value.obj props).enumerableOwn) : Js σ (List String)) s
        = (.ok (ownKeys props), s, []) := rfl
    rw [Js.bind_ok hp, h]
    rfl
  · intro k v hkv
    have hmem : k ∈ ownKeys props := by
      rw [mem_ownKeys_iff, hkv]; rfl
    rw [hview k]
    simp [hmem, Value.enumerableOwn, hkv]
  · intro k hk
    have hmem : k ∉ ownKeys props := by
      rw [mem_ownKeys_iff, hk]; simp
    rw [hview k]
    simp [hmem]

theorem get_of_view (hf : Faithful eng Inv view) {s : σ} (hs : Inv s) {k : String} {v : Value}
    (h : view s k = some v) : ∃ s' t, (eng.get k).run s = (.ok v, s', t) := by
  obtain ⟨s', t, hg, _, _⟩ := hf.get k s hs
  rw [h] at hg
  exact ⟨s', t, hg⟩

theorem keys_of_view (hf : Faithful eng Inv view) {s : σ} (hs : Inv s) {k : String} {v : Value}
    (h : view s k = some v) : ∃ ks s' t, eng.keys.run s = (.ok ks, s', t) ∧ k ∈ ks := by
  obtain ⟨ks, s', t, hk, _, _, hmem⟩ := hf.keys s hs
  exact ⟨ks, s', t, hk, (hmem k).2 (by rw [h]; rfl)⟩

end Faithful

theorem bulkSet_eq_issueAll {σ : Type} (eng : FUSE σ) (hnone : eng.driver.bulkSet = none)
    (props : Props) :
    eng.bulkSet (.obj props)
      = issueAll eng ((ownKeys props).map
          (fun k => Call.set k ((lookupOwn props k).getD .undefined))) := by
  have hloop : ∀ ks : List String, FUSE.bulkSetLoop eng (.obj props) ks
      = issueAll eng (ks.map (fun k => Call.set k ((lookupOwn props k).getD .undefined))) := by
    intro ks
    induction ks with
    | nil => rfl
    | cons k rest ih =>
      simp only [FUSE.bulkSetLoop, List.map_cons, issueAll, Call.issue, ih]
      rfl
  funext s
  simp only [FUSE.bulkSet, hnone, FUSE.objectKeys]
  have hp : (Js.pure (ownKeys (Value.obj props).enumerableOwn) : Js σ (List String)) s
      = (.ok (ownKeys props), s, []) := rfl
  rw [Js.bind_ok hp, hloop]
  simp

theorem lookupOwn_assignOwn_ne (ps : Props) (k k' : String) (v : Value) (h : k' ≠ k) :
    lookupOwn (assignOwn ps k v) k' = lookupOwn ps k' := by
  induction ps with
  | nil =>
    have h' : ¬ k = k' := fun e => h e.symm
    simp [assignOwn, lookupOwn, h']
  | cons p rest ih =>
    obtain ⟨k0, w⟩ := p
    by_cases hk : k0 = k
    · subst hk
      have h' : ¬ k0 = k' := fun e => h e.symm
      simp [assignOwn, lookupOwn, h']
    · rw [assignOwn, if_neg hk]
      by_cases hk' : k0 = k'
      · simp [lookupOwn, hk']
      · simp [lookupOwn, hk', ih]

/-- An engine without middleware over the methods of the default driver behaves as a mapping
on the stores that have no prototype. -/
theorem faithful_of_default_methods (eng : FUSE InMemoryDriver) (hm : eng.middleware = [])
    (hget : eng.driver.get = InMemoryDriver.get) (hset : eng.driver.set = InMemoryDriver.set)
    (hkeys : eng.driver.keys = InMemoryDriver.keys)
    (hclear : eng.driver.clear = InMemoryDriver.clear) :
    Faithful eng InMemoryDriver.Bare InMemoryDriver.view where
  get := by
    rintro k s ⟨ps, rfl⟩
    refine ⟨⟨.object .null ps⟩, _, FUSE.get_nil eng hm k _ _ _ ?_, ⟨ps, rfl⟩, fun _ => rfl⟩
    rw [hget]
    cases h : lookupOwn ps k <;> simp [InMemoryDriver.get, InMemoryDriver.view, h]
  set := by
    rintro k v s ⟨ps, rfl⟩
    refine ⟨⟨.object .null (assignOwn ps k v)⟩, _, FUSE.set_nil eng hm k v _ _ .undefined ?_,
      ⟨_, rfl⟩, ?_, ?_⟩
    · rw [hset]
      by_cases h : hasOwn ps k = true <;> simp [InMemoryDriver.set, h]
    · simp [InMemoryDriver.view, lookupOwn_assignOwn]
    · intro k' hk'
      simp [InMemoryDriver.view, lookupOwn_assignOwn_ne ps k k' v hk']
  keys := by
    rintro s ⟨ps, rfl⟩
    refine ⟨ownKeys ps, ⟨.object .null ps⟩,
      [⟨.driver .keys, [], .ok (.arr ((ownKeys ps).map Value.str))⟩], ?_, ⟨ps, rfl⟩,
      fun _ => rfl, ?_⟩
    · simp [Js.run, FUSE.keys, hkeys, InMemoryDriver.keys, Js.tryCatch, Js.callWith]
    · intro k
      simp only [InMemoryDriver.view]
      exact mem_ownKeys_iff ps k
  clear := by
    rintro s ⟨ps, rfl⟩
    refine ⟨.undefined, ⟨.object .null []⟩, [⟨.driver .clear, [], .ok .undefined⟩], ?_,
      ⟨[], rfl⟩, fun _ => rfl⟩
    simp [Js.run, FUSE.clear, hclear, InMemoryDriver.clear, Js.tryCatch, Js.call, Js.callWith]

theorem clobbering_get_after_set (k : String) (v : Value) :
    (((FUSE.mk plainDriver [clobbering] quietEmit).get k).run
      (((FUSE.mk plainDriver [clobbering] quietEmit).set k v).run InMemoryDriver.new).2.1).1
      = .ok v := by
  by_cases hk : k = "last"
  · subst hk
    simp [Js.run, FUSE.get, FUSE.set, FUSE.getBody, FUSE.setBody, FUSE.getBefore,
      FUSE.getAfter, FUSE.setBefore, FUSE.setAfter, clobbering, plainDriver, Js.tryCatch,
      Js.bind, Js.pure, Js.call, Js.callWith, InMemoryDriver.set, InMemoryDriver.get,
      InMemoryDriver.new, hasOwn, assignOwn, lookupOwn]
  · have hk' : ¬ "last" = k := fun h => hk h.symm
    simp [Js.run, FUSE.get, FUSE.set, FUSE.getBody, FUSE.setBody, FUSE.getBefore,
      FUSE.getAfter, FUSE.setBefore, FUSE.setAfter, clobbering, plainDriver, Js.tryCatch,
      Js.bind, Js.pure, Js.call, Js.callWith, InMemoryDriver.set, InMemoryDriver.get,
      InMemoryDriver.new, hasOwn, assignOwn, lookupOwn, hk, hk']

theorem unshift_upshift (v : Value) : unshift (upshift v) = v := by
  cases v <;> simp [unshift, upshift]

/-- Under the middleware that adds one on the way in and subtracts one on the way out, the
engine over the default driver's methods behaves as a mapping. -/
theorem faithful_of_shifting :
    Faithful (FUSE.mk plainDriver [shifting] quietEmit) InMemoryDriver.Bare shiftedView where
  get := by
    rintro k s ⟨ps, rfl⟩
    refine ⟨⟨.object .null ps⟩,
      [⟨.driver .get, [.str k], .ok ((lookupOwn ps k).getD .undefined)⟩,
       ⟨.after 0 .get, [.str k, (lookupOwn ps k).getD .undefined],
        .ok (unshift ((lookupOwn ps k).getD .undefined))⟩], ?_, ⟨ps, rfl⟩, fun _ => rfl⟩
    cases h : lookupOwn ps k with
    | none =>
      simp [Js.run, FUSE.get, FUSE.getBody, FUSE.getBefore, FUSE.getAfter, shifting, plainDriver,
        Js.tryCatch, Js.bind, Js.pure, Js.call, Js.callWith, InMemoryDriver.get, h, shiftedView,
        InMemoryDriver.view, unshift]
    | some w =>
      cases w <;>
        simp [Js.run, FUSE.get, FUSE.getBody, FUSE.getBefore, FUSE.getAfter, shifting,
          plainDriver, Js.tryCatch, Js.bind, Js.pure, Js.call, Js.callWith, InMemoryDriver.get, h,
          shiftedView, InMemoryDriver.view, unshift]
  set := by
    rintro k v s ⟨ps, rfl⟩
    refine ⟨⟨.object .null (assignOwn ps k (upshift v))⟩,
      [⟨.before 0 .set, [.str k, v], .ok (upshift v)⟩,
       ⟨.driver .set, [.str k, upshift v], .ok .undefined⟩], ?_, ⟨_, rfl⟩, ?_, ?_⟩
    · by_cases h : hasOwn ps k = true <;> cases v <;>
        simp [Js.run, FUSE.set, FUSE.setBody, FUSE.setBefore, FUSE.setAfter, shifting,
          plainDriver, Js.tryCatch, Js.bind, Js.pure, Js.call, Js.callWith, InMemoryDriver.set, h,
          Value.isDefined, upshift]
    · simp only [shiftedView, InMemoryDriver.view, lookupOwn_assignOwn, Option.map_some',
        unshift_upshift]
    · intro k' hk'
      simp [shiftedView, InMemoryDriver.view, lookupOwn_assignOwn_ne ps k k' _ hk']
  keys := by
    rintro s ⟨ps, rfl⟩
    refine ⟨ownKeys ps, ⟨.object .null ps⟩,
      [⟨.driver .keys, [], .ok (.arr ((ownKeys ps).map Value.str))⟩], ?_, ⟨ps, rfl⟩,
      fun _ => rfl, ?_⟩
    · simp [Js.run, FUSE.keys, plainDriver, InMemoryDriver.keys, Js.tryCatch, Js.callWith]
    · intro k
      simp only [shiftedView, InMemoryDriver.view, Option.isSome_map']
      exact mem_ownKeys_iff ps k
  clear := by
    rintro s ⟨ps, rfl⟩
    refine ⟨.undefined, ⟨.object .null []⟩, [⟨.driver .clear, [], .ok .undefined⟩], ?_,
      ⟨[], rfl⟩, fun _ => rfl⟩
    simp [Js.run, FUSE.clear, plainDriver, InMemoryDriver.clear, Js.tryCatch, Js.call,
      Js.callWith]

/-! ## Bulk writes -/

/-- C15, amended. For an engine whose driver has no native `bulkSet` and which behaves as a
mapping from keys to values (`set(k, v)` returns, makes `get(k)` return `v` and leaves every
other key as it was; `get` and `keys()` return and change nothing; `keys()` lists the keys that
hold a value): `bulkSet(m)` is the sequence of calls `set(k, m[k])`, one for each key of `m` in
the order of `Object.keys`; it returns, and afterwards `get(k)` returns `m[k]` and `keys()`
contains `k`, for every key `k` of `m`. -/
theorem bulkSet_fallback_stores_entries {σ : Type} (eng : FUSE σ) (Inv : σ → Prop)
    (view : σ → String → Option Value) (hnone : eng.driver.bulkSet = none)
    (hf : Faithful eng Inv view) (props : Props) (s : σ) (hs : Inv s) :
    eng.bulkSet (.obj props)
      = issueAll eng ((ownKeys props).map
          (fun k => Call.set k ((lookupOwn props k).getD .undefined))) ∧
    ∃ s' t, (eng.bulkSet (.obj props)).run s = (.ok .undefined, s', t) ∧
      ∀ k v, lookupOwn props k = some v →
        (∃ s2 t2, (eng.get k).run s' = (.ok v, s2, t2)) ∧
        (∃ ks s2 t2, eng.keys.run s' = (.ok ks, s2, t2) ∧ k ∈ ks) := by
  refine ⟨bulkSet_eq_issueAll eng hnone props, ?_⟩
  obtain ⟨s', t, h, hs', hview⟩ := hf.bulkSetLoop_spec (.obj props) (ownKeys props) s hs
  refine ⟨s', t, ?_, ?_⟩
  · simp only [Js.run] at h ⊢
    simp only [FUSE.bulkSet, hnone, FUSE.objectKeys]
    have hp : (Js.pure (ownKeys (Value.obj props).enumerableOwn) : Js σ (List String)) s
        = (.ok (ownKeys props), s, []) := rfl
    rw [Js.bind_ok hp, h]
    rfl
  · intro k v hkv
    have hmem : k ∈ ownKeys props := by
      rw [mem_ownKeys_iff, hkv]; rfl
    have hv : view s' k = some v := by
      rw [hview k]
      simp [hmem, Value.enumerableOwn, hkv]
    exact ⟨hf.get_of_view hs' hv, hf.keys_of_view hs' hv⟩

/-- Counterexample to C15. Under the middleware that adds one to a number on its way in and
subtracts one on its way out, `get(k)` returns `v` after `set(k, v)` for every `k` and `v`. On
a driver with a native `bulkSet`, `bulkSet` of the mapping that gives `a` the value `1` makes
one call, the one to the driver, which receives the mapping as it is; `get('a')` then returns
`0`, not `1`. Apart from that, on a driver without `bulkSet`: under the middleware that answers
every `get` with the value last set, `get(k)` returns `v` after `set(k, v)` for every `k` and
`v` as well, and after `bulkSet({a: 1, b: 2})` the call `get('a')` returns `2`. -/
theorem bulkSet_native_bypasses_hooks :
    (∀ k v, (((FUSE.mk batchingDriver [shifting] quietEmit).get k).run
        (((FUSE.mk batchingDriver [shifting] quietEmit).set k v).run InMemoryDriver.new).2.1).1
      = .ok v) ∧
    ((FUSE.mk batchingDriver [shifting] quietEmit).bulkSet (.obj [("a", .num 1)])).run
        InMemoryDriver.new
      = (.ok .undefined, ⟨.object .null [("a", .num 1)]⟩,
          [⟨.driver .bulkSet, [.obj [("a", .num 1)]], .ok .undefined⟩]) ∧
    (((FUSE.mk batchingDriver [shifting] quietEmit).get "a").run
        ⟨.object .null [("a", .num 1)]⟩).1 = .ok (.num 0) ∧
    (∀ k v, (((FUSE.mk plainDriver [clobbering] quietEmit).get k).run
        (((FUSE.mk plainDriver [clobbering] quietEmit).set k v).run InMemoryDriver.new).2.1).1
      = .ok v) ∧
    (((FUSE.mk plainDriver [clobbering] quietEmit).bulkSet
        (.obj [("a", .num 1), ("b", .num 2)])).run InMemoryDriver.new).1 = .ok .undefined ∧
    (((FUSE.mk plainDriver [clobbering] quietEmit).get "a").run
      (((FUSE.mk plainDriver [clobbering] quietEmit).bulkSet
        (.obj [("a", .num 1), ("b", .num 2)])).run InMemoryDriver.new).2.1).1
      = .ok (.num 2) := by
  refine ⟨?_, rfl, rfl, clobbering_get_after_set, rfl, rfl⟩
  intro k v
  cases v <;>
    simp [Js.run, FUSE.get, FUSE.set, FUSE.getBody, FUSE.setBody, FUSE.getBefore,
      FUSE.getAfter, FUSE.setBefore, FUSE.setAfter, shifting, batchingDriver, Js.tryCatch,
      Js.bind, Js.pure, Js.call, Js.callWith, InMemoryDriver.set, InMemoryDriver.get,
      InMemoryDriver.new, hasOwn, assignOwn, lookupOwn, Value.isDefined]

/-- Witness of C15 as amended, on the default engine: `bulkSet` of a mapping with the keys `b`
and `2` sets `2` first, and both values can be read afterwards. -/
theorem bulkSet_fallback_stores_entries_witness :
    (FUSE.inMemory [] quietEmit).bulkSet (.obj [("b", .num 1), ("2", .str "x")])
      = issueAll (FUSE.inMemory [] quietEmit)
          ((ownKeys [("b", .num 1), ("2", .str "x")]).map
            (fun k => Call.set k
              ((lookupOwn [("b", .num 1), ("2", .str "x")] k).getD .undefined))) ∧
    ∃ s' t, ((FUSE.inMemory [] quietEmit).bulkSet (.obj [("b", .num 1), ("2", .str "x")])).run
        InMemoryDriver.new = (.ok .undefined, s', t) ∧
      ∀ k v, lookupOwn [("b", .num 1), ("2", .str "x")] k = some v →
        (∃ s2 t2, ((FUSE.inMemory [] quietEmit).get k).run s' = (.ok v, s2, t2)) ∧
        (∃ ks s2 t2, (FUSE.inMemory [] quietEmit).keys.run s' = (.ok ks, s2, t2) ∧ k ∈ ks) :=
  bulkSet_fallback_stores_entries (FUSE.inMemory [] quietEmit) InMemoryDriver.Bare
    InMemoryDriver.view rfl
    (faithful_of_default_methods (FUSE.inMemory [] quietEmit) rfl rfl rfl rfl rfl)
    [("b", .num 1), ("2", .str "x")] InMemoryDriver.new ⟨[], rfl⟩

/-! ## Snapshots -/

theorem jsonCloneProps_eq_self (ps : Props) (h : ∀ p ∈ ps, p.2.jsonClone = some p.2) :
    jsonCloneProps ps = ps := by
  induction ps with
  | nil => rfl
  | cons p rest ih =>
    obtain ⟨k, v⟩ := p
    have hv : v.jsonClone = some v := h (k, v) (by simp)
    simp only [jsonCloneProps, hv]
    rw [ih (fun q hq => h q (List.mem_cons_of_mem _ hq))]

theorem lookupOwn_filterMap_keys (ps : Props) (k : String) (ks : List String) :
    lookupOwn (ks.filterMap (fun x => (lookupOwn ps x).map (fun v => (x, v)))) k
      = if k ∈ ks then lookupOwn ps k else none := by
  induction ks with
  | nil => simp [lookupOwn]
  | cons x rest ih =>
    cases hx : lookupOwn ps x with
    | none =>
      simp only [List.filterMap_cons, hx, Option.map_none', ih, List.mem_cons]
      by_cases hk : k = x
      · subst hk; simp [hx]
      · simp [hk]
    | some v =>
      simp only [List.filterMap_cons, hx, Option.map_some', lookupOwn, ih, List.mem_cons]
      by_cases hk : x = k
      · subst hk; simp [hx]
      · have hk' : ¬ k = x := fun e => hk e.symm
        simp [hk, hk']

theorem lookupOwn_orderProps (ps : Props) (k : String) :
    lookupOwn (orderProps ps) k = lookupOwn ps k := by
  rw [orderProps, lookupOwn_filterMap_keys]
  by_cases hk : k ∈ ownKeys ps
  · simp [hk]
  · rw [if_neg hk]
    rw [mem_ownKeys_iff] at hk
    cases h : lookupOwn ps k with
    | none => rfl
    | some v => rw [h] at hk; simp at hk

theorem mem_ownKeys_orderProps (ps : Props) (k : String) :
    k ∈ ownKeys (orderProps ps) ↔ k ∈ ownKeys ps := by
  rw [mem_ownKeys_iff, mem_ownKeys_iff, lookupOwn_orderProps]

/-- The part of the snapshot round trip that holds. On the default engine without middleware,
from a store whose values are JSON-serializable (serialization gives them back as they are):
`exportSnapshot()` returns a snapshot and leaves the store alone, `clear()` empties it, and
`importSnapshot` of that snapshot returns; afterwards `keys()` lists the keys it listed before
and `get(k)` returns for every stored key the value it returned before. -/
theorem inMemory_snapshot_round_trip (emit : String → Value → Eff InMemoryDriver Value)
    (proto : Value) (ps : Props) (hser : ∀ p ∈ ps, p.2.jsonClone = some p.2) :
    ∃ snap t1 t2 t3 s3 ks ks3,
      (FUSE.inMemory [] emit).exportSnapshot.run ⟨.object proto ps⟩
        = (.ok snap, ⟨.object proto ps⟩, t1) ∧
      (FUSE.inMemory [] emit).clear.run ⟨.object proto ps⟩
        = (.ok .undefined, InMemoryDriver.new, t2) ∧
      ((FUSE.inMemory [] emit).importSnapshot snap).run InMemoryDriver.new
        = (.ok .undefined, s3, t3) ∧
      ((FUSE.inMemory [] emit).keys.run ⟨.object proto ps⟩).1 = .ok ks ∧
      ((FUSE.inMemory [] emit).keys.run s3).1 = .ok ks3 ∧
      (∀ k, k ∈ ks3 ↔ k ∈ ks) ∧
      ∀ k ∈ ks, ∃ v, (((FUSE.inMemory [] emit).get k).run ⟨.object proto ps⟩).1 = .ok v ∧
        (((FUSE.inMemory [] emit).get k).run s3).1 = .ok v := by
  have hclone := jsonCloneProps_eq_self ps hser
  refine ⟨Snapshot.ofProps ps, [⟨.driver .exportSnapshot, [], .ok (.str (Snapshot.ofProps ps).text)⟩],
    [⟨.driver .clear, [], .ok .undefined⟩],
    [⟨.driver .importSnapshot, [.str (Snapshot.ofProps ps).text], .ok .undefined⟩],
    ⟨.object (.native "Object.prototype") (orderProps ps)⟩, ownKeys ps,
    ownKeys (orderProps ps), ?_, ?_, ?_, ?_, ?_, ?_, ?_⟩
  · simp [Js.run, FUSE.exportSnapshot, FUSE.inMemory, InMemoryDriver.driver,
      InMemoryDriver.exportSnapshot, Js.callWith]
  · simp [Js.run, FUSE.clear, FUSE.inMemory, InMemoryDriver.driver, InMemoryDriver.clear,
      InMemoryDriver.new, Js.tryCatch, Js.call, Js.callWith]
  · simp [Js.run, FUSE.importSnapshot, FUSE.inMemory, InMemoryDriver.driver,
      InMemoryDriver.importSnapshot, Snapshot.ofProps, hclone, Js.call, Js.callWith]
  · simp [Js.run, FUSE.keys, FUSE.inMemory, InMemoryDriver.driver, InMemoryDriver.keys,
      Js.tryCatch, Js.callWith]
  · simp [Js.run, FUSE.keys, FUSE.inMemory, InMemoryDriver.driver, InMemoryDriver.keys,
      Js.tryCatch, Js.callWith]
  · exact mem_ownKeys_orderProps ps
  · intro k hk
    rw [mem_ownKeys_iff] at hk
    cases hv : lookupOwn ps k with
    | none => rw [hv] at hk; simp at hk
    | some v =>
      refine ⟨v, ?_, ?_⟩
      · rw [FUSE.get_nil (FUSE.inMemory [] emit) rfl k ⟨.object proto ps⟩ ⟨.object proto ps⟩ v
          (by simp [FUSE.inMemory, InMemoryDriver.driver, InMemoryDriver.get, hv])]
      · rw [FUSE.get_nil (FUSE.inMemory [] emit) rfl k
          ⟨.object (.native "Object.prototype") (orderProps ps)⟩
          ⟨.object (.native "Object.prototype") (orderProps ps)⟩ v
          (by simp [FUSE.inMemory, InMemoryDriver.driver, InMemoryDriver.get,
            lookupOwn_orderProps, hv])]

/-- The round trip of the stored keys on a store with a string, a number and a nested
object. -/
theorem inMemory_snapshot_round_trip_of_sample :
    ∃ snap t1 t2 t3 s3 ks ks3,
      (FUSE.inMemory [] quietEmit).exportSnapshot.run
          ⟨.object .null [("foo", .str "bar"), ("10", .num 1), ("o", .obj [("a", .null)])]⟩
        = (.ok snap,
            ⟨.object .null [("foo", .str "bar"), ("10", .num 1), ("o", .obj [("a", .null)])]⟩,
            t1) ∧
      (FUSE.inMemory [] quietEmit).clear.run
          ⟨.object .null [("foo", .str "bar"), ("10", .num 1), ("o", .obj [("a", .null)])]⟩
        = (.ok .undefined, InMemoryDriver.new, t2) ∧
      ((FUSE.inMemory [] quietEmit).importSnapshot snap).run InMemoryDriver.new
        = (.ok .undefined, s3, t3) ∧
      ((FUSE.inMemory [] quietEmit).keys.run
          ⟨.object .null [("foo", .str "bar"), ("10", .num 1),
            ("o", .obj [("a", .null)])]⟩).1 = .ok ks ∧
      ((FUSE.inMemory [] quietEmit).keys.run s3).1 = .ok ks3 ∧
      (∀ k, k ∈ ks3 ↔ k ∈ ks) ∧
      ∀ k ∈ ks, ∃ v, (((FUSE.inMemory [] quietEmit).get k).run
          ⟨.object .null [("foo", .str "bar"), ("10", .num 1),
            ("o", .obj [("a", .null)])]⟩).1 = .ok v ∧
        (((FUSE.inMemory [] quietEmit).get k).run s3).1 = .ok v :=
  inMemory_snapshot_round_trip quietEmit .null
    [("foo", .str "bar"), ("10", .num 1), ("o", .obj [("a", .null)])]
    (by
      intro p hp
      simp only [List.mem_cons, List.mem_singleton, List.not_mem_nil, or_false] at hp
      rcases hp with rfl | rfl | rfl <;> rfl)

/-- C19. On the default engine without middleware, over the store with `1`, `2`, `3` under `a`,
`b`, `c`: `exportSnapshot()`, `clear()` and `importSnapshot` of the snapshot all return, and
`keys()` lists `a`, `b`, `c` as before and `get('a')` returns `1` as before. But
`get('toString')`, which returned `undefined` before the round trip, returns a built-in
function after it: the imported store inherits from `Object.prototype`. -/
theorem inMemory_round_trip_changes_unstored_key :
    (defaultEngine.exportSnapshot.run storeABC)
      = (.ok (Snapshot.ofProps [("a", .num 1), ("b", .num 2), ("c", .num 3)]), storeABC,
          [⟨.driver .exportSnapshot, [],
            .ok (.str (Snapshot.ofProps [("a", .num 1), ("b", .num 2), ("c", .num 3)]).text)⟩])
    ∧ (defaultEngine.clear.run storeABC).1 = .ok .undefined
    ∧ (defaultEngine.clear.run storeABC).2.1 = InMemoryDriver.new
    ∧ ((defaultEngine.importSnapshot
          (Snapshot.ofProps [("a", .num 1), ("b", .num 2), ("c", .num 3)])).run
        InMemoryDriver.new).1 = .ok .undefined
    ∧ (defaultEngine.keys.run storeABC).1 = .ok ["a", "b", "c"]
    ∧ (defaultEngine.keys.run
        ((defaultEngine.importSnapshot
          (Snapshot.ofProps [("a", .num 1), ("b", .num 2), ("c", .num 3)])).run
          InMemoryDriver.new).2.1).1 = .ok ["a", "b", "c"]
    ∧ ((defaultEngine.get "a").run
        ((defaultEngine.importSnapshot
          (Snapshot.ofProps [("a", .num 1), ("b", .num 2), ("c", .num 3)])).run
          InMemoryDriver.new).2.1).1 = .ok (.num 1)
    ∧ ((defaultEngine.get "toString").run storeABC).1 = .ok .undefined
    ∧ ((defaultEngine.get "toString").run
        ((defaultEngine.importSnapshot
          (Snapshot.ofProps [("a", .num 1), ("b", .num 2), ("c", .num 3)])).run
          InMemoryDriver.new).2.1).1 = .ok (.native "Object.prototype.toString") :=
  ⟨rfl, rfl, rfl, rfl, rfl, rfl, rfl, rfl, rfl⟩

theorem PlainObject.assign_of_ne (props : Props) (k : String) (v : Value)
    (hk : k ≠ "__proto__") :
    (PlainObject.mk (.native "Object.prototype") props).assign k v
      = ⟨.native "Object.prototype", assignOwn props k v⟩ := by
  by_cases h : hasOwn props k = true
  · simp [PlainObject.assign, h]
  · simp [PlainObject.assign, h, hk]

theorem lookupOwn_foldl_assignOwn (g : String → Value) (k : String) (ks : List String) :
    ∀ ps, lookupOwn (ks.foldl (fun acc x => assignOwn acc x (g x)) ps) k
      = if k ∈ ks then some (g k) else lookupOwn ps k := by
  induction ks with
  | nil => intro ps; simp
  | cons x rest ih =>
    intro ps
    rw [List.foldl_cons, ih]
    by_cases hr : k ∈ rest
    · simp [hr]
    · by_cases hk : k = x
      · subst hk
        simp [hr, lookupOwn_assignOwn]
      · simp [hr, hk, lookupOwn_assignOwn_ne ps x k (g x) hk]

theorem mem_assignOwn (ps : Props) (k : String) (v : Value) (p : String × Value)
    (h : p ∈ assignOwn ps k v) : p ∈ ps ∨ p = (k, v) := by
  induction ps with
  | nil => right; simpa [assignOwn] using h
  | cons q rest ih =>
    obtain ⟨k0, w⟩ := q
    by_cases hk : k0 = k
    · subst hk
      simp only [assignOwn, if_true, List.mem_cons] at h
      rcases h with h | h
      · exact Or.inr h
      · exact Or.inl (List.mem_cons_of_mem _ h)
    · rw [assignOwn, if_neg hk] at h
      rcases List.mem_cons.1 h with h | h
      · exact Or.inl (by rw [h]; simp)
      · rcases ih h with h | h
        · exact Or.inl (List.mem_cons_of_mem _ h)
        · exact Or.inr h

theorem mem_foldl_assignOwn (g : String → Value) (p : String × Value) (ks : List String) :
    ∀ ps, p ∈ ks.foldl (fun acc x => assignOwn acc x (g x)) ps →
      p ∈ ps ∨ ∃ k ∈ ks, p = (k, g k) := by
  induction ks with
  | nil => intro ps h; exact Or.inl h
  | cons x rest ih =>
    intro ps h
    rw [List.foldl_cons] at h
    rcases ih _ h with h | ⟨k, hk, hp⟩
    · rcases mem_assignOwn ps x (g x) p h with h | h
      · exact Or.inl h
      · exact Or.inr ⟨x, by simp, h⟩
    · exact Or.inr ⟨k, List.mem_cons_of_mem _ hk, hp⟩

namespace Faithful

variable {σ : Type} {eng : FUSE σ} {Inv : σ → Prop} {view : σ → String → Option Value}

/-- The fallback loop of `exportSnapshot` copies what `get` returns for each key into the
object it builds, as long as no key is `__proto__`. -/
theorem exportLoop_spec (hf : Faithful eng Inv view) (ks : List String)
    (hks : "__proto__" ∉ ks) :
    ∀ (props : Props) (s : σ), Inv s →
      ∃ s' t, (FUSE.exportLoop eng ks ⟨.native "Object.prototype", props⟩).run s
          = (.ok ⟨.native "Object.prototype",
              ks.foldl (fun acc x => assignOwn acc x ((view s x).getD .undefined)) props⟩,
              s', t) ∧
        Inv s' ∧ ∀ k, view s' k = view s k := by
  induction ks with
  | nil => intro props s hs; exact ⟨s, [], rfl, hs, fun _ => rfl⟩
  | cons x rest ih =>
    intro props s hs
    have hx : x ≠ "__proto__" := fun e => hks (by simp [e])
    have hrest : "__proto__" ∉ rest := fun h => hks (List.mem_cons_of_mem _ h)
    obtain ⟨s1, t1, h1, hs1, hv1⟩ := hf.get x s hs
    obtain ⟨s2, t2, h2, hs2, hv2⟩ :=
      ih hrest (assignOwn props x ((view s x).getD .undefined)) s1 hs1
    refine ⟨s2, t1 ++ t2, ?_, hs2, fun k => (hv2 k).trans (hv1 k)⟩
    simp only [Js.run] at h1 h2 ⊢
    simp only [FUSE.exportLoop]
    rw [Js.bind_ok h1, PlainObject.assign_of_ne props x _ hx, h2]
    have hfun : (fun acc x => assignOwn acc x ((view s1 x).getD Value.undefined))
        = (fun acc x => assignOwn acc x ((view s x).getD Value.undefined)) := by
      funext acc y
      rw [hv1 y]
    rw [hfun]
    rfl

theorem result_get (hf : Faithful eng Inv view) {s : σ} (hs : Inv s) (k : String) :
    ((eng.get k).run s).1 = .ok ((view s k).getD .undefined) := by
  obtain ⟨s', t, hg, _, _⟩ := hf.get k s hs
  rw [hg]

end Faithful

/-- C20, amended. For an engine whose driver has neither `exportSnapshot` nor
`importSnapshot` and which behaves as a mapping from keys to values (`set(k, v)` returns, makes
`get(k)` return `v` and leaves every other key as it was; `get` and `keys()` return and change
nothing; `keys()` lists the keys that hold a value; `clear()` leaves no key), `bulkSet`
included (`bulkSet(m)` returns, makes every key of `m` hold `m[k]` and leaves every other key
as it was), from a store whose values are JSON-serializable and in which the key `__proto__` is
not stored: the synthesized `exportSnapshot()`, then `clear()`, then `importSnapshot` of the
snapshot all return, and afterwards `keys()` lists the same keys and `get(k)` returns the same
value as before, for every key. -/
theorem synthesized_snapshot_round_trip {σ : Type} (eng : FUSE σ) (Inv : σ → Prop)
    (view : σ → String → Option Value)
    (hexp : eng.driver.exportSnapshot = none) (himp : eng.driver.importSnapshot = none)
    (hf : Faithful eng Inv view) (hb : StoresBulk eng Inv view) (s : σ) (hs : Inv s)
    (hser : ∀ k v, view s k = some v → v.jsonClone = some v)
    (hproto : view s "__proto__" = none) :
    ∃ snap s1 t1 u s2 t2 w s3 t3 ks ks3,
      eng.exportSnapshot.run s = (.ok snap, s1, t1) ∧
      eng.clear.run s1 = (.ok u, s2, t2) ∧
      (eng.importSnapshot snap).run s2 = (.ok w, s3, t3) ∧
      (eng.keys.run s).1 = .ok ks ∧ (eng.keys.run s3).1 = .ok ks3 ∧
      (∀ k, k ∈ ks3 ↔ k ∈ ks) ∧
      ∀ k, ((eng.get k).run s3).1 = ((eng.get k).run s).1 := by
  -- the export
  obtain ⟨ks, sk, tk, hkeys, hsk, hvk, hmem⟩ := hf.keys s hs
  have hnot : "__proto__" ∉ ks := by
    intro h
    have := (hmem _).1 h
    rw [hproto] at this
    simp at this
  obtain ⟨s1, tl, hloop, hs1, hv1⟩ := hf.exportLoop_spec ks hnot [] sk hsk
  have hfun : (fun acc x => assignOwn acc x ((view sk x).getD Value.undefined))
      = (fun acc x => assignOwn acc x ((view s x).getD Value.undefined)) := by
    funext acc y
    rw [hvk y]
  rw [hfun] at hloop
  have hview1 : ∀ k, view s1 k = view s k := fun k => (hv1 k).trans (hvk k)
  have hexport : eng.exportSnapshot.run s
      = (.ok (Snapshot.ofProps
          (ks.foldl (fun acc x => assignOwn acc x ((view s x).getD .undefined)) [])),
          s1, tk ++ (tl ++ [])) := by
    simp only [Js.run] at hkeys hloop ⊢
    simp only [FUSE.exportSnapshot, hexp, PlainObject.empty]
    rw [Js.bind_ok hkeys, Js.bind_ok hloop]
    rfl
  -- what the snapshot holds
  have hlook : ∀ k, lookupOwn
      (ks.foldl (fun acc x => assignOwn acc x ((view s x).getD .undefined)) []) k
        = view s k := by
    intro k
    rw [lookupOwn_foldl_assignOwn (fun x => (view s x).getD .undefined)]
    by_cases hk : k ∈ ks
    · rw [if_pos hk]
      have := (hmem k).1 hk
      cases hv : view s k with
      | none => rw [hv] at this; simp at this
      | some v => rfl
    · rw [if_neg hk]
      cases hv : view s k with
      | none => rfl
      | some v =>
        exact absurd ((hmem k).2 (by rw [hv]; rfl)) hk
  have hclone : jsonCloneProps
      (ks.foldl (fun acc x => assignOwn acc x ((view s x).getD .undefined)) [])
        = ks.foldl (fun acc x => assignOwn acc x ((view s x).getD .undefined)) [] := by
    apply jsonCloneProps_eq_self
    intro p hp
    rcases mem_foldl_assignOwn (fun x => (view s x).getD .undefined) p ks [] hp with h |
      ⟨k, hk, hpk⟩
    · simp at h
    · have := (hmem k).1 hk
      cases hv : view s k with
      | none => rw [hv] at this; simp at this
      | some v =>
        rw [hpk]
        simp only [hv, Option.getD_some]
        exact hser k v hv
  -- the clear and the import
  obtain ⟨u, s2, t2, hclear, hs2, _⟩ := hf.clear s1 hs1
  obtain ⟨u', s2', t2', hclear', hs2', hv2'⟩ := hf.clear s2 hs2
  obtain ⟨w, s3, t3, hbulk, hs3, hput, hkeep⟩ := hb
    (orderProps (ks.foldl (fun acc x => assignOwn acc x ((view s x).getD .undefined)) []))
    s2' hs2'
  have himport : (eng.importSnapshot (Snapshot.ofProps
      (ks.foldl (fun acc x => assignOwn acc x ((view s x).getD .undefined)) []))).run s2
        = (.ok w, s3, t2' ++ t3) := by
    simp only [Js.run] at hclear' hbulk ⊢
    simp only [FUSE.importSnapshot, himp, Snapshot.ofProps, hclone]
    rw [Js.bind_ok hclear', hbulk]
  have hview3 : ∀ k, view s3 k = view s k := by
    intro k
    cases hv : view s k with
    | none =>
      rw [hkeep k (by rw [lookupOwn_orderProps, hlook, hv]), hv2' k]
    | some v =>
      exact hput k v (by rw [lookupOwn_orderProps, hlook, hv])
  obtain ⟨ks3, sk3, tk3, hkeys3, _, _, hmem3⟩ := hf.keys s3 hs3
  refine ⟨_, s1, _, u, s2, t2, w, s3, _, ks, ks3, hexport, hclear, himport, ?_, ?_, ?_, ?_⟩
  · rw [hkeys]
  · rw [hkeys3]
  · intro k
    rw [hmem3 k, hmem k, hview3 k]
  · intro k
    rw [hf.result_get hs3 k, hf.result_get hs k, hview3 k]

/-- Counterexample to C20. The driver has a native `bulkSet` and no snapshot methods, and the
middleware adds one to a number on its way in and subtracts one on its way out. After
`set('a', 1)` the store holds `2` and `get('a')` returns `1`; the synthesized export writes
`1`; after `clear()` the synthesized import hands the mapping to the driver's `bulkSet`
without the hooks of `set`, so the store holds `1` and `get('a')` returns `0`. Apart from that,
on the driver without `bulkSet` and without middleware, a store whose only key is `__proto__`
is exported as the empty object: the key is gone after the import. -/
theorem synthesized_import_bypasses_hooks :
    (((FUSE.mk batchingDriver [shifting] quietEmit).set "a" (.num 1)).run
        InMemoryDriver.new).2.1 = ⟨.object .null [("a", .num 2)]⟩ ∧
    (((FUSE.mk batchingDriver [shifting] quietEmit).get "a").run
        ⟨.object .null [("a", .num 2)]⟩).1 = .ok (.num 1) ∧
    ((FUSE.mk batchingDriver [shifting] quietEmit).exportSnapshot.run
        ⟨.object .null [("a", .num 2)]⟩).1 = .ok (Snapshot.ofProps [("a", .num 1)]) ∧
    (((FUSE.mk batchingDriver [shifting] quietEmit).importSnapshot
        (Snapshot.ofProps [("a", .num 1)])).run InMemoryDriver.new).1 = .ok .undefined ∧
    (((FUSE.mk batchingDriver [shifting] quietEmit).get "a").run
        (((FUSE.mk batchingDriver [shifting] quietEmit).importSnapshot
          (Snapshot.ofProps [("a", .num 1)])).run InMemoryDriver.new).2.1).1 = .ok (.num 0) ∧
    ((FUSE.mk plainDriver [] quietEmit).keys.run ⟨.object .null [("__proto__", .num 1)]⟩).1
      = .ok ["__proto__"] ∧
    ((FUSE.mk plainDriver [] quietEmit).exportSnapshot.run
        ⟨.object .null [("__proto__", .num 1)]⟩).1 = .ok (Snapshot.ofProps []) ∧
    ((FUSE.mk plainDriver [] quietEmit).keys.run
        (((FUSE.mk plainDriver [] quietEmit).importSnapshot (Snapshot.ofProps [])).run
          InMemoryDriver.new).2.1).1 = .ok [] :=
  ⟨rfl, rfl, rfl, rfl, rfl, rfl, rfl, rfl⟩

/-- Witness of C20 as amended, on the driver without snapshot methods and without `bulkSet`,
under the middleware that adds one to a number on its way in and subtracts one on its way out:
the store holds `2` and `x`, which read as `1` under `a` and `x` under `s`. -/
theorem synthesized_snapshot_round_trip_witness :
    ∃ snap s1 t1 u s2 t2 w s3 t3 ks ks3,
      (FUSE.mk plainDriver [shifting] quietEmit).exportSnapshot.run
          ⟨.object .null [("a", .num 2), ("s", .str "x")]⟩ = (.ok snap, s1, t1) ∧
      (FUSE.mk plainDriver [shifting] quietEmit).clear.run s1 = (.ok u, s2, t2) ∧
      ((FUSE.mk plainDriver [shifting] quietEmit).importSnapshot snap).run s2
        = (.ok w, s3, t3) ∧
      ((FUSE.mk plainDriver [shifting] quietEmit).keys.run
        ⟨.object .null [("a", .num 2), ("s", .str "x")]⟩).1 = .ok ks ∧
      ((FUSE.mk plainDriver [shifting] quietEmit).keys.run s3).1 = .ok ks3 ∧
      (∀ k, k ∈ ks3 ↔ k ∈ ks) ∧
      ∀ k, (((FUSE.mk plainDriver [shifting] quietEmit).get k).run s3).1
        = (((FUSE.mk plainDriver [shifting] quietEmit).get k).run
            ⟨.object .null [("a", .num 2), ("s", .str "x")]⟩).1 :=
  synthesized_snapshot_round_trip (FUSE.mk plainDriver [shifting] quietEmit) InMemoryDriver.Bare
    shiftedView rfl rfl faithful_of_shifting (faithful_of_shifting.storesBulk_of_fallback rfl)
    ⟨.object .null [("a", .num 2), ("s", .str "x")]⟩ ⟨_, rfl⟩
    (by
      intro k v h
      simp only [shiftedView, InMemoryDriver.view, lookupOwn] at h
      split at h
      · simp only [Option.map_some', unshift, Option.some.injEq] at h
        subst h
        rfl
      · split at h
        · simp only [Option.map_some', unshift, Option.some.injEq] at h
          subst h
          rfl
        · simp at h)
    rfl

/-- The round trip of the example under the middleware `shifting`, evaluated: the snapshot
holds `1` and `x`, and after the import the store holds `2` and `x` again. -/
theorem synthesized_snapshot_round_trip_of_sample :
    ((FUSE.mk plainDriver [shifting] quietEmit).exportSnapshot.run
        ⟨.object .null [("a", .num 2), ("s", .str "x")]⟩).1
      = .ok (Snapshot.ofProps [("a", .num 1), ("s", .str "x")]) ∧
    (((FUSE.mk plainDriver [shifting] quietEmit).importSnapshot
        (Snapshot.ofProps [("a", .num 1), ("s", .str "x")])).run InMemoryDriver.new).2.1
      = ⟨.object .null [("a", .num 2), ("s", .str "x")]⟩ :=
  ⟨rfl, rfl⟩

/-! ## The regular expression of `find` -/

theorem isWordUnit_of_isEscaped {u : Nat} (h : isEscaped u = true) : isWordUnit u = false := by
  simp only [isEscaped, isWhiteSpace, Bool.or_eq_true, Bool.and_eq_true, decide_eq_true_eq] at h
  simp only [isWordUnit, Bool.or_eq_false_iff, Bool.and_eq_false_iff, decide_eq_false_iff_not]
  omega

theorem isSyntaxChar_of_not_isEscaped {u : Nat} (h : isEscaped u = false) (h1 : u ≠ 42)
    (h2 : u ≠ 63) : isSyntaxChar u = false := by
  simp only [isEscaped, isWhiteSpace, Bool.or_eq_false_iff, Bool.and_eq_false_iff,
    decide_eq_false_iff_not] at h
  simp only [isSyntaxChar, Bool.or_eq_false_iff, decide_eq_false_iff_not]
  omega

theorem ne_of_isEscaped {u : Nat} (h : isEscaped u = true) : u ≠ 42 ∧ u ≠ 63 := by
  simp only [isEscaped, isWhiteSpace, Bool.or_eq_true, Bool.and_eq_true, decide_eq_true_eq] at h
  omega

/-- What the three replacements of `find` make of one code unit. -/
theorem replacements_cons (u : Nat) (p : List Nat) :
    replaceQuestions (replaceStars (escapeSpecials (u :: p)))
      = (if isEscaped u then [92, u] else if u = 42 then [46, 42] else if u = 63 then [46]
          else [u])
        ++ replaceQuestions (replaceStars (escapeSpecials p)) := by
  by_cases he : isEscaped u = true
  · obtain ⟨h1, h2⟩ := ne_of_isEscaped he
    simp [escapeSpecials, replaceStars, replaceQuestions, he, h1, h2, List.flatMap_append]
  · by_cases h1 : u = 42
    · subst h1
      simp [escapeSpecials, replaceStars, replaceQuestions, he, List.flatMap_append]
    · by_cases h2 : u = 63
      · subst h2
        simp [escapeSpecials, replaceStars, replaceQuestions, he, List.flatMap_append]
      · simp [escapeSpecials, replaceStars, replaceQuestions, he, h1, h2, List.flatMap_append]

theorem parseAtoms_cons (u : Nat) (rest : List Nat) (acc : List Atom) :
    parseAtoms (u :: rest) acc
      = if u = 36 then (if rest.isEmpty then some acc.reverse else none)
        else if u = 92 then
          match rest with
          | [] => none
          | v :: rest' => if isWordUnit v then none else parseAtoms rest' (.lit v :: acc)
        else if u = 46 then parseAtoms rest (.any :: acc)
        else if u = 42 then
          match acc with
          | .any :: acc' => parseAtoms rest (.anyStar :: acc')
          | _ => none
        else if isSyntaxChar u then none
        else parseAtoms rest (.lit u :: acc) := by
  cases rest <;> rfl

theorem parseAtoms_replacements (p : List Nat) :
    ∀ acc, parseAtoms (replaceQuestions (replaceStars (escapeSpecials p)) ++ [36]) acc
      = some (acc.reverse ++ p.map atomOf) := by
  induction p with
  | nil =>
    intro acc
    simp [escapeSpecials, replaceStars, replaceQuestions, parseAtoms]
  | cons u p ih =>
    intro acc
    rw [replacements_cons]
    by_cases he : isEscaped u = true
    · obtain ⟨h1, h2⟩ := ne_of_isEscaped he
      have hw := isWordUnit_of_isEscaped he
      simp [he, parseAtoms, hw, ih, atomOf, h1, h2]
    · have he' : isEscaped u = false := by simpa using he
      by_cases h1 : u = 42
      · subst h1
        simp only [he', Bool.false_eq_true, if_false, if_true, List.cons_append,
          List.nil_append, List.append_assoc]
        rw [parseAtoms_cons, parseAtoms_cons]
        simp [ih, atomOf]
      · by_cases h2 : u = 63
        · subst h2
          simp only [he', Bool.false_eq_true, h1, if_false, if_true, List.cons_append,
            List.nil_append, List.append_assoc]
          rw [parseAtoms_cons]
          simp [ih, atomOf]
        · have hs := isSyntaxChar_of_not_isEscaped he' h1 h2
          have h36 : u ≠ 36 := by
            intro h; rw [h] at he'; simp [isEscaped] at he'
          have h92 : u ≠ 92 := by
            intro h; rw [h] at he'; simp [isEscaped] at he'
          have h46 : u ≠ 46 := by
            intro h; rw [h] at he'; simp [isEscaped] at he'
          simp only [he', Bool.false_eq_true, h1, h2, if_false, List.cons_append,
            List.nil_append, List.append_assoc]
          rw [parseAtoms_cons]
          simp [h36, h92, h46, h1, hs, ih, atomOf, h2]

/-- The regular expression `find` builds is well formed for every pattern: each `*` is a
starred wildcard, each `?` a wildcard, every other code unit a literal. -/
theorem parseRegex_regexSource (p : List Nat) :
    parseRegex (regexSource p) = some (p.map atomOf) := by
  simp [parseRegex, regexSource, parseAtoms_replacements]

theorem matchAtoms_literals (p us : List Nat) :
    matchAtoms (p.map Atom.lit) us = decide (us = p) := by
  induction p generalizing us with
  | nil => cases us <;> simp [matchAtoms]
  | cons c p ih =>
    cases us with
    | nil => simp [matchAtoms]
    | cons u rest =>
      simp only [List.map_cons, matchAtoms, ih]
      by_cases h1 : u = c <;> by_cases h2 : rest = p <;> simp [h1, h2]

/-- For a pattern without `*` and `?`, whatever other characters it holds, the regular
expression is the sequence of its code units as literals, and it matches a key exactly when
the key has the code units of the pattern. -/
theorem regex_of_plain_pattern (p : List Nat) (h1 : 42 ∉ p) (h2 : 63 ∉ p) (us : List Nat) :
    parseRegex (regexSource p) = some (p.map Atom.lit) ∧
    matchAtoms (p.map Atom.lit) us = decide (us = p) := by
  refine ⟨?_, matchAtoms_literals p us⟩
  rw [parseRegex_regexSource]
  congr 1
  apply List.map_congr_left
  intro u hu
  have hu1 : u ≠ 42 := fun h => h1 (h ▸ hu)
  have hu2 : u ≠ 63 := fun h => h2 (h ▸ hu)
  simp [atomOf, hu1, hu2]

/-! ## The `find` operation on the default engine -/

/-- C16. On the default engine, `find('f*')` over the store of the example returns the entries
of `foo` and `fizz`. But over a store that holds `1` under the key made of `a`, a line feed and
`b`, which the glob pattern `a*b` matches in full and which `keys()` lists, `find('a*b')`
returns the empty object: the wildcard of the regular expression does not match a line
terminator. -/
theorem find_star_misses_line_terminator :
    ((defaultEngine.find "f*").run storeFooFizzBar).1
      = .ok ⟨.native "Object.prototype", [("foo", .num 1), ("fizz", .num 2)]⟩ ∧
    globMatches "a*b".toList twoLineKey.toList = true ∧
    (defaultEngine.keys.run storeWithTwoLineKey).1 = .ok [twoLineKey] ∧
    ((defaultEngine.get twoLineKey).run storeWithTwoLineKey).1 = .ok (.num 1) ∧
    ((defaultEngine.find "a*b").run storeWithTwoLineKey).1
      = .ok ⟨.native "Object.prototype", []⟩ :=
  ⟨rfl, rfl, rfl, rfl, rfl⟩

/-- C17. On the default engine over a store that holds `1` under the key `__proto__`, the
pattern `__proto__` has neither `*` nor `?`, the key is stored and `get` returns `1` for it,
yet `find('__proto__')` returns the empty object, not the single entry: the assignment to the
object literal that collects the result reaches the inherited setter, which ignores the
number. -/
theorem find_loses_proto_key :
    (defaultEngine.keys.run storeWithProtoKey).1 = .ok ["__proto__"] ∧
    ((defaultEngine.get "__proto__").run storeWithProtoKey).1 = .ok (.num 1) ∧
    parseRegex (regexSource (codeUnits "__proto__"))
      = some ((codeUnits "__proto__").map Atom.lit) ∧
    ((defaultEngine.find "__proto__").run storeWithProtoKey).1
      = .ok ⟨.native "Object.prototype", []⟩ :=
  ⟨rfl, rfl, rfl, rfl⟩

/-! ## Laws of sequencing -/

namespace Js

variable {σ α β γ : Type}

theorem pure_bind (a : α) (f : α → Js σ β) : Js.bind (Js.pure a) f = f a := by
  funext s
  simp [Js.bind, Js.pure]

theorem bind_pure (x : Js σ α) : Js.bind x Js.pure = x := by
  funext s
  simp only [Js.bind, Js.pure]
  rcases x s with ⟨r, s1, t1⟩
  cases r <;> simp

theorem bind_assoc (x : Js σ α) (f : α → Js σ β) (g : β → Js σ γ) :
    Js.bind (Js.bind x f) g = Js.bind x (fun a => Js.bind (f a) g) := by
  funext s
  simp only [Js.bind]
  rcases x s with ⟨r, s1, t1⟩
  cases r with
  | error e => rfl
  | ok a =>
    simp only
    rcases f a s1 with ⟨r2, s2, t2⟩
    cases r2 with
    | error e => rfl
    | ok b =>
      simp only
      rcases g b s2 with ⟨r3, s3, t3⟩
      simp

theorem tryCatch_bind_ok {x : Js σ α} {f : α → Js σ β} {h : Value → Js σ β} {s s1 : σ} {a : α}
    {t1 : List Event} (hx : x s = (.ok a, s1, t1)) :
    Js.tryCatch (Js.bind x f) h s
      = ((Js.tryCatch (f a) h s1).1, (Js.tryCatch (f a) h s1).2.1,
          t1 ++ (Js.tryCatch (f a) h s1).2.2) := by
  simp only [Js.tryCatch, Js.bind, hx]
  rcases f a s1 with ⟨r2, s2, t2⟩
  cases r2 with
  | ok b => rfl
  | error e => simp

theorem tryCatch_bind_error {x : Js σ α} {f : α → Js σ β} {h : Value → Js σ β} {s s1 : σ}
    {e : Value} {t1 : List Event} (hx : x s = (.error e, s1, t1)) :
    Js.tryCatch (Js.bind x f) h s = ((h e s1).1, (h e s1).2.1, t1 ++ (h e s1).2.2) := by
  simp only [Js.tryCatch, Js.bind, hx]

end Js

/-! ## `get` as a resumable computation -/

namespace FUSE

variable {σ : Type}

theorem handleErrorP_run {α : Type} (eng : FUSE σ) (err : Value) (ms : List (Middleware σ)) :
    ∀ (i : Nat) (s : σ), (handleErrorP eng err i ms : Prog σ α).run s
      = Js.bind (handleErrorLoop err i ms) (fun _ =>
          Js.bind (Js.call (.emit "error") [err] (eng.emit "error" err))
            (fun _ => (Js.throw err : Js σ α))) s := by
  induction ms with
  | nil =>
    intro i s
    rcases hem : eng.emit "error" err s with ⟨r, s1⟩
    cases r <;>
      simp [handleErrorP, Prog.run, handleErrorLoop, Js.bind, Js.pure, Js.call, Js.callWith,
        Js.throw, hem]
  | cons m rest ih =>
    intro i s
    cases hm : m.onError with
    | none =>
      simp only [handleErrorP, handleErrorLoop, hm]
      exact ih (i + 1) s
    | some h =>
      rcases hh : h err s with ⟨r, s1⟩
      have hcall : Js.tryCatch (Js.call (.onError i) [err] (h err))
          (fun _ => Js.pure Value.undefined) s
          = (.ok (match r with | .ok v => v | .error _ => Value.undefined), s1,
              [⟨.onError i, [err], r⟩]) := by
        cases r with
        | ok v => rw [Js.tryCatch_ok (Js.call_ok hh)]
        | error x => rw [Js.tryCatch_error (Js.call_error hh)]; rfl
      simp only [handleErrorP, handleErrorLoop, hm, Prog.run, hh]
      rw [ih (i + 1) s1, Js.bind_assoc, Js.bind_ok hcall]
      rfl

theorem rethrowP_run {α : Type} (eng : FUSE σ) (err : Value) (s : σ) :
    (rethrowP eng err : Prog σ α).run s = (rethrow eng err : Js σ α) s := by
  rw [rethrowP, handleErrorP_run]
  simp only [rethrow, _handleError, Js.bind_assoc, Js.pure_bind]

theorem getAfterP_run (eng : FUSE σ) (key : String) (ms : List (Middleware σ)) :
    ∀ (i : Nat) (v : Value) (s : σ), (getAfterP eng key i ms v).run s
      = Js.tryCatch (getAfter key i ms v) (rethrow eng) s := by
  induction ms with
  | nil => intro i v s; rfl
  | cons m rest ih =>
    intro i v s
    cases hm : m.afterGet with
    | none =>
      simp only [getAfterP, getAfter, hm]
      exact ih (i + 1) v s
    | some h =>
      rcases hh : h key v s with ⟨r, s1⟩
      simp only [getAfterP, getAfter, hm, Prog.run, hh]
      cases r with
      | ok w =>
        simp only
        rw [ih (i + 1) w s1, Js.tryCatch_bind_ok (Js.call_ok hh)]
        rfl
      | error e =>
        simp only
        rw [rethrowP_run, Js.tryCatch_bind_error (Js.call_error hh)]
        rfl

theorem getBeforeP_run (eng : FUSE σ) (key : String) (ms : List (Middleware σ)) :
    ∀ (i : Nat) (s : σ), (getBeforeP eng key i ms).run s
      = Js.tryCatch
          (Js.bind (getBefore eng key i ms) (fun r =>
            match r with
            | some val => Js.pure val
            | none =>
              Js.bind (Js.call (.driver .get) [.str key] (eng.driver.get key)) (fun result =>
                getAfter key 0 eng.middleware result)))
          (rethrow eng) s := by
  induction ms with
  | nil =>
    intro i s
    rcases hd : eng.driver.get key s with ⟨r, s1⟩
    simp only [getBeforeP, getBefore, Prog.run, hd, Js.pure_bind]
    cases r with
    | ok v =>
      simp only
      rw [getAfterP_run, Js.tryCatch_bind_ok (Js.call_ok hd)]
      rfl
    | error e =>
      simp only
      rw [rethrowP_run, Js.tryCatch_bind_error (Js.call_error hd)]
      rfl
  | cons m rest ih =>
    intro i s
    cases hm : m.beforeGet with
    | none =>
      simp only [getBeforeP, getBefore, hm]
      exact ih (i + 1) s
    | some h =>
      rcases hh : h key s with ⟨r, s1⟩
      simp only [getBeforeP, getBefore, hm, Prog.run, hh, Js.bind_assoc]
      cases r with
      | error e =>
        simp only
        rw [rethrowP_run, Js.tryCatch_bind_error (Js.call_error hh)]
        rfl
      | ok o =>
        simp only
        rw [Js.tryCatch_bind_ok (Js.call_ok hh)]
        by_cases ho : o.isDefined = true
        · simp only [ho, if_true, Js.bind_assoc, Js.pure_bind]
          rw [getAfterP_run]
          have hp : Js.bind (getAfter key 0 eng.middleware o) (fun val => Js.pure val)
              = getAfter key 0 eng.middleware o := Js.bind_pure _
          rw [hp]
          rfl
        · simp only [ho, Bool.false_eq_true, if_false]
          rw [ih (i + 1) s1]
          rfl

/-- Run alone, the resumable `get` is the operation `get`. -/
theorem getP_run (eng : FUSE σ) (key : String) (s : σ) :
    (getP eng key).run s = (eng.get key).run s :=
  getBeforeP_run eng key eng.middleware 0 s

end FUSE

/-! ## Functions that run beside each other without changing the state -/

namespace Prog

variable {σ α : Type}

theorem Quiet.mono {s : σ} {v : α} {n : Nat} {p : Prog σ α} (h : Prog.Quiet s v n p) :
    ∀ {m : Nat}, n ≤ m → Prog.Quiet s v m p := by
  induction h with
  | done n => intro m _; exact .done m
  | await hf _ ih =>
    intro m hm
    obtain ⟨m, rfl⟩ : ∃ j, m = j + 1 := ⟨m - 1, by omega⟩
    exact .await hf (ih (by omega))
  | sync hf _ ih => intro m hm; exact .sync hf (ih hm)

theorem Quiet.run {s : σ} {v : α} {n : Nat} {p : Prog σ α} (h : Prog.Quiet s v n p) :
    ∃ t, p.run s = (.ok v, s, t) := by
  induction h with
  | done n => exact ⟨[], rfl⟩
  | await hf _ ih =>
    obtain ⟨t, ht⟩ := ih
    exact ⟨_, by simp only [Prog.run, hf, ht]; rfl⟩
  | sync hf _ ih =>
    obtain ⟨t, ht⟩ := ih
    exact ⟨_, by simp only [Prog.run, hf, ht]; rfl⟩

theorem Quiet.advance {s : σ} {v : α} {n : Nat} {p : Prog σ α} (h : Prog.Quiet s v n p) :
    ∃ task t, p.advance s = (task, s, t) ∧ Task.Quiet s v n task := by
  induction h with
  | done n => exact ⟨_, [], rfl, .settled n⟩
  | await hf hk _ => exact ⟨_, _, by simp only [Prog.advance, hf]; rfl, .waiting hk⟩
  | sync hf _ ih =>
    obtain ⟨task, t, ht, hq⟩ := ih
    exact ⟨task, _, by simp only [Prog.advance, hf, ht]; rfl, hq⟩

end Prog

namespace Task

variable {σ α : Type}

theorem Quiet.resume {s : σ} {v : α} {n : Nat} {task : Task σ α}
    (h : Task.Quiet s v (n + 1) task) :
    ∃ task1 t, task.resume s = (task1, s, t) ∧ Task.Quiet s v n task1 := by
  cases h with
  | settled _ => exact ⟨_, [], rfl, .settled n⟩
  | waiting hk => exact hk.advance

theorem start_quiet {s : σ} {n : Nat} :
    ∀ {ps : List (Prog σ α)} {vs : List α},
      List.Forall₂ (fun p v => Prog.Quiet s v n p) ps vs →
      ∃ tasks t, start ps s = (tasks, s, t)
        ∧ List.Forall₂ (fun task v => Task.Quiet s v n task) tasks vs := by
  intro ps vs h
  induction h with
  | nil => exact ⟨[], [], rfl, .nil⟩
  | cons hp _ ih =>
    obtain ⟨task, t1, h1, hq⟩ := hp.advance
    obtain ⟨tasks, t2, h2, hqs⟩ := ih
    exact ⟨task :: tasks, t1 ++ t2, by simp only [start, h1, h2], .cons hq hqs⟩

theorem turn_quiet {s : σ} {n : Nat} :
    ∀ {tasks : List (Task σ α)} {vs : List α},
      List.Forall₂ (fun task v => Task.Quiet s v (n + 1) task) tasks vs →
      ∃ tasks1 t, turn tasks s = (tasks1, s, t)
        ∧ List.Forall₂ (fun task v => Task.Quiet s v n task) tasks1 vs := by
  intro tasks vs h
  induction h with
  | nil => exact ⟨[], [], rfl, .nil⟩
  | cons hp _ ih =>
    obtain ⟨task, t1, h1, hq⟩ := hp.resume
    obtain ⟨tasks, t2, h2, hqs⟩ := ih
    exact ⟨task :: tasks, t1 ++ t2, by simp only [turn, h1, h2], .cons hq hqs⟩

theorem firstRejected_quiet {s : σ} {n : Nat} :
    ∀ {tasks : List (Task σ α)} {vs : List α},
      List.Forall₂ (fun task v => Task.Quiet s v n task) tasks vs →
      firstRejected tasks = none := by
  intro tasks vs h
  induction h with
  | nil => rfl
  | cons hp _ ih =>
    cases hp with
    | settled _ => simpa only [firstRejected] using ih
    | waiting _ => simpa only [firstRejected] using ih

theorem fulfilled_quiet {s : σ} :
    ∀ {tasks : List (Task σ α)} {vs : List α},
      List.Forall₂ (fun task v => Task.Quiet s v 0 task) tasks vs →
      fulfilled tasks = some vs := by
  intro tasks vs h
  induction h with
  | nil => rfl
  | cons hp _ ih =>
    cases hp with
    | settled _ => simp only [fulfilled, ih, Option.map_some']

theorem turns_quiet {s : σ} :
    ∀ (n : Nat) {tasks : List (Task σ α)} {vs : List α},
      List.Forall₂ (fun task v => Task.Quiet s v n task) tasks vs →
      ∃ tasks1 t, turns n none tasks s = ((none, tasks1), s, t)
        ∧ List.Forall₂ (fun task v => Task.Quiet s v 0 task) tasks1 vs := by
  intro n
  induction n with
  | zero => intro tasks vs h; exact ⟨tasks, [], rfl, h⟩
  | succ n ih =>
    intro tasks vs h
    obtain ⟨tasks1, t1, h1, hq1⟩ := turn_quiet h
    obtain ⟨tasks2, t2, h2, hq2⟩ := ih hq1
    refine ⟨tasks2, t1 ++ t2, ?_, hq2⟩
    simp only [turns, h1, firstRejected_quiet hq1, Option.orElse, h2]

end Task

/-- Functions that settle within `n` suspensions without changing the state: `Promise.all`
yields their values, in the order of the functions. -/
theorem Prog.all_quiet {σ α : Type} {s : σ} {n : Nat} {ps : List (Prog σ α)} {vs : List α}
    (h : List.Forall₂ (fun p v => Prog.Quiet s v n p) ps vs) :
    ∃ t, Prog.all n ps s = (.ok vs, s, t) := by
  obtain ⟨tasks, t1, h1, hq1⟩ := Task.start_quiet h
  obtain ⟨tasks2, t2, h2, hq2⟩ := Task.turns_quiet n hq1
  refine ⟨t1 ++ t2, ?_⟩
  simp only [Prog.all, h1, Task.firstRejected_quiet hq1, h2, Task.fulfilled_quiet hq2]

namespace FUSE

variable {σ : Type}

theorem rethrowP_ne_ok (eng : FUSE σ) (err : Value) (s : σ) (v : Value) :
    ((rethrowP eng err : Prog σ Value).run s).1 ≠ .ok v := by
  rw [rethrowP_run]
  exact rethrow_ne_ok eng err s v

end FUSE

/-! ## The `bulkGet` operation -/

namespace FUSE

variable {σ : Type}

theorem getAfterP_quiet (eng : FUSE σ) (key : String) (s : σ) (v : Value)
    (ms : List (Middleware σ))
    (hafter : ∀ m ∈ ms, ∀ h, m.afterGet = some h → ∀ key val, (h key val s).2 = s) :
    ∀ (i : Nat) (val : Value), ((getAfterP eng key i ms val).run s).1 = .ok v →
      Prog.Quiet s v ms.length (getAfterP eng key i ms val) := by
  induction ms with
  | nil =>
    intro i val hrun
    have hv : val = v := by
      simp only [getAfterP, Prog.run] at hrun
      exact Except.ok.inj hrun
    subst hv
    exact .done 0
  | cons m rest ih =>
    have hrest : ∀ m ∈ rest, ∀ h, m.afterGet = some h → ∀ key val, (h key val s).2 = s :=
      fun m hm => hafter m (List.mem_cons_of_mem _ hm)
    intro i val hrun
    cases hm : m.afterGet with
    | none =>
      simp only [getAfterP, hm] at hrun ⊢
      exact (ih hrest (i + 1) val hrun).mono (Nat.le_succ _)
    | some h =>
      have hs := hafter m (List.mem_cons_self _ _) h hm key val
      rcases hh : h key val s with ⟨r, s1⟩
      rw [hh] at hs
      simp only at hs
      subst hs
      simp only [getAfterP, hm, Prog.run, hh] at hrun ⊢
      cases r with
      | ok w => exact .await hh (ih hrest (i + 1) w hrun)
      | error e => exact absurd hrun (rethrowP_ne_ok eng e _ v)

theorem getBeforeP_quiet (eng : FUSE σ) (key : String) (s : σ) (v : Value)
    (hread : eng.ReadsQuietly s) (ms : List (Middleware σ))
    (hbefore : ∀ m ∈ ms, ∀ h, m.beforeGet = some h → ∀ key, (h key s).2 = s) :
    ∀ (i : Nat), ((getBeforeP eng key i ms).run s).1 = .ok v →
      Prog.Quiet s v (ms.length + (eng.middleware.length + 1)) (getBeforeP eng key i ms) := by
  induction ms with
  | nil =>
    intro i hrun
    have hs := hread.driver key
    rcases hd : eng.driver.get key s with ⟨r, s1⟩
    rw [hd] at hs
    simp only at hs
    subst hs
    simp only [getBeforeP, Prog.run, hd] at hrun ⊢
    cases r with
    | ok w =>
      exact ((Prog.Quiet.await hd
        (getAfterP_quiet eng key _ v eng.middleware hread.after 0 w hrun)).mono (by simp))
    | error e => exact absurd hrun (rethrowP_ne_ok eng e _ v)
  | cons m rest ih =>
    have hrest : ∀ m ∈ rest, ∀ h, m.beforeGet = some h → ∀ key, (h key s).2 = s :=
      fun m hm => hbefore m (List.mem_cons_of_mem _ hm)
    intro i hrun
    cases hm : m.beforeGet with
    | none =>
      simp only [getBeforeP, hm] at hrun ⊢
      exact (ih hrest (i + 1) hrun).mono (by simp)
    | some h =>
      have hs := hbefore m (List.mem_cons_self _ _) h hm key
      rcases hh : h key s with ⟨r, s1⟩
      rw [hh] at hs
      simp only at hs
      subst hs
      simp only [getBeforeP, hm, Prog.run, hh] at hrun ⊢
      cases r with
      | error e => exact absurd hrun (rethrowP_ne_ok eng e _ v)
      | ok o =>
        by_cases ho : o.isDefined = true
        · simp only [ho, if_true] at hrun
          have hq := @Prog.Quiet.await σ Value _ v _ (.before i .get) [.str key] (h key)
            (fun r =>
              match r with
              | .ok override =>
                if override.isDefined then getAfterP eng key 0 eng.middleware override
                else getBeforeP eng key (i + 1) rest
              | .error e => rethrowP eng e) _ hh
            (by
              simp only [ho, if_true]
              exact getAfterP_quiet eng key _ v eng.middleware hread.after 0 o hrun)
          exact hq.mono (by simp only [List.length_cons]; omega)
        · simp only [ho, Bool.false_eq_true, if_false] at hrun
          have hq := @Prog.Quiet.await σ Value _ v _ (.before i .get) [.str key] (h key)
            (fun r =>
              match r with
              | .ok override =>
                if override.isDefined then getAfterP eng key 0 eng.middleware override
                else getBeforeP eng key (i + 1) rest
              | .error e => rethrowP eng e) _ hh
            (by
              simp only [ho, Bool.false_eq_true, if_false]
              exact ih hrest (i + 1) hrun)
          exact hq.mono (by simp only [List.length_cons]; omega)

/-- A `get` that returns `v` when run alone from a state its hooks and driver leave as it is
settles with `v` within one suspension for each hook and one for the driver. -/
theorem getP_quiet (eng : FUSE σ) (key : String) (s : σ) (v : Value)
    (hread : eng.ReadsQuietly s) (hget : ((eng.get key).run s).1 = .ok v) :
    Prog.Quiet s v (2 * eng.middleware.length + 1) (getP eng key) := by
  rw [← getP_run] at hget
  exact (getBeforeP_quiet eng key s v hread eng.middleware hread.before 0 hget).mono (by omega)

theorem bulkGet_of_quiet (eng : FUSE σ) (s : σ) (hread : eng.ReadsQuietly s) :
    ∀ (ks : List String), (∀ k ∈ ks, ∃ v, ((eng.get k).run s).1 = .ok v) →
      ∃ vs, List.Forall₂ (fun k v => ((eng.get k).run s).1 = .ok v) ks vs
        ∧ List.Forall₂ (fun p v => Prog.Quiet s v (2 * eng.middleware.length + 1) p)
            (ks.map (getP eng)) vs := by
  intro ks
  induction ks with
  | nil => intro _; exact ⟨[], .nil, .nil⟩
  | cons k rest ih =>
    intro hok
    obtain ⟨v, hv⟩ := hok k (List.mem_cons_self _ _)
    obtain ⟨vs, h1, h2⟩ := ih (fun k hk => hok k (List.mem_cons_of_mem _ hk))
    exact ⟨v :: vs, .cons hv h1, .cons (getP_quiet eng k s v hread hv) h2⟩

end FUSE

namespace Task

variable {σ α : Type}

theorem start_length : ∀ (ps : List (Prog σ α)) (s : σ), (start ps s).1.length = ps.length
  | [], _ => rfl
  | p :: rest, s => by
    simp only [start, List.length_cons]
    rw [start_length rest]

theorem turn_length : ∀ (tasks : List (Task σ α)) (s : σ), (turn tasks s).1.length = tasks.length
  | [], _ => rfl
  | task :: rest, s => by
    simp only [turn, List.length_cons]
    rw [turn_length rest]

theorem turns_length : ∀ (n : Nat) (rejected : Option Value) (tasks : List (Task σ α)) (s : σ),
    (turns n rejected tasks s).1.2.length = tasks.length
  | 0, _, _, _ => rfl
  | n + 1, rejected, tasks, s => by
    simp only [turns]
    rw [turns_length n, turn_length]

theorem fulfilled_length : ∀ (tasks : List (Task σ α)) (vs : List α),
    fulfilled tasks = some vs → vs.length = tasks.length
  | [], vs, h => by
    simp only [fulfilled, Option.some.injEq] at h
    subst h
    rfl
  | .settled (.ok a) :: rest, vs, h => by
    simp only [fulfilled, Option.map_eq_some'] at h
    obtain ⟨as, has, rfl⟩ := h
    simp only [List.length_cons, fulfilled_length rest as has]
  | .settled (.error e) :: rest, vs, h => by simp [fulfilled] at h
  | .waiting r k :: rest, vs, h => by simp [fulfilled] at h

end Task

/-- An array that `Promise.all` returns has one element for each function. -/
theorem Prog.all_length {σ α : Type} (n : Nat) (ps : List (Prog σ α)) (s : σ) (vs : List α)
    (h : (Prog.all n ps s).1 = .ok vs) : vs.length = ps.length := by
  have h1 := Task.start_length ps s
  have h2 := Task.turns_length n (Task.firstRejected (Task.start ps s).1) (Task.start ps s).1
    (Task.start ps s).2.1
  simp only [Prog.all] at h
  rcases hst : Task.start ps s with ⟨tasks, s1, t1⟩
  rw [hst] at h h1 h2
  simp only at h h1 h2
  rcases htu : Task.turns n (Task.firstRejected tasks) tasks s1 with ⟨⟨rejected, tasks2⟩, s2, t2⟩
  rw [htu] at h h2
  simp only at h h2
  cases rejected with
  | some e => simp at h
  | none =>
    simp only at h
    cases hfu : Task.fulfilled tasks2 with
    | none => rw [hfu] at h; simp at h
    | some as =>
      rw [hfu] at h
      simp only [Except.ok.injEq] at h
      subst h
      rw [Task.fulfilled_length tasks2 as hfu, h2, h1]

/-- The default driver's `get` leaves the store as it is. -/
theorem InMemoryDriver.get_state (key : String) (d : InMemoryDriver) :
    (InMemoryDriver.get key d).2 = d := by
  unfold InMemoryDriver.get
  split
  · rfl
  · split
    · rfl
    · split
      · rfl
      · split <;> rfl

/-- The default engine without middleware reads without changing the state. -/
theorem defaultEngine_readsQuietly (d : InMemoryDriver) : defaultEngine.ReadsQuietly d :=
  ⟨fun _ hm => by simp [defaultEngine, FUSE.inMemory] at hm,
   fun _ hm => by simp [defaultEngine, FUSE.inMemory] at hm,
   fun key => InMemoryDriver.get_state key d⟩

theorem forall₂_eq_map {α β γ : Type} (g : α → γ) (c : β → γ) (hc : Function.Injective c)
    (f : α → β) (hf : ∀ a, g a = c (f a)) :
    ∀ (as : List α) (bs : List β), List.Forall₂ (fun a b => g a = c b) as bs → bs = as.map f := by
  intro as bs h
  induction h with
  | nil => rfl
  | cons hab _ ih =>
    rw [hf] at hab
    rw [List.map_cons, ← hc hab, ih]

/-- C14, amended. Whatever the hooks and the driver do, an array that `bulkGet(ks)` returns has
as many elements as `ks`. When the `get` hooks and the driver's `get` leave the state as it is
and `get` fails on no key of `ks` (duplicates and keys that are not stored included),
`bulkGet(ks)` returns, in the same state, the array whose `i`-th element is the value
`get(ks[i])` returns. On the default engine over a store without prototype, as the constructor
and `clear()` leave it, that is the stored value for a stored key and `undefined` for a key
that is not stored. -/
theorem bulkGet_is_aligned_with_keys {σ : Type} (eng : FUSE σ) (ks : List String) (s : σ) :
    (∀ vs, ((eng.bulkGet ks).run s).1 = .ok vs → vs.length = ks.length)
    ∧ (eng.ReadsQuietly s → (∀ k ∈ ks, ∃ v, ((eng.get k).run s).1 = .ok v) →
        ∃ vs t, (eng.bulkGet ks).run s = (.ok vs, s, t) ∧ vs.length = ks.length
          ∧ List.Forall₂ (fun k v => ((eng.get k).run s).1 = .ok v) ks vs)
    ∧ ∀ props : Props, ∃ t, (defaultEngine.bulkGet ks).run ⟨.object .null props⟩
        = (.ok (ks.map (fun k => (lookupOwn props k).getD .undefined)),
            ⟨.object .null props⟩, t) := by
  refine ⟨?_, ?_, ?_⟩
  · intro vs h
    have hlen := Prog.all_length (2 * eng.middleware.length + 1) (ks.map (FUSE.getP eng)) s vs h
    simpa only [List.length_map] using hlen
  · intro hread hok
    obtain ⟨vs, h1, h2⟩ := FUSE.bulkGet_of_quiet eng s hread ks hok
    obtain ⟨t, ht⟩ := Prog.all_quiet h2
    exact ⟨vs, t, ht, h1.length_eq.symm, h1⟩
  · intro props
    have hget : ∀ k, ((defaultEngine.get k).run ⟨.object .null props⟩).1
        = Except.ok ((lookupOwn props k).getD .undefined) := by
      intro k
      rw [FUSE.get_nil defaultEngine rfl k ⟨.object .null props⟩ ⟨.object .null props⟩
        ((lookupOwn props k).getD .undefined)
        (by cases h : lookupOwn props k <;>
          simp [defaultEngine, FUSE.inMemory, InMemoryDriver.driver, InMemoryDriver.get, h])]
    obtain ⟨vs, h1, h2⟩ := FUSE.bulkGet_of_quiet defaultEngine ⟨.object .null props⟩
      (defaultEngine_readsQuietly _) ks (fun k _ => ⟨_, hget k⟩)
    obtain ⟨t, ht⟩ := Prog.all_quiet h2
    have hvs := forall₂_eq_map
      (fun k => ((defaultEngine.get k).run ⟨.object .null props⟩).1) Except.ok
      (fun a b h => Except.ok.inj h) (fun k => (lookupOwn props k).getD .undefined) hget ks vs h1
    exact ⟨t, by rw [← hvs]; exact ht⟩

/-- Counterexample to C14. Under a middleware with a note of its own, `get('a')` returns `a`
and `get('b')` returns `b`, one after the other or each alone, yet `bulkGet(['a', 'b'])`
returns `['b', 'b']`: both `get` calls have run their `before.get` hook before either runs its
`after.get` hook. Apart from that, on the default engine after `importSnapshot` of the empty
object, no key is stored, and `bulkGet(['toString', 'x'])` returns a built-in function and
`undefined`. -/
theorem bulkGet_interleaves_gets :
    (((FUSE.inMemory [tracking] quietEmit).get "a").run storeABC).1 = .ok (.str "a")
    ∧ (((FUSE.inMemory [tracking] quietEmit).get "b").run storeABC).1 = .ok (.str "b")
    ∧ (((FUSE.inMemory [tracking] quietEmit).get "b").run
        (((FUSE.inMemory [tracking] quietEmit).get "a").run storeABC).2.1).1 = .ok (.str "b")
    ∧ (((FUSE.inMemory [tracking] quietEmit).bulkGet ["a", "b"]).run storeABC).1
        = .ok [.str "b", .str "b"]
    ∧ (defaultEngine.keys.run importedEmpty).1 = .ok []
    ∧ ((defaultEngine.bulkGet ["toString", "x"]).run importedEmpty).1
        = .ok [.native "Object.prototype.toString", .undefined] :=
  ⟨rfl, rfl, rfl, rfl, rfl, rfl⟩

/-- Witness of C14 as amended: over the store with `1`, `2`, `3` under `a`, `b`, `c`, the call
`bulkGet(['a', 'b', 'x'])` returns `[1, 2, undefined]`. -/
theorem bulkGet_is_aligned_with_keys_witness :
    defaultEngine.ReadsQuietly storeABC
    ∧ (∀ k ∈ ["a", "b", "x"], ∃ v, ((defaultEngine.get k).run storeABC).1 = .ok v)
    ∧ (∃ vs t, (defaultEngine.bulkGet ["a", "b", "x"]).run storeABC = (.ok vs, storeABC, t)
        ∧ vs.length = ["a", "b", "x"].length
        ∧ List.Forall₂ (fun k v => ((defaultEngine.get k).run storeABC).1 = .ok v)
            ["a", "b", "x"] vs)
    ∧ ((defaultEngine.bulkGet ["a", "b", "x"]).run storeABC).1
        = .ok [.num 1, .num 2, .undefined] :=
  have hok : ∀ k ∈ ["a", "b", "x"], ∃ v, ((defaultEngine.get k).run storeABC).1 = .ok v := by
    intro k hk
    simp only [List.mem_cons, List.mem_singleton, List.not_mem_nil, or_false] at hk
    rcases hk with rfl | rfl | rfl
    · exact ⟨.num 1, rfl⟩
    · exact ⟨.num 2, rfl⟩
    · exact ⟨.undefined, rfl⟩
  ⟨defaultEngine_readsQuietly storeABC, hok,
    (bulkGet_is_aligned_with_keys defaultEngine ["a", "b", "x"] storeABC).2.1
      (defaultEngine_readsQuietly storeABC) hok, rfl⟩

/-! ## The selection loop of `random` -/

/-- Adding a key to the set of chosen keys: a key that is in the set changes nothing. -/
theorem chosen_add_spec (allKeys chosen : List String) (key : String) (hkey : key ∈ allKeys)
    (hnd : chosen.Nodup) (hmem : ∀ k ∈ chosen, k ∈ allKeys) :
    (if key ∈ chosen then chosen else chosen ++ [key]).Nodup
    ∧ (∀ k ∈ (if key ∈ chosen then chosen else chosen ++ [key]), k ∈ allKeys)
    ∧ (if key ∈ chosen then chosen else chosen ++ [key]).length ≤ chosen.length + 1 := by
  by_cases hk : key ∈ chosen
  · simp only [hk, if_true]
    exact ⟨hnd, hmem, Nat.le_succ _⟩
  · simp only [hk, if_false]
    refine ⟨?_, ?_, by simp⟩
    · rw [List.nodup_append]
      refine ⟨hnd, List.nodup_singleton _, ?_⟩
      intro a ha hb
      simp only [List.mem_singleton] at hb
      exact hk (hb ▸ ha)
    · intro k hk2
      simp only [List.mem_append, List.mem_singleton] at hk2
      rcases hk2 with h | rfl
      · exact hmem k h
      · exact hkey

/-- When the selection loop ends, the chosen keys are pairwise distinct members of `allKeys`,
and there are `min(n, allKeys.length)` of them. -/
theorem pickLoop_sound (allKeys : List String) (n : Int) (draws : Nat → Draw) :
    ∀ (fuel i : Nat) (chosen res : List String), chosen.Nodup → (∀ k ∈ chosen, k ∈ allKeys) →
      (chosen.length : Int) ≤ min n allKeys.length →
      pickLoop allKeys n draws fuel i chosen = some res →
      res.Nodup ∧ (∀ k ∈ res, k ∈ allKeys) ∧ (res.length : Int) = min n allKeys.length := by
  intro fuel
  induction fuel with
  | zero =>
    intro i chosen res hnd hmem hle h
    by_cases hc : (chosen.length : Int) < n ∧ chosen.length < allKeys.length
    · simp [pickLoop, hc] at h
    · simp only [pickLoop, hc, if_false, Option.some.injEq] at h
      subst h
      exact ⟨hnd, hmem, by omega⟩
  | succ fuel ih =>
    intro i chosen res hnd hmem hle h
    by_cases hc : (chosen.length : Int) < n ∧ chosen.length < allKeys.length
    · simp only [pickLoop, dif_pos hc] at h
      obtain ⟨h1, h2, h3⟩ := chosen_add_spec allKeys chosen
        (allKeys.get ((draws i).index allKeys.length (Nat.zero_lt_of_lt hc.2)))
        (List.get_mem _ _ _) hnd hmem
      exact ih (i + 1) _ res h1 h2 (by omega) h
    · simp only [pickLoop, dif_neg hc, Option.some.injEq] at h
      subst h
      exact ⟨hnd, hmem, by omega⟩

theorem singleEntries_eq_zipWith :
    ∀ (ks : List String) (vs : List Value), vs.length = ks.length →
      singleEntries ks vs = List.zipWith (fun k v => Value.obj [(k, v)]) ks vs
  | [], [], _ => rfl
  | k :: ks, v :: vs, h => by
    simp only [singleEntries, List.headD_cons, List.tail_cons, List.zipWith_cons_cons]
    rw [singleEntries_eq_zipWith ks vs (by simpa using h)]
  | [], _ :: _, h => by simp at h
  | _ :: _, [], h => by simp at h

/-! ## The `random` operation -/

/-- C18. Let `count` be an integer above `1` and let `keys()` return `n >= 1` keys. When
`random(count)` returns, for any sequence of draws, it returns an array of single-entry objects
whose keys are pairwise distinct members of `keys()`, `min(count, n)` of them. Their values are
those of the `get` calls run beside each other; when the `get` hooks and the driver's `get`
leave the state as it is and `get` fails on none of the chosen keys, the entry for `k` holds the
value `get(k)` returns. -/
theorem random_returns_distinct_entries {σ : Type} (eng : FUSE σ) (count : Int)
    (draws : Nat → Draw) (fuel : Nat) (s s1 s2 : σ) (allKeys : List String)
    (tk t : List Event) (res : Value) (hcount : 1 < count)
    (hkeys : (eng.keys).run s = (.ok allKeys, s1, tk)) (hn : 1 ≤ allKeys.length)
    (hret : (eng.random (some count) draws fuel).run s = (.ok (some res), s2, t)) :
    ∃ ks vs, res = .arr (List.zipWith (fun k v => Value.obj [(k, v)]) ks vs)
      ∧ vs.length = ks.length
      ∧ (ks.length : Int) = min count allKeys.length
      ∧ ks.Nodup ∧ (∀ k ∈ ks, k ∈ allKeys)
      ∧ (eng.ReadsQuietly s1 → (∀ k ∈ ks, ∃ v, ((eng.get k).run s1).1 = .ok v) →
          s2 = s1 ∧ List.Forall₂ (fun k v => ((eng.get k).run s1).1 = .ok v) ks vs) := by
  have hpos : 0 < allKeys.length := hn
  simp only [Js.run] at hkeys
  simp only [Js.run, FUSE.random, Js.bind, hkeys, dif_pos hpos, if_pos hcount] at hret
  cases hp : pick allKeys count draws fuel with
  | none =>
    rw [hp] at hret
    simp [Js.pure] at hret
  | some ks =>
    rw [hp] at hret
    simp only at hret
    obtain ⟨hnd, hmem, hlen⟩ := pickLoop_sound allKeys count draws fuel 0 [] ks List.nodup_nil
      (by simp) (by simp only [List.length_nil]; omega) hp
    rcases hall : Prog.all (2 * eng.middleware.length + 1) (ks.map (FUSE.getP eng)) s1
      with ⟨r, s3, t3⟩
    simp only [Js.bind, hall] at hret
    cases r with
    | error e => simp at hret
    | ok vs =>
      simp only [Js.pure, Prod.mk.injEq, Except.ok.injEq, Option.some.injEq] at hret
      obtain ⟨hres, hs, _⟩ := hret
      have hvs : vs.length = ks.length := by
        have hl := Prog.all_length (2 * eng.middleware.length + 1) (ks.map (FUSE.getP eng)) s1 vs
          (by rw [hall])
        simpa only [List.length_map] using hl
      refine ⟨ks, vs, ?_, hvs, hlen, hnd, hmem, ?_⟩
      · rw [← hres, singleEntries_eq_zipWith ks vs hvs]
      · intro hread hok
        obtain ⟨vs1, h1, h2⟩ := FUSE.bulkGet_of_quiet eng s1 hread ks hok
        obtain ⟨t1, ht1⟩ := Prog.all_quiet h2
        rw [hall] at ht1
        simp only [Prod.mk.injEq, Except.ok.injEq] at ht1
        obtain ⟨rfl, rfl, _⟩ := ht1
        exact ⟨hs.symm, h1⟩

/-- Witness of C18: over the store with `1`, `2`, `3` under `a`, `b`, `c` and draws that hit
the indices `0` and `1`, `random(2)` returns `[{a: 1}, {b: 2}]`; over a store with one entry,
`random(2)` returns that entry alone. -/
theorem random_returns_distinct_entries_witness :
    ((defaultEngine.random (some 2) cyclingDraws 2).run storeABC).1
      = .ok (some (.arr [.obj [("a", .num 1)], .obj [("b", .num 2)]]))
    ∧ ((defaultEngine.random (some 2) constantDraws 1).run storeWithK).1
      = .ok (some (.arr [.obj [("k", .str "x")]]))
    ∧ ∃ ks vs,
        Value.arr [.obj [("a", .num 1)], .obj [("b", .num 2)]]
          = .arr (List.zipWith (fun k v => Value.obj [(k, v)]) ks vs)
        ∧ vs.length = ks.length
        ∧ (ks.length : Int) = min 2 (["a", "b", "c"].length : Int)
        ∧ ks.Nodup ∧ (∀ k ∈ ks, k ∈ ["a", "b", "c"])
        ∧ (defaultEngine.ReadsQuietly storeABC →
            (∀ k ∈ ks, ∃ v, ((defaultEngine.get k).run storeABC).1 = .ok v) →
            ((defaultEngine.random (some 2) cyclingDraws 2).run storeABC).2.1 = storeABC
              ∧ List.Forall₂ (fun k v => ((defaultEngine.get k).run storeABC).1 = .ok v) ks vs) :=
  ⟨rfl, rfl,
    random_returns_distinct_entries defaultEngine 2 cyclingDraws 2 storeABC storeABC
      ((defaultEngine.random (some 2) cyclingDraws 2).run storeABC).2.1 ["a", "b", "c"]
      [⟨.driver .keys, [], .ok (.arr [.str "a", .str "b", .str "c"])⟩]
      ((defaultEngine.random (some 2) cyclingDraws 2).run storeABC).2.2
      (.arr [.obj [("a", .num 1)], .obj [("b", .num 2)]])
      (by decide) rfl (by decide) rfl⟩

/-! ## Termination of the selection loop -/

theorem pickLoop_constantDraws (fuel : Nat) :
    ∀ i, pickLoop ["a", "b", "c"] 2 constantDraws fuel i ["a"] = none := by
  induction fuel with
  | zero => intro i; rfl
  | succ fuel ih =>
    intro i
    have hc : (((["a"] : List String).length : Int) < 2
        ∧ (["a"] : List String).length < (["a", "b", "c"] : List String).length) := by decide
    have hkey : ∀ h, (["a", "b", "c"] : List String).get
        ((constantDraws i).index (["a", "b", "c"] : List String).length h) = "a" := by
      intro h
      simp [constantDraws, Draw.index]
    rw [pickLoop, dif_pos hc]
    simp only [hkey, List.mem_singleton, if_true]
    exact ih (i + 1)

/-- C27, counterexample. Over the store with the three keys `a`, `b`, `c`, with a random source
that returns `0` every time, the selection loop of `random(2)` is still running after any
number of draws: it holds the key `a` and draws it again and again. -/
theorem pick_never_ends_on_constant_draws :
    ((defaultEngine.keys).run storeABC).1 = .ok ["a", "b", "c"]
    ∧ (∀ fuel, pick ["a", "b", "c"] 2 constantDraws fuel = none)
    ∧ ∀ fuel, ((defaultEngine.random (some 2) constantDraws fuel).run storeABC).1 = .ok none := by
  have hpick : ∀ fuel, pick ["a", "b", "c"] 2 constantDraws fuel = none := by
    intro fuel
    cases fuel with
    | zero => rfl
    | succ fuel =>
      have hc : (((([] : List String).length : Int) < 2)
          ∧ ([] : List String).length < (["a", "b", "c"] : List String).length) := by decide
      have hkey : ∀ h, (["a", "b", "c"] : List String).get
          ((constantDraws 0).index (["a", "b", "c"] : List String).length h) = "a" := by
        intro h
        simp [constantDraws, Draw.index]
      rw [pick, pickLoop, dif_pos hc]
      simp only [hkey, List.not_mem_nil, if_false, List.nil_append]
      exact pickLoop_constantDraws fuel 1
  refine ⟨rfl, hpick, ?_⟩
  intro fuel
  have hk : defaultEngine.keys storeABC
      = (.ok ["a", "b", "c"], storeABC,
          [⟨.driver .keys, [], .ok (.arr [.str "a", .str "b", .str "c"])⟩]) := rfl
  have hpos : 0 < (["a", "b", "c"] : List String).length := by decide
  simp only [Js.run, FUSE.random, Js.bind, hk, dif_pos hpos, hpick fuel]
  rfl

/-- Coverage suffices: when the keys in the set together with those of the next `fuel` draws
number `min(n, allKeys.length)` or more, the loop ends within these draws. -/
theorem pickLoop_complete (allKeys : List String) (hpos : 0 < allKeys.length) (n : Int)
    (draws : Nat → Draw) :
    ∀ (fuel i : Nat) (chosen : List String), chosen.Nodup → (∀ k ∈ chosen, k ∈ allKeys) →
      (chosen.length : Int) ≤ min n allKeys.length →
      min n allKeys.length
        ≤ (((chosen ++ (List.range' i fuel).map
              (fun j => allKeys.get ((draws j).index allKeys.length hpos))).toFinset.card : Nat)
            : Int) →
      ∃ res, pickLoop allKeys n draws fuel i chosen = some res := by
  intro fuel
  induction fuel with
  | zero =>
    intro i chosen hnd hmem hle hcov
    simp only [List.range'_zero, List.map_nil, List.append_nil,
      List.toFinset_card_of_nodup hnd] at hcov
    have hc : ¬ ((chosen.length : Int) < n ∧ chosen.length < allKeys.length) := by omega
    exact ⟨chosen, by simp only [pickLoop, hc, if_false]⟩
  | succ fuel ih =>
    intro i chosen hnd hmem hle hcov
    by_cases hc : (chosen.length : Int) < n ∧ chosen.length < allKeys.length
    · obtain ⟨h1, h2, h3⟩ := chosen_add_spec allKeys chosen
        (allKeys.get ((draws i).index allKeys.length hpos)) (List.get_mem _ _ _) hnd hmem
      have hfin : ((if allKeys.get ((draws i).index allKeys.length hpos) ∈ chosen then chosen
            else chosen ++ [allKeys.get ((draws i).index allKeys.length hpos)])
            ++ (List.range' (i + 1) fuel).map
              (fun j => allKeys.get ((draws j).index allKeys.length hpos))).toFinset
          = (chosen ++ (List.range' i (fuel + 1)).map
              (fun j => allKeys.get ((draws j).index allKeys.length hpos))).toFinset := by
        ext a
        by_cases hk : allKeys.get ((draws i).index allKeys.length hpos) ∈ chosen
        · simp only [hk, if_true, List.range'_succ, List.map_cons, List.toFinset_append,
            List.toFinset_cons, Finset.mem_union, Finset.mem_insert, List.mem_toFinset]
          constructor
          · rintro (h | h)
            · exact Or.inl h
            · exact Or.inr (Or.inr h)
          · rintro (h | h | h)
            · exact Or.inl h
            · exact Or.inl (h ▸ hk)
            · exact Or.inr h
        · simp only [hk, if_false, List.range'_succ, List.map_cons, List.toFinset_append,
            List.toFinset_cons, Finset.mem_union, Finset.mem_insert, List.mem_toFinset,
            List.mem_append, List.mem_singleton]
          tauto
      have hrec := ih (i + 1) _ h1 h2 (by omega) (by rw [hfin]; exact hcov)
      obtain ⟨res, hres⟩ := hrec
      exact ⟨res, by rw [pickLoop, dif_pos hc]; exact hres⟩
    · exact ⟨chosen, by simp only [pickLoop, dif_neg hc]⟩

/-- C27, amended. Let `allKeys` hold `n >= 1` distinct keys and let `count >= 0`. When the first `N` draws hit
`min(count, n)` or more distinct indices, the selection loop of `random(count)` ends within
these `N` draws, with `min(count, n)` chosen keys, pairwise distinct members of `allKeys`. -/
theorem pick_ends_once_draws_cover (allKeys : List String) (count : Int) (draws : Nat → Draw)
    (N : Nat) (hnodup : allKeys.Nodup) (hpos : 0 < allKeys.length) (hcount : 0 ≤ count)
    (hcover : min count allKeys.length
      ≤ ((((List.range N).map (fun j => (draws j).index allKeys.length hpos)).toFinset.card
          : Nat) : Int)) :
    ∃ chosen, pick allKeys count draws N = some chosen
      ∧ (chosen.length : Int) = min count allKeys.length
      ∧ chosen.Nodup ∧ ∀ k ∈ chosen, k ∈ allKeys := by
  have hinj : Function.Injective allKeys.get := List.nodup_iff_injective_get.mp hnodup
  have hcard : ((List.range' 0 N).map
        (fun j => allKeys.get ((draws j).index allKeys.length hpos))).toFinset.card
      = ((List.range N).map (fun j => (draws j).index allKeys.length hpos)).toFinset.card := by
    rw [← List.range_eq_range', ← Finset.card_image_of_injective _ hinj]
    congr 1
    ext a
    simp only [List.mem_toFinset, List.mem_map, Finset.mem_image]
    constructor
    · rintro ⟨j, hj, rfl⟩
      exact ⟨_, ⟨j, hj, rfl⟩, rfl⟩
    · rintro ⟨_, ⟨j, hj, rfl⟩, rfl⟩
      exact ⟨j, hj, rfl⟩
  have hcov : min count allKeys.length
      ≤ ((((([] : List String) ++ (List.range' 0 N).map
            (fun j => allKeys.get ((draws j).index allKeys.length hpos))).toFinset.card : Nat))
          : Int) := by
    rw [List.nil_append, hcard]
    exact hcover
  obtain ⟨res, hres⟩ := pickLoop_complete allKeys hpos count draws N 0 [] List.nodup_nil
    (by simp) (by simp only [List.length_nil, Nat.cast_zero]; omega) hcov
  obtain ⟨h1, h2, h3⟩ := pickLoop_sound allKeys count draws N 0 [] res List.nodup_nil
    (by simp) (by simp only [List.length_nil, Nat.cast_zero]; omega) hres
  exact ⟨res, hres, h3, h1, h2⟩

/-- Witness of C27, amended: over the keys `a`, `b`, `c`, the draws `0` and `1/3` hit two
indices, and `pick(2)` ends after these two draws with the keys `a` and `b`. -/
theorem pick_ends_once_draws_cover_witness :
    (["a", "b", "c"] : List String).Nodup
    ∧ pick ["a", "b", "c"] 2 cyclingDraws 2 = some ["a", "b"]
    ∧ ∃ chosen, pick ["a", "b", "c"] 2 cyclingDraws 2 = some chosen
        ∧ (chosen.length : Int) = min 2 ((["a", "b", "c"] : List String).length : Int)
        ∧ chosen.Nodup ∧ ∀ k ∈ chosen, k ∈ ["a", "b", "c"] :=
  ⟨by decide, rfl,
    pick_ends_once_draws_cover ["a", "b", "c"] 2 cyclingDraws 2 (by decide) (by decide)
      (by decide) (by decide)⟩

/-! ## The `includes` operation -/

theorem Value.strictEquals_toValue (v : Primitive) (hv : v ≠ .nan) :
    v.toValue.strictEquals v = true := by
  cases v <;> simp [Primitive.toValue, Value.strictEquals] at hv ⊢

theorem includesLoop_of_mem (value : Primitive) (val : Value) (h : val.strictEquals value = true) :
    ∀ (vals : List Value), val ∈ vals → includesLoop value vals = true := by
  intro vals
  induction vals with
  | nil => intro hm; simp at hm
  | cons w rest ih =>
    intro hm
    by_cases hw : w.strictEquals value = true
    · simp only [includesLoop, hw, if_true]
    · simp only [includesLoop, hw, Bool.false_eq_true, if_false]
      rcases List.mem_cons.mp hm with rfl | hr
      · exact absurd h hw
      · exact ih hr

theorem includesLoop_nan (vals : List Value) : includesLoop .nan vals = false := by
  induction vals with
  | nil => rfl
  | cons w rest ih => simp only [includesLoop, Value.strictEquals, Bool.false_eq_true, if_false, ih]

/-- The default driver lists the values its store holds. -/
theorem listsValues_of_default_values (eng : FUSE InMemoryDriver)
    (hvalues : eng.driver.values = InMemoryDriver.values) :
    ListsValues eng InMemoryDriver.Bare InMemoryDriver.view := by
  rintro s ⟨ps, rfl⟩
  refine ⟨(ownKeys ps).map (fun k => (lookupOwn ps k).getD .undefined), ⟨.object .null ps⟩,
    [⟨.driver .values, [], .ok (.arr ((ownKeys ps).map
      (fun k => (lookupOwn ps k).getD .undefined)))⟩], ?_, ?_⟩
  · simp [Js.run, FUSE.values, hvalues, InMemoryDriver.values, Js.tryCatch, Js.callWith]
  · intro v
    simp only [List.mem_map, InMemoryDriver.view]
    constructor
    · rintro ⟨k, hk, rfl⟩
      rw [mem_ownKeys_iff] at hk
      refine ⟨k, ?_⟩
      cases hl : lookupOwn ps k with
      | none => rw [hl] at hk; simp at hk
      | some w => rfl
    · rintro ⟨k, hk⟩
      refine ⟨k, ?_, by rw [hk]; rfl⟩
      rw [mem_ownKeys_iff, hk]
      rfl

/-- C21, counterexample. On the default engine, after `set('k', NaN)` the call `get('k')`
returns `NaN`, a number, and `includes(NaN)` returns `false`. Under the middleware that adds
one to a number on its way in and subtracts one on its way out, after `set('a', 1)` the call
`get('a')` returns `1` and `includes(1)` returns `false`: the driver holds `2`. -/
theorem includes_misses_nan_and_transformed_values :
    (((defaultEngine.set "k" .nan).run InMemoryDriver.new).1 = .ok .undefined
      ∧ ((defaultEngine.get "k").run
          ((defaultEngine.set "k" .nan).run InMemoryDriver.new).2.1).1 = .ok .nan
      ∧ ((defaultEngine.includes .nan).run
          ((defaultEngine.set "k" .nan).run InMemoryDriver.new).2.1).1 = .ok (.bool false))
    ∧ ((((FUSE.inMemory [shifting] quietEmit).set "a" (.num 1)).run InMemoryDriver.new).1
        = .ok .undefined
      ∧ (((FUSE.inMemory [shifting] quietEmit).get "a").run
          (((FUSE.inMemory [shifting] quietEmit).set "a" (.num 1)).run
            InMemoryDriver.new).2.1).1 = .ok (.num 1)
      ∧ (((FUSE.inMemory [shifting] quietEmit).values).run
          (((FUSE.inMemory [shifting] quietEmit).set "a" (.num 1)).run
            InMemoryDriver.new).2.1).1 = .ok [.num 2]
      ∧ (((FUSE.inMemory [shifting] quietEmit).includes (.num 1)).run
          (((FUSE.inMemory [shifting] quietEmit).set "a" (.num 1)).run
            InMemoryDriver.new).2.1).1 = .ok (.bool false)) :=
  ⟨⟨rfl, rfl, rfl⟩, rfl, rfl, rfl, rfl⟩

/-- C21, amended. For an engine that behaves as a mapping whose `values()` lists the values
that `get` returns (a correct driver under a middleware list that stores values as they are
given), and every primitive value `v` other than `NaN`: `set(k, v)` returns, and `includes(v)`
then returns `true`. -/
theorem includes_finds_value_set {σ : Type} (eng : FUSE σ) (Inv : σ → Prop)
    (view : σ → String → Option Value) (hf : Faithful eng Inv view)
    (hvals : ListsValues eng Inv view) (k : String) (v : Primitive) (hv : v ≠ .nan) (s : σ)
    (hs : Inv s) :
    ∃ s1 t1, (eng.set k v.toValue).run s = (.ok .undefined, s1, t1) ∧
      ∃ s2 t2, (eng.includes v).run s1 = (.ok (.bool true), s2, t2) := by
  obtain ⟨s1, t1, hset, hs1, hview, _⟩ := hf.set k v.toValue s hs
  obtain ⟨vals, s2, t2, hrun, hmem⟩ := hvals s1 hs1
  refine ⟨s1, t1, hset, s2, t2 ++ [], ?_⟩
  have hin : includesLoop v vals = true :=
    includesLoop_of_mem v v.toValue (Value.strictEquals_toValue v hv) vals
      ((hmem _).mpr ⟨k, hview⟩)
  simp only [Js.run] at hrun ⊢
  rw [FUSE.includes, Js.bind_ok hrun]
  simp only [Js.pure, hin]

/-- Witness of C21 as amended, on the default engine: after storing `1` under `a` and `buzz`
under `fizz`, `includes(1)` and `includes('buzz')` are both `true`. -/
theorem includes_finds_value_set_witness :
    (∃ s1 t1, (defaultEngine.set "fizz" (Primitive.str "buzz").toValue).run
        ⟨.object .null [("a", .num 1)]⟩ = (.ok .undefined, s1, t1) ∧
      ∃ s2 t2, (defaultEngine.includes (.str "buzz")).run s1 = (.ok (.bool true), s2, t2))
    ∧ ((defaultEngine.includes (.num 1)).run
        ⟨.object .null [("a", .num 1), ("fizz", .str "buzz")]⟩).1 = .ok (.bool true)
    ∧ ((defaultEngine.includes (.str "buzz")).run
        ⟨.object .null [("a", .num 1), ("fizz", .str "buzz")]⟩).1 = .ok (.bool true) :=
  ⟨includes_finds_value_set defaultEngine InMemoryDriver.Bare InMemoryDriver.view
      (faithful_of_default_methods defaultEngine rfl rfl rfl rfl rfl)
      (listsValues_of_default_values defaultEngine rfl) "fizz" (.str "buzz")
      (by intro h; cases h) ⟨.object .null [("a", .num 1)]⟩ ⟨_, rfl⟩,
    rfl, rfl⟩

/-! ## Awaited calls on the microtask queue -/

namespace Machine

variable {σ : Type}

theorem turns_settled (n : Nat) (r : Except Value Value) (rest : List (Thread σ)) (s : σ) :
    turns n (.settled r :: rest) s = (some r, s, []) := by
  cases n <;> rfl

theorem Reaches.refl (th : Thread σ) (s : σ) : Reaches 0 th s th s [] := by
  intro fuel
  simp only [Nat.zero_add, List.nil_append]

theorem Reaches.trans {n1 n2 : Nat} {th th1 th2 : Thread σ} {s s1 s2 : σ}
    {t1 t2 : List Event} (h1 : Reaches n1 th s th1 s1 t1) (h2 : Reaches n2 th1 s1 th2 s2 t2) :
    Reaches (n1 + n2) th s th2 s2 (t1 ++ t2) := by
  intro fuel
  rw [Nat.add_assoc, h1 (n2 + fuel), h2 fuel]
  simp only [List.append_assoc]

/-- One turn of a suspended thread that detaches nothing. -/
theorem Reaches.step {r : Except Value Value} {frame : Frame σ} {callers : List (Frame σ)}
    {s s1 : σ} {th1 : Thread σ} {t1 : List Event}
    (h : (frame r).enter callers s = (th1, [], s1, t1)) :
    Reaches 1 (.suspended r frame callers) s th1 s1 t1 := by
  intro fuel
  rw [Nat.add_comm]
  simp only [turns, turn, Thread.resume, h, List.append_nil, List.nil_append]

end Machine

namespace Code

variable {σ : Type}

/-- A function that runs to its end without detaching anything does so on the microtask queue:
entered below the callers that await it, it takes as many turns as it is suspended, and it
leaves its outcome to the innermost caller. -/
theorem Runs.reaches {c : Code σ} {s s' : σ} {r : Except Value Value} {t : List Event}
    {n : Nat} (h : Code.Runs c s r s' t n) :
    ∀ callers : List (Frame σ), ∃ th sa ta tb,
      c.enter callers s = (th, [], sa, ta)
        ∧ Machine.Reaches n th sa (Thread.settle r callers) s' tb ∧ t = ta ++ tb := by
  induction h with
  | ret r s =>
    intro callers
    exact ⟨_, s, [], [], rfl, Machine.Reaches.refl _ _, rfl⟩
  | @act site args f k s s1 s2 r1 r t n hf _ ih =>
    intro callers
    obtain ⟨th, sa, ta, tb, he, hr, ht⟩ := ih callers
    refine ⟨th, sa, ⟨site, args, r1⟩ :: ta, tb, ?_, hr, ?_⟩
    · simp only [Code.enter, hf, he]
    · rw [ht]; rfl
  | @awaitAct site args f k s s1 s2 r1 r t n hf _ ih =>
    intro callers
    obtain ⟨th, sa, ta, tb, he, hr, ht⟩ := ih callers
    refine ⟨.suspended r1 k callers, s1, [⟨site, args, r1⟩], ta ++ tb, ?_, ?_, ?_⟩
    · simp only [Code.enter, hf]
    · have h1 := Machine.Reaches.step he
      have h2 := h1.trans hr
      rw [Nat.add_comm] at h2
      exact h2
    · rw [ht]; rfl
  | @awaitCall callee k s s1 s2 r1 r t1 t2 n1 n2 _ _ ihc ihk =>
    intro callers
    obtain ⟨th, sa, ta, tb, he, hr, ht⟩ := ihc (k :: callers)
    obtain ⟨th2, sa2, ta2, tb2, he2, hr2, ht2⟩ := ihk callers
    refine ⟨th, sa, ta, tb ++ (ta2 ++ tb2), ?_, ?_, ?_⟩
    · simp only [Code.enter, he]
    · have h1 : Machine.Reaches 1 (Thread.settle r1 (k :: callers)) s1 th2 sa2 ta2 :=
        Machine.Reaches.step he2
      have h2 := (hr.trans h1).trans hr2
      rw [List.append_assoc] at h2
      exact h2
    · rw [ht, ht2, List.append_assoc]

/-- A function that runs to its end without detaching anything, awaited at the top level for
enough turns, returns its outcome. -/
theorem Runs.awaited {c : Code σ} {s s' : σ} {r : Except Value Value} {t : List Event}
    {n : Nat} (h : Code.Runs c s r s' t n) (fuel : Nat) (hfuel : n ≤ fuel) :
    c.awaited fuel s = (r.map some, s', t) := by
  obtain ⟨th, sa, ta, tb, he, hr, ht⟩ := h.reaches []
  have hturns := hr (fuel - n)
  rw [Nat.add_sub_cancel' hfuel] at hturns
  simp only [Thread.settle, Machine.turns_settled, List.append_nil] at hturns
  simp only [Code.awaited, he, hturns, ht]
  cases r <;> rfl

/-- A body that detaches nothing runs to its end from every state. -/
theorem Attached.runs : ∀ (c : Code σ), c.Attached → ∀ s, ∃ r s' t n, Code.Runs c s r s' t n := by
  intro c
  induction c with
  | ret r => intro _ s; exact ⟨r, s, [], 0, .ret r s⟩
  | act site args f k ih =>
    intro ha s
    rcases hf : f s with ⟨r1, s1⟩
    obtain ⟨r, s2, t, n, hk⟩ := ih r1 (ha r1) s1
    exact ⟨r, s2, _, n, .act hf hk⟩
  | awaitAct site args f k ih =>
    intro ha s
    rcases hf : f s with ⟨r1, s1⟩
    obtain ⟨r, s2, t, n, hk⟩ := ih r1 (ha r1) s1
    exact ⟨r, s2, _, n + 1, .awaitAct hf hk⟩
  | awaitCall callee k ihc ihk =>
    intro ha s
    obtain ⟨r1, s1, t1, n1, hc⟩ := ihc ha.1 s
    obtain ⟨r, s2, t2, n2, hk⟩ := ihk r1 (ha.2 r1) s1
    exact ⟨r, s2, _, _, .awaitCall hc hk⟩
  | detach callee k _ _ => intro ha; exact absurd ha (by simp [Code.Attached])

end Code

/-- A resumable computation over foreign calls runs to its end as a body, with the outcome,
the state and the calls of its run. -/
theorem Prog.toCode_runs {σ : Type} (p : Prog σ Value) :
    ∀ s, ∃ n, Code.Runs p.toCode s (p.run s).1 (p.run s).2.1 (p.run s).2.2 n := by
  induction p with
  | done r => intro s; exact ⟨0, .ret r s⟩
  | await site args f k ih =>
    intro s
    rcases hf : f s with ⟨r1, s1⟩
    obtain ⟨n, hk⟩ := ih r1 s1
    refine ⟨n + 1, ?_⟩
    simp only [Prog.run, hf]
    exact .awaitAct hf hk
  | sync site args f k ih =>
    intro s
    rcases hf : f s with ⟨r1, s1⟩
    obtain ⟨n, hk⟩ := ih r1 s1
    refine ⟨n, ?_⟩
    simp only [Prog.run, hf]
    exact .act hf hk

namespace FUSE

variable {σ : Type}

/-- The body of `get` runs to its end as the operation `get` does. -/
theorem getCode_runs (eng : FUSE σ) (key : String) (s : σ) :
    ∃ n, Code.Runs (getCode eng key) s ((eng.get key).run s).1 ((eng.get key).run s).2.1
      ((eng.get key).run s).2.2 n := by
  rw [← getP_run]
  exact Prog.toCode_runs _ s

/-- With a callback that detaches nothing, the loop of `forEach` runs to its end from every
state, and its run is a sequential traversal. -/
theorem forEachCode_runs (eng : FUSE σ) (fn : String → Value → Code σ)
    (hfn : ∀ k v, (fn k v).Attached) :
    ∀ (ks : List String) (s : σ), ∃ r s' t calls n,
      Traversal eng fn ks s r s' t calls
        ∧ Code.Runs (forEachCode eng fn ks) s r s' t n
        ∧ ∀ u, r = .ok u → calls.map Prod.fst = ks := by
  intro ks
  induction ks with
  | nil => intro s; exact ⟨_, s, [], [], 0, .done s, .ret _ s, fun _ _ => rfl⟩
  | cons k rest ih =>
    intro s
    obtain ⟨n1, hg⟩ := getCode_runs eng k s
    rcases hget : (eng.get k).run s with ⟨r1, s1, t1⟩
    rw [hget] at hg
    simp only at hg
    cases r1 with
    | error e =>
      refine ⟨.error e, s1, t1, [], n1 + 1 + 0, .getThrows hget, ?_, fun u hu => by cases hu⟩
      have h := Code.Runs.awaitCall (k := fun r =>
        match r with
        | .ok val =>
          Code.awaitCall (fn k val) (fun r2 =>
            match r2 with
            | .ok _ => forEachCode eng fn rest
            | .error e => .ret (.error e))
        | .error e => .ret (.error e)) hg (.ret (.error e) s1)
      simpa only [List.append_nil] using h
    | ok val =>
      obtain ⟨r2, s2, t2, n2, hfnr⟩ := Code.Attached.runs (fn k val) (hfn k val) s1
      cases r2 with
      | error e =>
        refine ⟨.error e, s2, t1 ++ t2, [(k, val)], n1 + 1 + (n2 + 1 + 0),
          .callbackThrows hget hfnr, ?_, fun u hu => by cases hu⟩
        have hinner := Code.Runs.awaitCall (k := fun r2 =>
            match r2 with
            | .ok _ => forEachCode eng fn rest
            | .error e => Code.ret (.error e)) hfnr (.ret (.error e) s2)
        have h := Code.Runs.awaitCall (k := fun r =>
          match r with
          | .ok val =>
            Code.awaitCall (fn k val) (fun r2 =>
              match r2 with
              | .ok _ => forEachCode eng fn rest
              | .error e => .ret (.error e))
          | .error e => .ret (.error e)) hg hinner
        simpa only [List.append_nil] using h
      | ok u =>
        obtain ⟨r, s3, t3, calls, n3, htr, hrun, hcalls⟩ := ih s2
        refine ⟨r, s3, t1 ++ (t2 ++ t3), (k, val) :: calls, n1 + 1 + (n2 + 1 + n3),
          .step hget hfnr htr, ?_, ?_⟩
        · have hinner := Code.Runs.awaitCall (k := fun r2 =>
              match r2 with
              | .ok _ => forEachCode eng fn rest
              | .error e => Code.ret (.error e)) hfnr hrun
          exact Code.Runs.awaitCall (k := fun r =>
            match r with
            | .ok val =>
              Code.awaitCall (fn k val) (fun r2 =>
                match r2 with
                | .ok _ => forEachCode eng fn rest
                | .error e => .ret (.error e))
            | .error e => .ret (.error e)) hg hinner
        · intro u' hu'
          simp only [List.map_cons, hcalls u' hu']

end FUSE

/-! ## The `forEach` operation -/

/-- C22. Let `keys()` return the list `ks` at the start of `forEach(fn)`, and let the callback,
given by its body, which may be suspended any number of times, make no call that it does not
await. Then the traversal comes to its end within finitely many turns of the microtask queue,
and it is sequential: for each key of `ks`, in order, `get` runs to its end, then `fn` is called
with the key and the value `get` returned and runs to its own end, suspensions included, before
`get` is issued for the next key. When `forEach` returns, `fn` has been called exactly once for
each key of `ks`, in the order of `ks`. -/
theorem forEach_visits_keys_in_order {σ : Type} (eng : FUSE σ)
    (fn : String → Value → Code σ) (hfn : ∀ k v, (fn k v).Attached) (s s0 : σ)
    (ks : List String) (t0 : List Event) (hkeys : eng.keys.run s = (.ok ks, s0, t0)) :
    ∃ r s' t calls n, Traversal eng fn ks s0 r s' t calls
      ∧ (∀ fuel, n ≤ fuel → (eng.forEach fn fuel).run s = (r.map some, s', t0 ++ t))
      ∧ ∀ u, r = .ok u → calls.map Prod.fst = ks := by
  obtain ⟨r, s', t, calls, n, htr, hrun, hcalls⟩ := FUSE.forEachCode_runs eng fn hfn ks s0
  refine ⟨r, s', t, calls, n, htr, ?_, hcalls⟩
  intro fuel hfuel
  simp only [Js.run] at hkeys ⊢
  rw [FUSE.forEach, Js.bind_ok hkeys, hrun.awaited fuel hfuel]

/-- Witness of C22: over the store with `1`, `2`, `3` under `a`, `b`, `c`, with a callback that
is suspended in the middle of its work, `forEach` returns after twelve turns, and each call of
the callback has ended before the `get` of the next key is issued. -/
theorem forEach_visits_keys_in_order_witness :
    (∀ k v, (lingering k v).Attached)
    ∧ (∃ r s' t calls n, Traversal defaultEngine lingering ["a", "b", "c"] storeABC r s' t calls
        ∧ (∀ fuel, n ≤ fuel → (defaultEngine.forEach lingering fuel).run storeABC
            = (r.map some, s',
                [⟨.driver .keys, [], .ok (.arr [.str "a", .str "b", .str "c"])⟩] ++ t))
        ∧ ∀ u, r = .ok u → calls.map Prod.fst = ["a", "b", "c"])
    ∧ ((defaultEngine.forEach lingering 12).run storeABC).1 = .ok (some .undefined)
    ∧ ((defaultEngine.forEach lingering 12).run storeABC).2.2.map (fun e => (e.site, e.args))
        = [(.driver .keys, []),
           (.driver .get, [.str "a"]), (.callback, [.str "begin", .str "a"]),
           (.callback, [.str "a", .num 1]),
           (.driver .get, [.str "b"]), (.callback, [.str "begin", .str "b"]),
           (.callback, [.str "b", .num 2]),
           (.driver .get, [.str "c"]), (.callback, [.str "begin", .str "c"]),
           (.callback, [.str "c", .num 3])] :=
  ⟨fun _ _ _ _ => trivial,
    forEach_visits_keys_in_order defaultEngine lingering (fun _ _ _ _ => trivial) storeABC
      storeABC ["a", "b", "c"]
      [⟨.driver .keys, [], .ok (.arr [.str "a", .str "b", .str "c"])⟩] rfl,
    rfl, rfl⟩

/-- What the `await` is for. The loop of `forEach` with the callback called but not awaited,
over the same store and with the same callback, issues the `get` of the next key while the
call of the callback for the previous key is still suspended, and returns before the last call
has ended. -/
theorem detachedLoop_overlaps :
    (((detachedLoop defaultEngine lingering ["a", "b", "c"]).awaited 12).run storeABC).1
      = .ok (some .undefined)
    ∧ (((detachedLoop defaultEngine lingering ["a", "b", "c"]).awaited 12).run
          storeABC).2.2.map (fun e => (e.site, e.args))
        = [(.driver .get, [.str "a"]), (.callback, [.str "begin", .str "a"]),
           (.driver .get, [.str "b"]), (.callback, [.str "a", .num 1]),
           (.callback, [.str "begin", .str "b"]),
           (.driver .get, [.str "c"]), (.callback, [.str "b", .num 2]),
           (.callback, [.str "begin", .str "c"])] :=
  ⟨rfl, rfl⟩

/-! ## Order of the keys of the default driver -/

/-- C23. On the default engine, after `set('10', 'x')` and then `set('2', 'y')`, the call
`keys()` returns `['2', '10']`, not the keys in the order of their insertion, and `forEach`
visits `2` before `10`. Keys that are not canonical array indices keep the order of their
insertion: after `set('b', 1)`, `set('a', 2)` and `set('b', 3)`, `keys()` returns
`['b', 'a']`. -/
theorem inMemory_keys_put_integer_keys_first :
    ((issueAll defaultEngine [.set "10" (.str "x"), .set "2" (.str "y")]).run
        InMemoryDriver.new).1 = .ok .undefined
    ∧ (defaultEngine.keys.run
        ((issueAll defaultEngine [.set "10" (.str "x"), .set "2" (.str "y")]).run
          InMemoryDriver.new).2.1).1 = .ok ["2", "10"]
    ∧ ((defaultEngine.forEach recording 6).run
        ((issueAll defaultEngine [.set "10" (.str "x"), .set "2" (.str "y")]).run
          InMemoryDriver.new).2.1).1 = .ok (some .undefined)
    ∧ (((defaultEngine.forEach recording 6).run
        ((issueAll defaultEngine [.set "10" (.str "x"), .set "2" (.str "y")]).run
          InMemoryDriver.new).2.1).2.2.filter (fun e => e.site.isCallback)).map
          (fun e => e.args)
        = [[.str "2", .str "y"], [.str "10", .str "x"]]
    ∧ (defaultEngine.keys.run
        ((issueAll defaultEngine [.set "b" (.num 1), .set "a" (.num 2), .set "b" (.num 3)]).run
          InMemoryDriver.new).2.1).1 = .ok ["b", "a"] :=
  ⟨rfl, rfl, rfl, rfl, rfl⟩

/-! ## The crypto middleware under the engine -/

/-- The engine finds no hook on an instance of `CryptoMiddleware`. -/
theorem CryptoMiddleware.ofObject_object {σ : Type} (c : Cipher) :
    (Middleware.ofObject (CryptoMiddleware.object c) : Middleware σ) = {} := rfl

/-- A middleware without hooks changes nothing in the `catch` clause. -/
theorem FUSE.rethrow_without_hooks {σ α : Type} (driver : Driver σ)
    (emit : String → Value → Eff σ Value) :
    (FUSE.rethrow (FUSE.mk driver [{}] emit) : Value → Js σ α)
      = FUSE.rethrow (FUSE.mk driver [] emit) := by
  funext err
  simp only [FUSE.rethrow, FUSE._handleError, FUSE.handleErrorLoop]

/-- A middleware without hooks changes nothing in `set`. -/
theorem FUSE.set_without_hooks {σ : Type} (driver : Driver σ)
    (emit : String → Value → Eff σ Value) (key : String) (value : Value) (s : σ) :
    ((FUSE.mk driver [{}] emit).set key value).run s
      = ((FUSE.mk driver [] emit).set key value).run s := by
  simp only [Js.run, FUSE.set, FUSE.setBody, FUSE.setBefore, FUSE.setAfter,
    FUSE.rethrow_without_hooks]

/-- A middleware without hooks changes nothing in `get`. -/
theorem FUSE.get_without_hooks {σ : Type} (driver : Driver σ)
    (emit : String → Value → Eff σ Value) (key : String) (s : σ) :
    ((FUSE.mk driver [{}] emit).get key).run s = ((FUSE.mk driver [] emit).get key).run s := by
  simp only [Js.run, FUSE.get, FUSE.getBody, FUSE.getBefore, FUSE.getAfter,
    FUSE.rethrow_without_hooks]

/-- C24. An instance of `CryptoMiddleware` names its hooks `beforeWrite` and `afterRead`; the
engine looks for `before.set` and `after.get` and finds no hook on it. With such an instance as
its only middleware, whatever the driver and the cipher, `set(k, v)` and `get(k)` run as they
do without middleware, and the first call `set(k, v)` makes is the driver's `set` with `v`
itself. On the default driver, after `set('a', 42)` the store holds the literal `42`
under `a`. -/
theorem crypto_middleware_is_never_called {σ : Type} (c : Cipher) (driver : Driver σ)
    (emit : String → Value → Eff σ Value) (k : String) (v : Value) (s : σ) :
    (Middleware.ofObject (CryptoMiddleware.object c) : Middleware σ) = {}
    ∧ ((FUSE.mk driver [Middleware.ofObject (CryptoMiddleware.object c)] emit).set k v).run s
        = ((FUSE.mk driver [] emit).set k v).run s
    ∧ ((FUSE.mk driver [Middleware.ofObject (CryptoMiddleware.object c)] emit).get k).run s
        = ((FUSE.mk driver [] emit).get k).run s
    ∧ (((FUSE.mk driver [Middleware.ofObject (CryptoMiddleware.object c)] emit).set k v).run
          s).2.2.head?
        = some ⟨.driver .set, [.str k, v], (driver.set k v s).1⟩
    ∧ (((FUSE.inMemory [Middleware.ofObject (CryptoMiddleware.object c)] quietEmit).set "a"
          (.num 42)).run InMemoryDriver.new
        = (.ok .undefined, ⟨.object .null [("a", .num 42)]⟩,
            [⟨.driver .set, [.str "a", .num 42], .ok .undefined⟩]))
    ∧ (((FUSE.inMemory [Middleware.ofObject (CryptoMiddleware.object c)] quietEmit).get
          "a").run ⟨.object .null [("a", .num 42)]⟩).1 = .ok (.num 42) := by
  refine ⟨rfl, ?_, ?_, ?_, rfl, rfl⟩
  · rw [CryptoMiddleware.ofObject_object]
    exact FUSE.set_without_hooks driver emit k v s
  · rw [CryptoMiddleware.ofObject_object]
    exact FUSE.get_without_hooks driver emit k s
  · rw [CryptoMiddleware.ofObject_object, FUSE.set_without_hooks]
    rcases hd : driver.set k v s with ⟨r, s1⟩
    cases r with
    | ok u =>
      rw [FUSE.set_nil _ rfl k v s s1 u hd]
      rfl
    | error e =>
      have hbody : FUSE.setBody (FUSE.mk driver [] emit) k v s
          = (.error e, s1, [⟨.driver .set, [.str k, v], .error e⟩]) := by
        simp [FUSE.setBody, FUSE.setBefore, Js.bind, Js.pure, Js.call, Js.callWith, hd]
      simp only [Js.run, FUSE.set]
      rw [Js.tryCatch_error hbody]
      rfl

/-! ## The JSON file driver under the engine -/

/-- C25. An engine bound to a `JSONDriver` cannot remove: the class has no method `remove`, so
for every key, state and event emitter `remove(k)` fails, and the store is left as it was. On a
fresh driver, after `set('foo', 42)` the call `remove('foo')` fails with a `TypeError`, and
`has('foo')` then returns `true`; `size()` fails in the same way. -/
theorem jsonDriver_remove_fails (emit : String → Value → Eff JSONDriver Value) (k : String)
    (d : JSONDriver) :
    (∀ u, (((FUSE.mk JSONDriver.driver [] emit).remove k).run d).1 ≠ .ok u)
    ∧ (((FUSE.mk JSONDriver.driver [] emit).remove k).run d).2.2.head?
        = some ⟨.driver .remove, [.str k], .error typeError⟩
    ∧ ((jsonEngine.remove k).run d).1 = .error typeError
    ∧ ((jsonEngine.remove k).run d).2.1 = d
    ∧ ((jsonEngine.set "foo" (.num 42)).run (JSONDriver.new true)).1 = .ok .undefined
    ∧ ((jsonEngine.has "foo").run
        ((jsonEngine.remove "foo").run
          ((jsonEngine.set "foo" (.num 42)).run (JSONDriver.new true)).2.1).2.1).1
        = .ok (.bool true)
    ∧ ((jsonEngine.size).run
        ((jsonEngine.set "foo" (.num 42)).run (JSONDriver.new true)).2.1).1
        = .error typeError := by
  have hbody : FUSE.removeBody (FUSE.mk JSONDriver.driver [] emit) k d
      = (.error typeError, d, [⟨.driver .remove, [.str k], .error typeError⟩]) := rfl
  refine ⟨?_, ?_, rfl, rfl, rfl, rfl, rfl⟩
  · intro u
    simp only [Js.run, FUSE.remove]
    rw [Js.tryCatch_error hbody]
    exact FUSE.rethrow_ne_ok _ typeError d u
  · simp only [Js.run, FUSE.remove]
    rw [Js.tryCatch_error hbody]
    rfl

/-! ## Snapshots that are not objects -/

/-- C26. On the default engine, `importSnapshot('null')` returns, and from then on `get`,
`has`, `keys`, `values` and `size` all fail with a `TypeError`: the store is `null`. A
snapshot that is not JSON makes `importSnapshot` fail and leaves the store as it was. -/
theorem inMemory_import_null_breaks_reads :
    ((defaultEngine.importSnapshot nullSnapshot).run storeABC).1 = .ok .undefined
    ∧ ((defaultEngine.importSnapshot nullSnapshot).run storeABC).2.1 = ⟨.null⟩
    ∧ ((defaultEngine.get "a").run ⟨.null⟩).1 = .error typeError
    ∧ ((defaultEngine.has "a").run ⟨.null⟩).1 = .error typeError
    ∧ ((defaultEngine.keys).run ⟨.null⟩).1 = .error typeError
    ∧ ((defaultEngine.values).run ⟨.null⟩).1 = .error typeError
    ∧ ((defaultEngine.size).run ⟨.null⟩).1 = .error typeError
    ∧ ((defaultEngine.importSnapshot malformedSnapshot).run storeABC).1
        = .error (.native "SyntaxError")
    ∧ ((defaultEngine.importSnapshot malformedSnapshot).run storeABC).2.1 = storeABC :=
  ⟨rfl, rfl, rfl, rfl, rfl, rfl, rfl, rfl, rfl⟩

end FuseDB
